import Mathlib

/-!
# Limit-order matching engine (`src/main.cpp`)

A shallow embedding of the single-instrument matching engine of `src/main.cpp`
and a verification of its order-book properties.

Modelling conventions.

* `uint32_t` values (`PriceType`, `QuantityType`) are natural numbers; every
  arithmetic operation of the source on them is written with an explicit
  `% 2 ^ 32`.
* `std::vector<Order>` is a `List Order` (front of the vector = head of the list).
* `std::map<PriceType, OrdersData>` is a list of `(price, queue)` pairs kept in
  strictly ascending key order; forward iteration walks the list, reverse
  iteration walks the reversed list.
* `std::unordered_map<OrderId, PriceType>` is an association list with at most one
  entry per key.
* `std::cout` is a list of output lines, oldest first.
* The three loops of the matching code whose termination is not structural
  (`while (!ordersData.empty())`, and the two `do ... while`) are driven by a
  counter that is initialised from the data; the unfolding lemmas
  `tradeOrders_unfold` and `tradeLoop_eq_scan` show that the counter is never
  exhausted.
-/

namespace engine

/-- Source types `PriceType` and `QuantityType` (`uint32_t`): natural numbers, kept
below `2 ^ 32` by the explicit reductions in the operations. They are written `Nat` in the
signatures below. -/
abbrev PriceType := Nat
abbrev QuantityType := Nat

/-- Source type `OrderId` (`std::string`), written `String` in the signatures below. -/
abbrev OrderId := String

def EXPECTED_ORDER_COULMNS : Nat := 5
def EXPECTED_CANCEL_COLUMNS : Nat := 2
def EXPECTED_MODIFY_COLUMNS : Nat := 5

inductive TradeOperation where
  | Unknown
  | Sell
  | Buy
  deriving DecidableEq, Repr

inductive OrderType where
  | Unknown
  | GFD
  | IOC
  deriving DecidableEq, Repr

/-! ## Tokenizer (`ColumnsData`) -/

/-- One entry of `ColumnsData::items`: the characters between `first` and `second`,
and the C string that starts at `first` (the rest of the line buffer), which is what
`atoi(item.first)` reads. -/
structure Item where
  token : List Char
  cstr : List Char
  deriving DecidableEq, Repr

/-- The character loop of `ColumnsData::parseLine`. `cur = none` means that the last
item has `first == nullptr`; `cur = some (tok, start)` means that `first` is set (to the
position where `start` begins) and `tok` are the characters seen since. -/
def parseLineAux : Option (List Char × List Char) → List Char → List Item
  | none, [] => []
  | some (tok, start), [] => [⟨tok, start⟩]
  | none, c :: cs =>
    if c = ' ' then parseLineAux none cs else parseLineAux (some ([c], c :: cs)) cs
  | some (tok, start), c :: cs =>
    if c = ' ' then ⟨tok, start⟩ :: parseLineAux none cs
    else parseLineAux (some (tok ++ [c], start)) cs

/-- The tokenizer state: the items of the current line and the read index. -/
structure ColumnsData where
  items : List Item
  index : Nat
  deriving DecidableEq, Repr

namespace ColumnsData

def parseLine (line : String) : ColumnsData :=
  { items := parseLineAux none line.data, index := 0 }

def getColumnsCount (c : ColumnsData) : Nat := c.items.length

def empty (c : ColumnsData) : Bool := c.items.isEmpty

def forward (c : ColumnsData) : ColumnsData := { c with index := c.index + 1 }

def compare (c : ColumnsData) (str : String) : Bool :=
  match c.items.get? c.index with
  | none => false
  | some item => decide (item.token = str.data)

def getStringAndForward (c : ColumnsData) : String × ColumnsData :=
  match c.items.get? c.index with
  | none => ("", c)
  | some item => (String.mk item.token, { c with index := c.index + 1 })

end ColumnsData

/-! ## `atoi` -/

/-- The characters `isspace` accepts in the C locale. -/
def isspace (c : Char) : Bool :=
  c = ' ' || c = '\t' || c = '\n' || c = Char.ofNat 11 || c = Char.ofNat 12 || c = '\r'

def isdigit (c : Char) : Bool := decide ('0' ≤ c ∧ c ≤ '9')

/-- Value of the longest prefix of decimal digits, accumulated onto `acc`. -/
def digitsValue : Nat → List Char → Nat
  | acc, [] => acc
  | acc, c :: cs => if isdigit c then digitsValue (10 * acc + (c.toNat - '0'.toNat)) cs else acc

def skipSpaces : List Char → List Char
  | [] => []
  | c :: cs => if isspace c then skipSpaces cs else c :: cs

/-- The signed value `strtol` reads, before any range handling. -/
def signedValue (s : List Char) : Int :=
  match skipSpaces s with
  | '-' :: cs => - (digitsValue 0 cs : Int)
  | '+' :: cs => (digitsValue 0 cs : Int)
  | cs => (digitsValue 0 cs : Int)

/-- Conversion of a `long` to `int` (two's complement truncation to 32 bits). -/
def toInt32 (n : Int) : Int :=
  let m := n % (2 ^ 32 : Int)
  if m < 2 ^ 31 then m else m - 2 ^ 32

/-- Library function `atoi`, as `(int) strtol(s, NULL, 10)`: leading white space, an
optional sign, then decimal digits. Values outside the range of `long` saturate, and
the conversion to `int` truncates (the C standard leaves the out-of-range case
undefined; this is what the usual C library does). -/
def atoi (s : List Char) : Int :=
  let v := signedValue s
  let clamped : Int := if v < -(2 ^ 63) then -(2 ^ 63) else if 2 ^ 63 - 1 < v then 2 ^ 63 - 1 else v
  toInt32 clamped

def ColumnsData.getIntegerAndForward (c : ColumnsData) : Int × ColumnsData :=
  match c.items.get? c.index with
  | none => (0, c)
  | some item => (atoi item.cstr, { c with index := c.index + 1 })

def getTradeOperation (columns : ColumnsData) : TradeOperation :=
  if columns.compare "BUY" then TradeOperation.Buy
  else if columns.compare "SELL" then TradeOperation.Sell
  else TradeOperation.Unknown

def getOrderType (columns : ColumnsData) : OrderType :=
  if columns.compare "GFD" then OrderType.GFD
  else if columns.compare "IOC" then OrderType.IOC
  else OrderType.Unknown

/-! ## `Order` -/

structure Order where
  orderId : String := ""
  price : Nat := 0
  quantity : Nat := 0
  orderType : OrderType := OrderType.Unknown
  tradeOperation : TradeOperation := TradeOperation.Unknown
  valid : Bool := false
  deriving DecidableEq, Repr

namespace Order

/-- Conversion `PriceType(n)` / `QuantityType(n)` of an `int` to `uint32_t`. -/
def toU32 (n : Int) : Nat := (n % (2 ^ 32 : Int)).toNat

/-- Constructor `Order(ColumnsData&)`. Every early `return` leaves the members
assigned so far and `valid == false`. -/
def ofColumns (columns : ColumnsData) : Order :=
  if columns.getColumnsCount ≠ EXPECTED_ORDER_COULMNS then {}
  else
    let tradeOperation := getTradeOperation columns
    if tradeOperation = TradeOperation.Unknown then {}
    else
      let columns := columns.forward
      let orderType := getOrderType columns
      if orderType = OrderType.Unknown then { tradeOperation := tradeOperation }
      else
        let columns := columns.forward
        let (newPrice, columns) := columns.getIntegerAndForward
        if newPrice ≤ 0 then { tradeOperation := tradeOperation, orderType := orderType }
        else
          let price := toU32 newPrice
          let (newQuantity, columns) := columns.getIntegerAndForward
          if newQuantity ≤ 0 then
            { tradeOperation := tradeOperation, orderType := orderType, price := price }
          else
            let quantity := toU32 newQuantity
            let (orderId, _) := columns.getStringAndForward
            { orderId := orderId, price := price, quantity := quantity,
              orderType := orderType, tradeOperation := tradeOperation, valid := true }

/-- Constructor `Order(id, newPrice, newQuantity, operation)` used by MODIFY. -/
def ofFields (id : String) (newPrice : Nat) (newQuantity : Nat)
    (operation : TradeOperation) : Order :=
  { orderId := id, price := newPrice, quantity := newQuantity,
    orderType := OrderType.GFD, tradeOperation := operation, valid := true }

def isValidFormat (o : Order) : Bool := o.valid
def getOrderId (o : Order) : String := o.orderId
def getPrice (o : Order) : Nat := o.price
def getQuantity (o : Order) : Nat := o.quantity
def isInsertOrCancel (o : Order) : Bool := decide (o.orderType = OrderType.IOC)
def isBuying (o : Order) : Bool := decide (o.tradeOperation = TradeOperation.Buy)

/-- Method `quantity -= subtractQuantity` on `uint32_t`. -/
def subtract (o : Order) (subtractQuantity : Nat) : Order :=
  { o with quantity := (o.quantity + 2 ^ 32 - subtractQuantity % 2 ^ 32) % 2 ^ 32 }

end Order

/-! ## `OrdersData`: the queue of one price level -/

structure OrdersData where
  orders : List Order := []
  totalQuantity : Nat := 0
  deriving DecidableEq, Repr

namespace OrdersData

def addOrder (d : OrdersData) (order : Order) : OrdersData :=
  { orders := d.orders ++ [order],
    totalQuantity := (d.totalQuantity + order.getQuantity) % 2 ^ 32 }

/-- Overload `eraseOrder(const OrderId&)`: erase the first order with that id. -/
def eraseOrderById (d : OrdersData) (orderId : String) : OrdersData :=
  match d.orders.find? (fun order => decide (order.getOrderId = orderId)) with
  | none => d
  | some found =>
    { orders := d.orders.eraseP (fun order => decide (order.getOrderId = orderId)),
      totalQuantity := (d.totalQuantity + 2 ^ 32 - found.getQuantity % 2 ^ 32) % 2 ^ 32 }

/-- Overload `eraseOrder(uint32_t index)`. -/
def eraseOrder (d : OrdersData) (index : Nat) : OrdersData :=
  match d.orders.get? index with
  | none => d
  | some o =>
    { orders := d.orders.eraseIdx index,
      totalQuantity := (d.totalQuantity + 2 ^ 32 - o.getQuantity % 2 ^ 32) % 2 ^ 32 }

def subtract (d : OrdersData) (index : Nat) (quantity : Nat) : OrdersData :=
  match d.orders.get? index with
  | none => d
  | some o =>
    let order := o.subtract quantity
    let d1 : OrdersData := { d with orders := d.orders.set index order }
    if order.getQuantity = 0 then d1.eraseOrder index
    else { d1 with totalQuantity := (d1.totalQuantity + 2 ^ 32 - quantity % 2 ^ 32) % 2 ^ 32 }

def empty (d : OrdersData) : Bool := d.orders.isEmpty
def getQuantity (d : OrdersData) : Nat := d.totalQuantity

end OrdersData

/-! ## Output lines -/

/-- One line written to `std::cout`. -/
inductive Output where
  /-- Line `TRADE id2 price2 q id1 price1 q` of `printTrade(order1, order2)`. -/
  | trade (restingId : String) (restingPrice : Nat) (restingQuantity : Nat)
      (incomingId : String) (incomingPrice : Nat) (incomingQuantity : Nat)
  /-- Line `SELL:` or `BUY:` of `printPricesMap`. -/
  | group (name : String)
  /-- Line `price quantity` of `printPricesMap`. -/
  | level (price : Nat) (quantity : Nat)
  deriving DecidableEq, Repr

/-- Text of an output line, without the final newline. -/
def Output.render : Output → String
  | .trade rid rp rq iid ip iq =>
    "TRADE " ++ rid ++ " " ++ toString rp ++ " " ++ toString rq ++ " " ++
      iid ++ " " ++ toString ip ++ " " ++ toString iq
  | .group name => name
  | .level p q => toString p ++ " " ++ toString q

/-! ## The two maps of the engine -/

/-- Type `std::map<PriceType, OrdersData>`: the entries in ascending key order. -/
abbrev PricesMap := List (Nat × OrdersData)

/-- Type `std::unordered_map<OrderId, PriceType>`. -/
abbrev OrderToPrice := List (String × Nat)

namespace PricesMap

/-- Statement `m[price].f()`: `operator[]` inserts an empty `OrdersData` at the sorted
position when the key is absent, then `f` is applied to the mapped value. -/
def updateAt (f : OrdersData → OrdersData) (price : Nat) : PricesMap → PricesMap
  | [] => [(price, f {})]
  | (p, d) :: rest =>
    if price < p then (price, f {}) :: (p, d) :: rest
    else if price = p then (p, f d) :: rest
    else (p, d) :: updateAt f price rest

/-- Statement `it = m.find(price); if (it != m.end()) it->second.f()`. -/
def updateIfPresent (f : OrdersData → OrdersData) (price : Nat) : PricesMap → PricesMap
  | [] => []
  | (p, d) :: rest =>
    if p = price then (p, f d) :: rest else (p, d) :: updateIfPresent f price rest

end PricesMap

namespace OrderToPrice

def find (m : OrderToPrice) (orderId : String) : Option Nat :=
  (m.find? (fun e => decide (e.1 = orderId))).map Prod.snd

def count (m : OrderToPrice) (orderId : String) : Nat :=
  if (m.find orderId).isSome then 1 else 0

def erase (m : OrderToPrice) (orderId : String) : OrderToPrice :=
  m.filter (fun e => !decide (e.1 = orderId))

/-- Method `emplace(key, value)`: the new map and the `.second` of the returned pair. -/
def emplace (m : OrderToPrice) (orderId : String) (price : Nat) : OrderToPrice × Bool :=
  if (m.find orderId).isSome then (m, false) else (m ++ [(orderId, price)], true)

end OrderToPrice

/-! ## `MatchingEngine` -/

/-- The persistent members of `MatchingEngine`. The member `columnsData` is overwritten
by `parseLine` at the start of every `runCommand`, so it is passed as a local value. -/
structure MatchingEngine where
  buyPrices : PricesMap := []
  sellPrices : PricesMap := []
  orderToPrice : OrderToPrice := []
  deriving DecidableEq, Repr

/-- What the inner `trade(Order&, OrdersData&)` leaves behind: its return value, the
incoming order, the queue, the id index and the output written so far. -/
structure LevelResult where
  result : Bool
  order : Order
  ordersData : OrdersData
  orderToPrice : OrderToPrice
  out : List Output
  deriving DecidableEq, Repr

/-- What one `for` loop over the price levels leaves behind. -/
structure ScanResult where
  result : Bool
  order : Order
  levels : List (Nat × OrdersData)
  orderToPrice : OrderToPrice
  out : List Output
  deriving DecidableEq, Repr

/-- What `trade(Order&)` leaves behind. -/
structure TradeResult where
  result : Bool
  order : Order
  engine : MatchingEngine
  out : List Output
  deriving DecidableEq, Repr

namespace MatchingEngine

def printTrade (order1 order2 : Order) : Output :=
  let tradeQuantity := min order1.getQuantity order2.getQuantity
  Output.trade order2.getOrderId order2.getPrice tradeQuantity
    order1.getOrderId order1.getPrice tradeQuantity

/-- The `while (!ordersData.empty())` loop of `trade(Order&, OrdersData&)`; `n` counts
the iterations that are still allowed. -/
def tradeOrdersLoop : Nat → Order → OrdersData → OrderToPrice → List Output → LevelResult
  | 0, order, ordersData, orderToPrice, out =>
    { result := false, order := order, ordersData := ordersData,
      orderToPrice := orderToPrice, out := out }
  | n + 1, order, ordersData, orderToPrice, out =>
    match ordersData.orders with
    | [] =>
      { result := false, order := order, ordersData := ordersData,
        orderToPrice := orderToPrice, out := out }
    | orderIt :: _ =>
      if orderIt.getQuantity > order.getQuantity then
        { result := true, order := order,
          ordersData := ordersData.subtract 0 order.getQuantity,
          orderToPrice := orderToPrice, out := out ++ [printTrade order orderIt] }
      else if orderIt.getQuantity < order.getQuantity then
        tradeOrdersLoop n (order.subtract orderIt.getQuantity) (ordersData.eraseOrder 0)
          (orderToPrice.erase orderIt.getOrderId) (out ++ [printTrade order orderIt])
      else
        { result := true, order := order, ordersData := ordersData.eraseOrder 0,
          orderToPrice := orderToPrice.erase orderIt.getOrderId,
          out := out ++ [printTrade order orderIt] }

/-- Overload `trade(Order&, OrdersData&)`. Every iteration that continues erases the
front order, so `orders.size() + 1` iterations are enough. -/
def tradeOrders (order : Order) (ordersData : OrdersData) (orderToPrice : OrderToPrice)
    (out : List Output) : LevelResult :=
  tradeOrdersLoop (ordersData.orders.length + 1) order ordersData orderToPrice out

/-- The `for` loop over price levels of `trade(Order&)`, in iteration order. `stop` is
the `break` test on the level price: `price > order.getPrice()` for a buy order walking
`sellPrices` forwards, `price < order.getPrice()` for a sell order walking `buyPrices`
backwards. -/
def scanLevels (stop : Nat → Bool) :
    Order → OrderToPrice → List Output → List (Nat × OrdersData) → ScanResult
  | order, orderToPrice, out, [] =>
    { result := false, order := order, levels := [], orderToPrice := orderToPrice, out := out }
  | order, orderToPrice, out, (price, ordersData) :: rest =>
    if stop price then
      { result := false, order := order, levels := (price, ordersData) :: rest,
        orderToPrice := orderToPrice, out := out }
    else
      let r := tradeOrders order ordersData orderToPrice out
      if r.result then
        { result := true, order := r.order, levels := (price, r.ordersData) :: rest,
          orderToPrice := r.orderToPrice, out := r.out }
      else
        let s := scanLevels stop r.order r.orderToPrice r.out rest
        { s with levels := (price, r.ordersData) :: s.levels }

/-- The `do ... while (quantityTraded != order.getQuantity())` loop of the buy branch of
`trade(Order&)`; `n` counts the passes that are still allowed. -/
def tradeBuyLoop : Nat → Order → MatchingEngine → List Output → TradeResult
  | 0, order, e, out => { result := false, order := order, engine := e, out := out }
  | n + 1, order, e, out =>
    if e.sellPrices.isEmpty then { result := false, order := order, engine := e, out := out }
    else
      let quantityTraded := order.getQuantity
      let s := scanLevels (fun price => decide (price > order.getPrice)) order e.orderToPrice out
        e.sellPrices
      let e1 : MatchingEngine := { e with sellPrices := s.levels, orderToPrice := s.orderToPrice }
      if s.result then { result := true, order := s.order, engine := e1, out := s.out }
      else if quantityTraded ≠ s.order.getQuantity then tradeBuyLoop n s.order e1 s.out
      else { result := false, order := s.order, engine := e1, out := s.out }

/-- The `do ... while` loop of the sell branch of `trade(Order&)`: `buyPrices` is walked
from `rbegin()` to `rend()`. -/
def tradeSellLoop : Nat → Order → MatchingEngine → List Output → TradeResult
  | 0, order, e, out => { result := false, order := order, engine := e, out := out }
  | n + 1, order, e, out =>
    if e.buyPrices.isEmpty then { result := false, order := order, engine := e, out := out }
    else
      let quantityTraded := order.getQuantity
      let s := scanLevels (fun price => decide (price < order.getPrice)) order e.orderToPrice out
        e.buyPrices.reverse
      let e1 : MatchingEngine :=
        { e with buyPrices := s.levels.reverse, orderToPrice := s.orderToPrice }
      if s.result then { result := true, order := s.order, engine := e1, out := s.out }
      else if quantityTraded ≠ s.order.getQuantity then tradeSellLoop n s.order e1 s.out
      else { result := false, order := s.order, engine := e1, out := s.out }

/-- Overload `trade(Order&)`. A pass is repeated only after it lowered the quantity of
the incoming order, so `quantity + 1` passes are enough. -/
def trade (order : Order) (e : MatchingEngine) (out : List Output) : TradeResult :=
  if order.isBuying then tradeBuyLoop (order.getQuantity + 1) order e out
  else tradeSellLoop (order.getQuantity + 1) order e out

def isOrderExists (e : MatchingEngine) (orderId : String) : Bool :=
  decide (e.orderToPrice.count orderId > 0)

def placeOrder (e : MatchingEngine) (order : Order) (out : List Output) :
    MatchingEngine × List Output :=
  if e.isOrderExists order.getOrderId then (e, out)
  else
    let t := trade order e out
    if t.result then (t.engine, t.out)
    else if t.order.isInsertOrCancel then (t.engine, t.out)
    else
      let (index, inserted) := t.engine.orderToPrice.emplace t.order.getOrderId t.order.getPrice
      if !inserted then ({ t.engine with orderToPrice := index }, t.out)
      else if t.order.isBuying then
        ({ t.engine with
            orderToPrice := index
            buyPrices := PricesMap.updateAt (fun d => d.addOrder t.order) t.order.getPrice
              t.engine.buyPrices }, t.out)
      else
        ({ t.engine with
            orderToPrice := index
            sellPrices := PricesMap.updateAt (fun d => d.addOrder t.order) t.order.getPrice
              t.engine.sellPrices }, t.out)

def removeOrderInMap (orderId : String) (price : Nat) (pricesMap : PricesMap) :
    PricesMap :=
  PricesMap.updateIfPresent (fun d => d.eraseOrderById orderId) price pricesMap

def cancelOrder (e : MatchingEngine) (orderId : String) : MatchingEngine :=
  match e.orderToPrice.find orderId with
  | none => e
  | some price =>
    { buyPrices := removeOrderInMap orderId price e.buyPrices
      sellPrices := removeOrderInMap orderId price e.sellPrices
      orderToPrice := e.orderToPrice.erase orderId }

def printPricesMap (pricesMap : PricesMap) (group : String) : List Output :=
  Output.group group ::
    (pricesMap.reverse.filter (fun l => decide (l.2.getQuantity > 0))).map
      (fun l => Output.level l.1 l.2.getQuantity)

def printOrders (e : MatchingEngine) : List Output :=
  printPricesMap e.sellPrices "SELL:" ++ printPricesMap e.buyPrices "BUY:"

def modifyOrder (e : MatchingEngine) (columnsData : ColumnsData) (out : List Output) :
    MatchingEngine × List Output :=
  let columnsData := columnsData.forward
  let (orderId, columnsData) := columnsData.getStringAndForward
  if !e.isOrderExists orderId then (e, out)
  else
    let newTradeOperation := getTradeOperation columnsData
    if newTradeOperation = TradeOperation.Unknown then (e, out)
    else
      let columnsData := columnsData.forward
      let (newPrice, columnsData) := columnsData.getIntegerAndForward
      if newPrice ≤ 0 then (e, out)
      else
        let (newQuantity, _) := columnsData.getIntegerAndForward
        if newQuantity ≤ 0 then (e, out)
        else
          placeOrder (e.cancelOrder orderId)
            (Order.ofFields orderId (Order.toU32 newPrice) (Order.toU32 newQuantity)
              newTradeOperation) out

/-- Method `runCommand`: the engine after the line and the output lines it wrote. -/
def runCommand (e : MatchingEngine) (line : String) : MatchingEngine × List Output :=
  let columnsData := ColumnsData.parseLine line
  if columnsData.empty then (e, [])
  else if columnsData.compare "CANCEL" then
    if columnsData.getColumnsCount = EXPECTED_CANCEL_COLUMNS then
      let columnsData := columnsData.forward
      (e.cancelOrder columnsData.getStringAndForward.1, [])
    else (e, [])
  else if columnsData.compare "MODIFY" then
    if columnsData.getColumnsCount = EXPECTED_MODIFY_COLUMNS then modifyOrder e columnsData []
    else (e, [])
  else if columnsData.compare "PRINT" then (e, printOrders e)
  else
    let order := Order.ofColumns columnsData
    if !order.isValidFormat then (e, [])
    else placeOrder e order []

/-- The engine and the accumulated output after a sequence of input lines (the loop of
`main`). -/
def runLines (e : MatchingEngine) (lines : List String) : MatchingEngine × List Output :=
  lines.foldl (fun acc line => let r := runCommand acc.1 line; (r.1, acc.2 ++ r.2)) (e, [])

end MatchingEngine

/-- States of the engine that `main` can reach: the empty book, and what `runCommand`
makes of a reachable state on any input line. -/
inductive Reachable : MatchingEngine → Prop where
  | init : Reachable {}
  | step (e : MatchingEngine) (line : String) : Reachable e → Reachable (e.runCommand line).1

/-! ## Reference description of a matching pass

The functions of this section are not part of the source. They describe, on the plain
list of resting orders in the order in which the matching code visits them, what one
matching pass does; the theorems below prove that the embedded code agrees with them. -/

/-- The resting orders of a list of levels, in iteration order, each paired with the key
of the level that stores it. -/
def flatK (levels : List (Nat × OrdersData)) : List (Nat × Order) :=
  levels.flatMap (fun l => l.2.orders.map (fun o => (l.1, o)))

/-- Whether an incoming quantity `q` is used up by the listed resting orders. -/
def fillDone : Nat → List (Nat × Order) → Bool
  | _, [] => false
  | q, (_, o) :: t =>
    if o.quantity > q then true
    else if o.quantity < q then fillDone (q - o.quantity) t
    else true

/-- The value of the incoming order's quantity field when the pass ends. -/
def fillRem : Nat → List (Nat × Order) → Nat
  | q, [] => q
  | q, (_, o) :: t =>
    if o.quantity > q then q
    else if o.quantity < q then fillRem (q - o.quantity) t
    else q

/-- The resting orders that the pass removes. -/
def fillGone : Nat → List (Nat × Order) → List (Nat × Order)
  | _, [] => []
  | q, (k, o) :: t =>
    if o.quantity > q then []
    else if o.quantity < q then (k, o) :: fillGone (q - o.quantity) t
    else [(k, o)]

/-- The resting orders that the pass leaves. -/
def fillRest : Nat → List (Nat × Order) → List (Nat × Order)
  | _, [] => []
  | q, (k, o) :: t =>
    if o.quantity > q then (k, { o with quantity := o.quantity - q }) :: t
    else if o.quantity < q then fillRest (q - o.quantity) t
    else t

/-- The TRADE lines of the pass for an incoming order with id `incId` and price
`incPrice`. -/
def fillTrades (incId : String) (incPrice : Nat) : Nat → List (Nat × Order) → List Output
  | _, [] => []
  | q, (_, o) :: t =>
    if o.quantity > q then [Output.trade o.orderId o.price q incId incPrice q]
    else if o.quantity < q then
      Output.trade o.orderId o.price o.quantity incId incPrice o.quantity ::
        fillTrades incId incPrice (q - o.quantity) t
    else [Output.trade o.orderId o.price q incId incPrice q]

/-- Erase a list of ids from the index, one after the other. -/
def eraseAll (idx : OrderToPrice) (ids : List String) : OrderToPrice :=
  ids.foldl OrderToPrice.erase idx

/-- The levels the `for` loop of `trade(Order&)` enters: those before the first level at
which the `break` test `stop` holds. -/
def crossing (stop : Nat → Bool) (levels : List (Nat × OrdersData)) : List (Nat × OrdersData) :=
  levels.takeWhile (fun l => !stop l.1)

/-- The levels from the first one at which the `break` test holds. -/
def beyond (stop : Nat → Bool) (levels : List (Nat × OrdersData)) : List (Nat × OrdersData) :=
  levels.dropWhile (fun l => !stop l.1)

/-- Result of `trade(Order&)` for a buy order, as one pass over `sellPrices`. -/
def MatchingEngine.buyPass (order : Order) (e : MatchingEngine) (out : List Output) : TradeResult :=
  let s := MatchingEngine.scanLevels (fun price => decide (price > order.getPrice)) order e.orderToPrice out
    e.sellPrices
  { result := s.result, order := s.order,
    engine := { e with sellPrices := s.levels, orderToPrice := s.orderToPrice }, out := s.out }

/-- Result of `trade(Order&)` for a sell order, as one pass over `buyPrices` from the
highest price down. -/
def MatchingEngine.sellPass (order : Order) (e : MatchingEngine) (out : List Output) : TradeResult :=
  let s := MatchingEngine.scanLevels (fun price => decide (price < order.getPrice)) order e.orderToPrice out
    e.buyPrices.reverse
  { result := s.result, order := s.order,
    engine := { e with buyPrices := s.levels.reverse, orderToPrice := s.orderToPrice },
    out := s.out }


/-! ## Well-formedness and the invariant of the book -/

/-- An order that `placeOrder` can receive: the result of a successful parse of a
new-order line, or the order built by MODIFY. -/
def Order.WellFormed (o : Order) : Prop :=
  o.valid = true ∧ 0 < o.price ∧ o.price < 2 ^ 31 ∧ 0 < o.quantity ∧ o.quantity < 2 ^ 31 ∧
    o.tradeOperation ≠ TradeOperation.Unknown ∧ o.orderType ≠ OrderType.Unknown

/-- What holds of a resting order `x.2` stored in the level with key `x.1` of the map of
side `side`. -/
def RestingOK (side : TradeOperation) (x : Nat × Order) : Prop :=
  x.2.price = x.1 ∧ 0 < x.1 ∧ 0 < x.2.quantity ∧ x.2.quantity < 2 ^ 31 ∧
    x.2.tradeOperation = side

/-- Level key and id of a resting order. -/
def keyId (x : Nat × Order) : Nat × String := (x.1, x.2.orderId)

/-- All resting orders with their level keys: bids, then asks. -/
def MatchingEngine.resting (e : MatchingEngine) : List (Nat × Order) :=
  flatK e.buyPrices ++ flatK e.sellPrices

/-- The invariant of the reachable states of the engine. -/
structure Inv (e : MatchingEngine) : Prop where
  buySorted : (e.buyPrices.map Prod.fst).Pairwise (fun a b => a < b)
  sellSorted : (e.sellPrices.map Prod.fst).Pairwise (fun a b => a < b)
  buyOK : ∀ x ∈ flatK e.buyPrices, RestingOK TradeOperation.Buy x
  sellOK : ∀ x ∈ flatK e.sellPrices, RestingOK TradeOperation.Sell x
  idsNodup : (e.resting.map (fun x => x.2.orderId)).Nodup
  keysNodup : (e.orderToPrice.map Prod.fst).Nodup
  index : ∀ id p, e.orderToPrice.find id = some p ↔ (p, id) ∈ e.resting.map keyId
  noCross : ∀ b ∈ flatK e.buyPrices, ∀ a ∈ flatK e.sellPrices, b.1 < a.1

/-- A resting order `x` that comes from the resting order `y` by a (possibly zero)
reduction of its quantity, in the same level. -/
def Derived (x y : Nat × Order) : Prop :=
  x.1 = y.1 ∧ x.2 = { y.2 with quantity := x.2.quantity } ∧ x.2.quantity ≤ y.2.quantity ∧
    (0 < y.2.quantity → 0 < x.2.quantity)

/-! ## Example books -/

/-- A book with one resting bid and one resting ask. -/
def exTwoSided : MatchingEngine :=
  (MatchingEngine.runLines {} ["BUY GFD 99 10 B1", "SELL GFD 100 5 S1"]).1

/-- The bid level of `exTwoSided`. -/
def exBidLevel : Nat × OrdersData :=
  (99, { orders := [Order.mk "B1" 99 10 OrderType.GFD TradeOperation.Buy true],
         totalQuantity := 10 })

/-- The ask level of `exTwoSided`. -/
def exAskLevel : Nat × OrdersData :=
  (100, { orders := [Order.mk "S1" 100 5 OrderType.GFD TradeOperation.Sell true],
          totalQuantity := 5 })

/-- The resting orders an incoming order can be matched against, in the order in which
`trade(Order&)` visits them: the asks from the lowest price up for a buy order, the bids
from the highest price down for a sell order, each level in queue order. -/
def priority (order : Order) (e : MatchingEngine) : List (Nat × Order) :=
  if order.isBuying then flatK e.sellPrices else flatK e.buyPrices.reverse

/-- The part of `priority` that lies in the levels the `for` loop enters. -/
def crossList (order : Order) (e : MatchingEngine) : List (Nat × Order) :=
  if order.isBuying then
    flatK (crossing (fun price => decide (price > order.getPrice)) e.sellPrices)
  else flatK (crossing (fun price => decide (price < order.getPrice)) e.buyPrices.reverse)

/-- The part of `priority` from the first level at which the `for` loop breaks. -/
def beyondList (order : Order) (e : MatchingEngine) : List (Nat × Order) :=
  if order.isBuying then
    flatK (beyond (fun price => decide (price > order.getPrice)) e.sellPrices)
  else flatK (beyond (fun price => decide (price < order.getPrice)) e.buyPrices.reverse)

/-- Sum of the remaining quantities of a list of resting orders. -/
def totalQty (l : List (Nat × Order)) : Nat := (l.map (fun x => x.2.quantity)).sum

/-- Quantity of a TRADE line (0 for the other lines). -/
def Output.tradeQuantity : Output → Nat
  | .trade _ _ q _ _ _ => q
  | _ => 0

/-- A book with three resting asks on two price levels. -/
def exAsks : MatchingEngine :=
  (MatchingEngine.runLines {}
    ["SELL GFD 100 5 S1", "SELL GFD 101 5 S2", "SELL GFD 100 5 S3"]).1

/-- A buy order that crosses both ask levels of `exAsks`. -/
def exBuy : Order := Order.mk "B1" 101 12 OrderType.GFD TradeOperation.Buy true

/-- Whether the price of a resting order of the opposite side crosses the limit price of
the incoming order: ask price `≤` buy price, or bid price `≥` sell price. -/
def crosses (order : Order) (x : Nat × Order) : Bool :=
  if order.isBuying then decide (x.2.price ≤ order.price) else decide (order.price ≤ x.2.price)

/-- The book after `SELL GFD 100 10 S1`. -/
def exOneAsk : MatchingEngine := (MatchingEngine.runLines {} ["SELL GFD 100 10 S1"]).1

/-- The order of the line `BUY GFD 100 5 B1`. -/
def exSmallBuy : Order := Order.ofColumns (ColumnsData.parseLine "BUY GFD 100 5 B1")

/-- The order of the line `BUY GFD 100 15 B2`. -/
def exLargeBuy : Order := Order.ofColumns (ColumnsData.parseLine "BUY GFD 100 15 B2")

/-- The book after `SELL GFD 100 5 S1`. -/
def exSmallAsk : MatchingEngine := (MatchingEngine.runLines {} ["SELL GFD 100 5 S1"]).1

/-- The order of the line `BUY IOC 100 10 B1`. -/
def exIocBuy : Order := Order.ofColumns (ColumnsData.parseLine "BUY IOC 100 10 B1")

/-- The order of the line `BUY IOC 100 5 B1`, whose id rests in `exTwoSided`. -/
def exIocDuplicate : Order := Order.ofColumns (ColumnsData.parseLine "BUY IOC 100 5 B1")

/-- The tokens of an input line, as `ColumnsData::parseLine` splits it. -/
def tokens (line : String) : List String :=
  (ColumnsData.parseLine line).items.map (fun item => String.mk item.token)

/-- The book after `BUY GFD 100 10 B1`. -/
def exOneBid : MatchingEngine := (MatchingEngine.runLines {} ["BUY GFD 100 10 B1"]).1

/-! ## The cached aggregate quantity -/

/-- Exact sum of the remaining quantities of the orders of a queue. -/
def queueSum (orders : List Order) : Nat := (orders.map (fun o => o.quantity)).sum

/-- The cached counter of a level agrees with the sum of its members, as far as a 32-bit
counter can: modulo `2 ^ 32`. -/
def LevelSync (d : OrdersData) : Prop := d.totalQuantity = queueSum d.orders % 2 ^ 32

/-- Every level of both maps has its counter in sync. -/
def Totals (e : MatchingEngine) : Prop :=
  (∀ l ∈ e.buyPrices, LevelSync l.2) ∧ (∀ l ∈ e.sellPrices, LevelSync l.2)

/-- The book after three buy orders of quantity `2 ^ 31 - 1` at one price. -/
def exOverflow : MatchingEngine :=
  (MatchingEngine.runLines {}
    ["BUY GFD 1 2147483647 A1", "BUY GFD 1 2147483647 A2", "BUY GFD 1 2147483647 A3"]).1

/-- The book after `BUY GFD 100 10 B1`, `CANCEL B1`. -/
def exCancelled : MatchingEngine :=
  (MatchingEngine.runLines {} ["BUY GFD 100 10 B1", "CANCEL B1"]).1

/-- The lines PRINT writes for one side of a book whose counters have not wrapped: the
levels that hold an order, from the highest price down, each with the sum of its
members' quantities. -/
def snapshotLines (pricesMap : PricesMap) : List Output :=
  (pricesMap.reverse.filter (fun l => !l.2.orders.isEmpty)).map
    (fun l => Output.level l.1 (queueSum l.2.orders))

/-- The side a token stands for, as `getTradeOperation` reads it. -/
def sideOfToken (t : List Char) : TradeOperation :=
  if t = "BUY".data then TradeOperation.Buy
  else if t = "SELL".data then TradeOperation.Sell
  else TradeOperation.Unknown

/-- The time-in-force a token stands for, as `getOrderType` reads it. -/
def typeOfToken (t : List Char) : OrderType :=
  if t = "GFD".data then OrderType.GFD
  else if t = "IOC".data then OrderType.IOC
  else OrderType.Unknown

/-- The map of the side of an order. -/
def ownSide (order : Order) (e : MatchingEngine) : PricesMap :=
  if order.isBuying then e.buyPrices else e.sellPrices

/-- The book after `BUY GFD 100 10 B1`, `BUY GFD 100 4 B3`. -/
def exTwoBids : MatchingEngine :=
  (MatchingEngine.runLines {} ["BUY GFD 100 10 B1", "BUY GFD 100 4 B3"]).1

/-- A queue whose counter is in sync: two resting orders of quantities 5 and 3. -/
def exLevel : OrdersData :=
  { orders := [Order.mk "S1" 100 5 OrderType.GFD TradeOperation.Sell true,
               Order.mk "S2" 100 3 OrderType.GFD TradeOperation.Sell true],
    totalQuantity := 8 }

/-- Every resting order of `e2` comes from a resting order of `e` on the same side by a
reduction of its quantity, or has an id that satisfies `P`. -/
def DerivedFrom (e e2 : MatchingEngine) (P : String → Prop) : Prop :=
  (∀ y ∈ flatK e2.buyPrices, (∃ x ∈ flatK e.buyPrices, Derived y x) ∨ P y.2.orderId) ∧
    (∀ y ∈ flatK e2.sellPrices, (∃ x ∈ flatK e.sellPrices, Derived y x) ∨ P y.2.orderId)

/-- The variant of `trade(Order&)` that makes exactly one `for` loop over the levels of
the opposite side, in priority order, and never repeats it. -/
def MatchingEngine.tradeSingleScan (order : Order) (e : MatchingEngine) (out : List Output) :
    TradeResult :=
  if order.isBuying then MatchingEngine.buyPass order e out
  else MatchingEngine.sellPass order e out

open MatchingEngine

/-! ## Basic facts about the queue operations -/

theorem OrdersData.eraseOrder_zero_orders (d : OrdersData) :
    (d.eraseOrder 0).orders = d.orders.tail := by
  unfold OrdersData.eraseOrder
  cases h : d.orders with
  | nil => simp [h]
  | cons o t => simp [h]

theorem OrdersData.subtract_zero_orders (d : OrdersData) (o : Order) (t : List Order)
    (q : Nat) (h : d.orders = o :: t) (hq : (o.subtract q).quantity ≠ 0) :
    (d.subtract 0 q).orders = o.subtract q :: t := by
  unfold OrdersData.subtract
  simp [h, Order.getQuantity, hq]

theorem Order.subtract_quantity (o : Order) (q : Nat) (hq : q ≤ o.quantity)
    (ho : o.quantity < 2 ^ 32) : o.subtract q = { o with quantity := o.quantity - q } := by
  unfold Order.subtract
  have h2 : (o.quantity + 2 ^ 32 - q % 2 ^ 32) % 2 ^ 32 = o.quantity - q := by omega
  rw [h2]

/-! ## The inner loop never runs out of iterations -/

theorem tradeOrdersLoop_succ (n : Nat) (order : Order) (d : OrdersData) (idx : OrderToPrice)
    (out : List Output) :
    tradeOrdersLoop (n + 1) order d idx out =
      match d.orders with
      | [] => { result := false, order := order, ordersData := d, orderToPrice := idx, out := out }
      | orderIt :: _ =>
        if orderIt.getQuantity > order.getQuantity then
          { result := true, order := order, ordersData := d.subtract 0 order.getQuantity,
            orderToPrice := idx, out := out ++ [printTrade order orderIt] }
        else if orderIt.getQuantity < order.getQuantity then
          tradeOrdersLoop n (order.subtract orderIt.getQuantity) (d.eraseOrder 0)
            (idx.erase orderIt.getOrderId) (out ++ [printTrade order orderIt])
        else
          { result := true, order := order, ordersData := d.eraseOrder 0,
            orderToPrice := idx.erase orderIt.getOrderId,
            out := out ++ [printTrade order orderIt] } := by
  rw [tradeOrdersLoop]

theorem tradeOrdersLoop_fuel (n : Nat) : ∀ (order : Order) (d : OrdersData) (idx : OrderToPrice)
    (out : List Output), d.orders.length < n →
    tradeOrdersLoop n order d idx out
      = tradeOrdersLoop (d.orders.length + 1) order d idx out := by
  induction n with
  | zero => intro _ d _ _ h; omega
  | succ n ih =>
    intro order d idx out h
    rw [tradeOrdersLoop_succ n, tradeOrdersLoop_succ d.orders.length]
    cases hd : d.orders with
    | nil => rfl
    | cons o t =>
      have ht : (d.eraseOrder 0).orders = t := by
        rw [OrdersData.eraseOrder_zero_orders, hd]; rfl
      have hlen : (d.eraseOrder 0).orders.length < n := by
        rw [ht]; rw [hd] at h; simpa using h
      simp only [List.length_cons]
      rw [ih _ _ _ _ hlen, ht]

/-- The loop equation of `trade(Order&, OrdersData&)`: the embedding takes exactly the
branches of the source's `while` loop. -/
theorem tradeOrders_unfold (order : Order) (d : OrdersData) (idx : OrderToPrice)
    (out : List Output) :
    tradeOrders order d idx out =
      match d.orders with
      | [] => { result := false, order := order, ordersData := d, orderToPrice := idx, out := out }
      | orderIt :: _ =>
        if orderIt.getQuantity > order.getQuantity then
          { result := true, order := order, ordersData := d.subtract 0 order.getQuantity,
            orderToPrice := idx, out := out ++ [printTrade order orderIt] }
        else if orderIt.getQuantity < order.getQuantity then
          tradeOrders (order.subtract orderIt.getQuantity) (d.eraseOrder 0)
            (idx.erase orderIt.getOrderId) (out ++ [printTrade order orderIt])
        else
          { result := true, order := order, ordersData := d.eraseOrder 0,
            orderToPrice := idx.erase orderIt.getOrderId,
            out := out ++ [printTrade order orderIt] } := by
  unfold tradeOrders
  rw [tradeOrdersLoop_succ]
  cases hd : d.orders with
  | nil => rfl
  | cons o t =>
    have ht : (d.eraseOrder 0).orders = t := by
      rw [OrdersData.eraseOrder_zero_orders, hd]; rfl
    simp only [List.length_cons, ht]


/-- Induction along the iterations of the `while` loop of `trade(Order&, OrdersData&)`. -/
theorem tradeOrders_induct
    (P : Order → OrdersData → OrderToPrice → List Output → LevelResult → Prop)
    (h_nil : ∀ order d idx out, d.orders = [] →
      P order d idx out
        { result := false, order := order, ordersData := d, orderToPrice := idx, out := out })
    (h_gt : ∀ order d idx out o t, d.orders = o :: t → o.quantity > order.quantity →
      P order d idx out
        { result := true, order := order, ordersData := d.subtract 0 order.quantity,
          orderToPrice := idx, out := out ++ [printTrade order o] })
    (h_lt : ∀ order d idx out o t, d.orders = o :: t → o.quantity < order.quantity →
      (d.eraseOrder 0).orders = t →
      P (order.subtract o.quantity) (d.eraseOrder 0) (idx.erase o.orderId)
        (out ++ [printTrade order o])
        (tradeOrders (order.subtract o.quantity) (d.eraseOrder 0) (idx.erase o.orderId)
          (out ++ [printTrade order o])) →
      P order d idx out
        (tradeOrders (order.subtract o.quantity) (d.eraseOrder 0) (idx.erase o.orderId)
          (out ++ [printTrade order o])))
    (h_eq : ∀ order d idx out o t, d.orders = o :: t → o.quantity = order.quantity →
      P order d idx out
        { result := true, order := order, ordersData := d.eraseOrder 0,
          orderToPrice := idx.erase o.orderId, out := out ++ [printTrade order o] })
    (order : Order) (d : OrdersData) (idx : OrderToPrice) (out : List Output) :
    P order d idx out (tradeOrders order d idx out) := by
  generalize hL : d.orders = L
  induction L generalizing order d idx out with
  | nil =>
    rw [tradeOrders_unfold, hL]
    exact h_nil order d idx out hL
  | cons o t ih =>
    rw [tradeOrders_unfold, hL]
    have ht : (d.eraseOrder 0).orders = t := by
      rw [OrdersData.eraseOrder_zero_orders, hL]; rfl
    simp only [Order.getQuantity, Order.getOrderId]
    by_cases h1 : o.quantity > order.quantity
    · rw [if_pos h1]; exact h_gt order d idx out o t hL h1
    · rw [if_neg h1]
      by_cases h2 : o.quantity < order.quantity
      · rw [if_pos h2]
        exact h_lt order d idx out o t hL h2 ht (ih _ _ _ _ ht)
      · rw [if_neg h2]
        exact h_eq order d idx out o t hL (by omega)

/-- The inner loop reports `false` only when it has emptied the queue. -/
theorem tradeOrders_false_empty (order : Order) (d : OrdersData) (idx : OrderToPrice)
    (out : List Output) :
    (tradeOrders order d idx out).result = false →
      (tradeOrders order d idx out).ordersData.orders = [] := by
  refine tradeOrders_induct
    (fun _ _ _ _ r => r.result = false → r.ordersData.orders = []) ?_ ?_ ?_ ?_ order d idx out
  · intro order d idx out h _; exact h
  · intro order d idx out o t _ _ h; simp at h
  · intro order d idx out o t _ _ _ ih; exact ih
  · intro order d idx out o t _ _ h; simp at h

theorem tradeOrders_nil (order : Order) (d : OrdersData) (idx : OrderToPrice)
    (out : List Output) (h : d.orders = []) :
    tradeOrders order d idx out =
      { result := false, order := order, ordersData := d, orderToPrice := idx, out := out } := by
  rw [tradeOrders_unfold, h]

/-- The inner loop changes no field of the incoming order but its quantity, which it
never raises. -/
theorem tradeOrders_order (order : Order) (d : OrdersData) (idx : OrderToPrice)
    (out : List Output) :
    (tradeOrders order d idx out).order
        = { order with quantity := (tradeOrders order d idx out).order.quantity } ∧
      ((tradeOrders order d idx out).order.quantity ≠ order.quantity → 0 < order.quantity) := by
  refine tradeOrders_induct
    (fun order _ _ _ r => r.order = { order with quantity := r.order.quantity } ∧
      (r.order.quantity ≠ order.quantity → 0 < order.quantity)) ?_ ?_ ?_ ?_ order d idx out
  · intro order d idx out _; simp
  · intro order d idx out o t _ _; simp
  · intro order d idx out o t _ hlt _ ih
    refine ⟨?_, fun _ => by omega⟩
    rw [ih.1]
    simp [Order.subtract]
  · intro order d idx out o t _ _; simp

/-- Agreement of `trade(Order&, OrdersData&)` with the reference description, for a
queue stored under the key `k`. -/
theorem tradeOrders_spec (k : Nat) (order : Order) (d : OrdersData) (idx : OrderToPrice)
    (out : List Output) :
    order.quantity < 2 ^ 32 → (∀ o ∈ d.orders, o.quantity < 2 ^ 32) →
    (tradeOrders order d idx out).result
        = fillDone order.quantity (d.orders.map (fun o => (k, o))) ∧
      (tradeOrders order d idx out).order
        = { order with quantity := fillRem order.quantity (d.orders.map (fun o => (k, o))) } ∧
      (tradeOrders order d idx out).ordersData.orders.map (fun o => (k, o))
        = fillRest order.quantity (d.orders.map (fun o => (k, o))) ∧
      (tradeOrders order d idx out).orderToPrice
        = eraseAll idx ((fillGone order.quantity (d.orders.map (fun o => (k, o)))).map
            (fun e => e.2.orderId)) ∧
      (tradeOrders order d idx out).out
        = out ++ fillTrades order.orderId order.price order.quantity
            (d.orders.map (fun o => (k, o))) := by
  refine tradeOrders_induct
    (fun order d idx out r =>
      order.quantity < 2 ^ 32 → (∀ o ∈ d.orders, o.quantity < 2 ^ 32) →
      r.result = fillDone order.quantity (d.orders.map (fun o => (k, o))) ∧
      r.order = { order with quantity := fillRem order.quantity (d.orders.map (fun o => (k, o))) } ∧
      r.ordersData.orders.map (fun o => (k, o))
        = fillRest order.quantity (d.orders.map (fun o => (k, o))) ∧
      r.orderToPrice
        = eraseAll idx ((fillGone order.quantity (d.orders.map (fun o => (k, o)))).map
            (fun e => e.2.orderId)) ∧
      r.out = out ++ fillTrades order.orderId order.price order.quantity
            (d.orders.map (fun o => (k, o)))) ?_ ?_ ?_ ?_ order d idx out
  · intro order d idx out h _ _
    simp [h, fillDone, fillRem, fillRest, fillGone, fillTrades, eraseAll]
  · intro order d idx out o t h hgt hq hb
    have ho : o.quantity < 2 ^ 32 := hb o (by simp [h])
    have hsub : o.subtract order.quantity = { o with quantity := o.quantity - order.quantity } :=
      Order.subtract_quantity o order.quantity (by omega) ho
    have hne : (o.subtract order.quantity).quantity ≠ 0 := by rw [hsub]; simp; omega
    rw [OrdersData.subtract_zero_orders d o t _ h hne, hsub]
    simp [h, fillDone, fillRem, fillRest, fillGone, fillTrades, eraseAll, hgt, printTrade,
      Order.getQuantity, Order.getOrderId, Order.getPrice]
    omega
  · intro order d idx out o t h hlt ht ih hq hb
    have hsub : order.subtract o.quantity = { order with quantity := order.quantity - o.quantity } :=
      Order.subtract_quantity order o.quantity (by omega) hq
    rw [hsub] at ih ⊢
    have ih2 := ih (by simp; omega) (by intro x hx; rw [ht] at hx; exact hb x (by simp [h, hx]))
    rw [ht] at ih2
    obtain ⟨i1, i2, i3, i4, i5⟩ := ih2
    have hng : ¬ o.quantity > order.quantity := by omega
    simp only [h, List.map_cons, fillDone, fillRem, fillRest, fillGone, fillTrades, hng, hlt,
      if_true, if_false]
    refine ⟨i1, ?_, i3, ?_, ?_⟩
    · rw [i2]
    · rw [i4]; simp [eraseAll]
    · rw [i5]; simp [printTrade, Order.getQuantity, Order.getOrderId, Order.getPrice]
      omega
  · intro order d idx out o t h heq hq hb
    have hng : ¬ o.quantity > order.quantity := by omega
    have hnl : ¬ o.quantity < order.quantity := by omega
    rw [OrdersData.eraseOrder_zero_orders, h]
    simp [fillDone, fillRem, fillRest, fillGone, fillTrades, eraseAll, hng, hnl, printTrade,
      Order.getQuantity, Order.getOrderId, Order.getPrice, heq]

/-! ## The reference description over a concatenation of queues -/

theorem fillRem_le (q : Nat) (A : List (Nat × Order)) : fillRem q A ≤ q := by
  induction A generalizing q with
  | nil => simp [fillRem]
  | cons e t ih =>
    obtain ⟨k, o⟩ := e
    simp only [fillRem]
    split_ifs with h1 h2
    · exact le_rfl
    · exact le_trans (ih _) (Nat.sub_le _ _)
    · exact le_rfl

theorem fillDone_append (q : Nat) (A B : List (Nat × Order)) :
    fillDone q (A ++ B) = if fillDone q A then true else fillDone (fillRem q A) B := by
  induction A generalizing q with
  | nil => simp [fillDone, fillRem]
  | cons e t ih =>
    obtain ⟨k, o⟩ := e
    simp only [List.cons_append, fillDone, fillRem]
    split_ifs <;> simp_all

theorem fillRem_append (q : Nat) (A B : List (Nat × Order)) :
    fillRem q (A ++ B) = if fillDone q A then fillRem q A else fillRem (fillRem q A) B := by
  induction A generalizing q with
  | nil => simp [fillDone, fillRem]
  | cons e t ih =>
    obtain ⟨k, o⟩ := e
    simp only [List.cons_append, fillDone, fillRem]
    split_ifs <;> simp_all

theorem fillGone_append (q : Nat) (A B : List (Nat × Order)) :
    fillGone q (A ++ B)
      = if fillDone q A then fillGone q A else A ++ fillGone (fillRem q A) B := by
  induction A generalizing q with
  | nil => simp [fillDone, fillRem]
  | cons e t ih =>
    obtain ⟨k, o⟩ := e
    simp only [List.cons_append, fillDone, fillRem, fillGone]
    split_ifs <;> simp_all

theorem fillRest_append (q : Nat) (A B : List (Nat × Order)) :
    fillRest q (A ++ B)
      = if fillDone q A then fillRest q A ++ B else fillRest (fillRem q A) B := by
  induction A generalizing q with
  | nil => simp [fillDone, fillRem]
  | cons e t ih =>
    obtain ⟨k, o⟩ := e
    simp only [List.cons_append, fillDone, fillRem, fillRest]
    split_ifs <;> simp_all

theorem fillTrades_append (i : String) (p q : Nat) (A B : List (Nat × Order)) :
    fillTrades i p q (A ++ B)
      = if fillDone q A then fillTrades i p q A
        else fillTrades i p q A ++ fillTrades i p (fillRem q A) B := by
  induction A generalizing q with
  | nil => simp [fillDone, fillRem, fillTrades]
  | cons e t ih =>
    obtain ⟨k, o⟩ := e
    simp only [List.cons_append, fillDone, fillRem, fillTrades]
    split_ifs <;> simp_all

theorem fillRest_of_not_done (q : Nat) (A : List (Nat × Order)) (h : fillDone q A = false) :
    fillRest q A = [] := by
  induction A generalizing q with
  | nil => simp [fillRest]
  | cons e t ih =>
    obtain ⟨k, o⟩ := e
    simp only [fillDone, fillRest] at h ⊢
    split_ifs at h ⊢ with h1 h2
    exact ih _ h

theorem fillGone_of_not_done (q : Nat) (A : List (Nat × Order)) (h : fillDone q A = false) :
    fillGone q A = A := by
  induction A generalizing q with
  | nil => simp [fillGone]
  | cons e t ih =>
    obtain ⟨k, o⟩ := e
    simp only [fillDone, fillGone] at h ⊢
    split_ifs at h ⊢ with h1 h2
    rw [ih _ h]

theorem eraseAll_append (idx : OrderToPrice) (a b : List String) :
    eraseAll idx (a ++ b) = eraseAll (eraseAll idx a) b := by
  simp [eraseAll]

theorem flatK_cons (l : Nat × OrdersData) (rest : List (Nat × OrdersData)) :
    flatK (l :: rest) = l.2.orders.map (fun o => (l.1, o)) ++ flatK rest := by
  simp [flatK]

theorem flatK_append (a b : List (Nat × OrdersData)) : flatK (a ++ b) = flatK a ++ flatK b := by
  simp [flatK]

theorem flatK_nil : flatK [] = [] := rfl

theorem crossing_append_beyond (stop : Nat → Bool) (lv : List (Nat × OrdersData)) :
    crossing stop lv ++ beyond stop lv = lv :=
  List.takeWhile_append_dropWhile _ lv

/-! ## One `for` loop over the price levels -/

/-- Agreement of the `for` loop with the reference description: the loop treats the
orders of the levels it enters as one queue. -/
theorem scanLevels_spec (stop : Nat → Bool) (lv : List (Nat × OrdersData)) :
    ∀ (order : Order) (idx : OrderToPrice) (out : List Output),
    order.quantity < 2 ^ 32 → (∀ e ∈ flatK lv, e.2.quantity < 2 ^ 32) →
    (scanLevels stop order idx out lv).result
        = fillDone order.quantity (flatK (crossing stop lv)) ∧
      (scanLevels stop order idx out lv).order
        = { order with quantity := fillRem order.quantity (flatK (crossing stop lv)) } ∧
      flatK (scanLevels stop order idx out lv).levels
        = fillRest order.quantity (flatK (crossing stop lv)) ++ flatK (beyond stop lv) ∧
      (scanLevels stop order idx out lv).orderToPrice
        = eraseAll idx ((fillGone order.quantity (flatK (crossing stop lv))).map
            (fun e => e.2.orderId)) ∧
      (scanLevels stop order idx out lv).out
        = out ++ fillTrades order.orderId order.price order.quantity
            (flatK (crossing stop lv)) := by
  induction lv with
  | nil =>
    intro order idx out _ _
    simp [scanLevels, crossing, beyond, flatK, fillDone, fillRem, fillRest, fillGone,
      fillTrades, eraseAll]
  | cons l rest ih =>
    intro order idx out hq hb
    obtain ⟨p, d⟩ := l
    by_cases hs : stop p = true
    · simp [scanLevels, crossing, beyond, hs, flatK, fillDone, fillRem, fillRest, fillGone,
        fillTrades, eraseAll]
    · have hs2 : stop p = false := by simpa using hs
      have hc : crossing stop ((p, d) :: rest) = (p, d) :: crossing stop rest := by
        simp [crossing, hs2]
      have hy : beyond stop ((p, d) :: rest) = beyond stop rest := by
        simp [beyond, hs2]
      have hbd : ∀ o ∈ d.orders, o.quantity < 2 ^ 32 := by
        intro o ho
        exact hb (p, o) (by rw [flatK_cons]; simp [ho])
      have hbr : ∀ e ∈ flatK rest, e.2.quantity < 2 ^ 32 := by
        intro e he
        exact hb e (by rw [flatK_cons]; simp [he])
      obtain ⟨t1, t2, t3, t4, t5⟩ := tradeOrders_spec p order d idx out hq hbd
      rw [hc, hy, flatK_cons]
      simp only [scanLevels, hs2, Bool.false_eq_true, if_false]
      rw [fillDone_append, fillRem_append, fillRest_append, fillGone_append, fillTrades_append]
      cases hr : (tradeOrders order d idx out).result with
      | true =>
        rw [hr] at t1
        simp only [if_true, ← t1]
        refine ⟨trivial, t2, ?_, t4, t5⟩
        rw [flatK_cons]
        simp only []
        rw [t3, List.append_assoc, ← flatK_append, crossing_append_beyond]
      | false =>
        rw [hr] at t1
        simp only [Bool.false_eq_true, if_false, ← t1]
        have hq2 : (tradeOrders order d idx out).order.quantity < 2 ^ 32 := by
          rw [t2]; exact lt_of_le_of_lt (fillRem_le _ _) hq
        obtain ⟨s1, s2, s3, s4, s5⟩ :=
          ih (tradeOrders order d idx out).order (tradeOrders order d idx out).orderToPrice
            (tradeOrders order d idx out).out hq2 hbr
        have hqq : (tradeOrders order d idx out).order.quantity
            = fillRem order.quantity (List.map (fun o => (p, o)) d.orders) := by rw [t2]
        have hid : (tradeOrders order d idx out).order.orderId = order.orderId := by rw [t2]
        have hpr : (tradeOrders order d idx out).order.price = order.price := by rw [t2]
        rw [hqq] at s1 s2 s3 s4 s5
        rw [hid, hpr] at s5
        refine ⟨s1, ?_, ?_, ?_, ?_⟩
        · rw [s2, t2]
        · rw [flatK_cons]
          simp only []
          rw [t3, fillRest_of_not_done _ _ t1.symm, s3]
          rfl
        · rw [s4, t4, fillGone_of_not_done _ _ t1.symm, List.map_append, eraseAll_append]
        · rw [s5, t5, List.append_assoc]

/-- The `for` loop keeps the keys of the map. -/
theorem scanLevels_keys (stop : Nat → Bool) (lv : List (Nat × OrdersData)) :
    ∀ (order : Order) (idx : OrderToPrice) (out : List Output),
    (scanLevels stop order idx out lv).levels.map Prod.fst = lv.map Prod.fst := by
  induction lv with
  | nil => intro _ _ _; rfl
  | cons l rest ih =>
    intro order idx out
    obtain ⟨p, d⟩ := l
    simp only [scanLevels]
    split_ifs
    · rfl
    · rfl
    · simp [ih]

/-- A `for` loop that reports `false` has emptied every level it entered. -/
theorem scanLevels_false_empty (stop : Nat → Bool) (lv : List (Nat × OrdersData)) :
    ∀ (order : Order) (idx : OrderToPrice) (out : List Output),
    (scanLevels stop order idx out lv).result = false →
    ∀ l ∈ crossing stop (scanLevels stop order idx out lv).levels, l.2.orders = [] := by
  induction lv with
  | nil => intro _ _ _ _ l hl; simp [scanLevels, crossing] at hl
  | cons l rest ih =>
    intro order idx out
    obtain ⟨p, d⟩ := l
    simp only [scanLevels]
    split_ifs with hs hr
    · intro _ l hl
      simp [crossing, hs] at hl
    · intro h; simp at h
    · intro h l hl
      have hs2 : stop p = false := by simpa using hs
      have hr2 : (tradeOrders order d idx out).result = false := by simpa using hr
      simp only [crossing, List.takeWhile_cons, hs2, Bool.not_false, if_true,
        List.mem_cons] at hl
      rcases hl with rfl | hl
      · exact tradeOrders_false_empty _ _ _ _ hr2
      · exact ih _ _ _ h l hl

/-- A `for` loop over levels whose entered queues are all empty changes nothing. -/
theorem scanLevels_noop (stop : Nat → Bool) (lv : List (Nat × OrdersData)) :
    ∀ (order : Order) (idx : OrderToPrice) (out : List Output),
    (∀ l ∈ crossing stop lv, l.2.orders = []) →
    scanLevels stop order idx out lv =
      { result := false, order := order, levels := lv, orderToPrice := idx, out := out } := by
  induction lv with
  | nil => intro _ _ _ _; rfl
  | cons l rest ih =>
    intro order idx out h
    obtain ⟨p, d⟩ := l
    simp only [scanLevels]
    split_ifs with hs hr
    · rfl
    · have hs2 : stop p = false := by simpa using hs
      have hd : d.orders = [] := h (p, d) (by simp [crossing, hs2])
      rw [tradeOrders_nil _ _ _ _ hd] at hr
      simp at hr
    · have hs2 : stop p = false := by simpa using hs
      have hd : d.orders = [] := h (p, d) (by simp [crossing, hs2])
      rw [tradeOrders_nil _ _ _ _ hd]
      simp only []
      rw [ih _ _ _ (fun l hl => h l (by simp [crossing, hs2]; right; exact hl))]

/-- The `for` loop changes no field of the incoming order but its quantity, and changes
the quantity only when it was positive. -/
theorem scanLevels_order (stop : Nat → Bool) (lv : List (Nat × OrdersData)) :
    ∀ (order : Order) (idx : OrderToPrice) (out : List Output),
    (scanLevels stop order idx out lv).order
        = { order with quantity := (scanLevels stop order idx out lv).order.quantity } ∧
      ((scanLevels stop order idx out lv).order.quantity ≠ order.quantity →
        0 < order.quantity) := by
  induction lv with
  | nil => intro _ _ _; simp [scanLevels]
  | cons l rest ih =>
    intro order idx out
    obtain ⟨p, d⟩ := l
    obtain ⟨t1, t2⟩ := tradeOrders_order order d idx out
    simp only [scanLevels]
    split_ifs with hs hr
    · simp
    · exact ⟨t1, t2⟩
    · obtain ⟨s1, s2⟩ := ih (tradeOrders order d idx out).order
        (tradeOrders order d idx out).orderToPrice (tradeOrders order d idx out).out
      refine ⟨?_, ?_⟩
      · simp only []
        rw [s1, t1]
      · simp only []
        intro hne
        by_contra h0
        have hq0 : order.quantity = 0 := by omega
        have e1 : (tradeOrders order d idx out).order.quantity = order.quantity := by
          by_contra hc
          exact absurd (t2 hc) h0
        have e2 := s2
        rw [e1] at e2
        by_cases hc : (scanLevels stop (tradeOrders order d idx out).order
            (tradeOrders order d idx out).orderToPrice (tradeOrders order d idx out).out
            rest).order.quantity = order.quantity
        · exact hne hc
        · exact absurd (e2 hc) h0

/-! ## The `do ... while` loops: one pass is all that happens -/

theorem tradeBuyLoop_eq_scan (n : Nat) (order : Order) (e : MatchingEngine)
    (out : List Output) (hn : order.quantity < n) :
    tradeBuyLoop n order e out = buyPass order e out := by
  cases n with
  | zero => omega
  | succ n =>
    unfold buyPass
    simp only [tradeBuyLoop]
    cases hsp : e.sellPrices with
    | nil => 
      obtain ⟨b, s, i⟩ := e
      simp only at hsp
      subst hsp
      simp [scanLevels]
    | cons l rest =>
      simp only [List.isEmpty_cons, Bool.false_eq_true, if_false]
      generalize hs : scanLevels (fun price => decide (price > order.getPrice)) order
        e.orderToPrice out (l :: rest) = s
      cases hr : s.result with
      | true => simp
      | false =>
        simp only [Bool.false_eq_true, if_false]
        by_cases hq : order.getQuantity = s.order.getQuantity
        · simp [hq]
        · have hord := scanLevels_order (fun price => decide (price > order.getPrice))
            (l :: rest) order e.orderToPrice out
          rw [hs] at hord
          have hpos : 0 < order.quantity := hord.2 (fun h => hq h.symm)
          have hprice : s.order.getPrice = order.getPrice := by
            rw [hord.1]; rfl
          have hempty := scanLevels_false_empty (fun price => decide (price > order.getPrice))
            (l :: rest) order e.orderToPrice out
          rw [hs] at hempty
          have hnoop := scanLevels_noop (fun price => decide (price > order.getPrice))
            s.levels s.order s.orderToPrice s.out (hempty hr)
          cases n with
          | zero => omega
          | succ m =>
            simp only [ne_eq, hq, not_false_eq_true, if_true, tradeBuyLoop, hprice, hnoop]
            split_ifs <;> first | rfl | contradiction

theorem tradeSellLoop_eq_scan (n : Nat) (order : Order) (e : MatchingEngine)
    (out : List Output) (hn : order.quantity < n) :
    tradeSellLoop n order e out = sellPass order e out := by
  cases n with
  | zero => omega
  | succ n =>
    unfold sellPass
    simp only [tradeSellLoop]
    cases hsp : e.buyPrices with
    | nil => 
      obtain ⟨b, s, i⟩ := e
      simp only at hsp
      subst hsp
      simp [scanLevels]
    | cons l rest =>
      simp only [List.isEmpty_cons, Bool.false_eq_true, if_false]
      generalize hs : scanLevels (fun price => decide (price < order.getPrice)) order
        e.orderToPrice out (l :: rest).reverse = s
      cases hr : s.result with
      | true => simp
      | false =>
        simp only [Bool.false_eq_true, if_false]
        by_cases hq : order.getQuantity = s.order.getQuantity
        · simp [hq]
        · have hord := scanLevels_order (fun price => decide (price < order.getPrice))
            (l :: rest).reverse order e.orderToPrice out
          rw [hs] at hord
          have hpos : 0 < order.quantity := hord.2 (fun h => hq h.symm)
          have hprice : s.order.getPrice = order.getPrice := by
            rw [hord.1]; rfl
          have hempty := scanLevels_false_empty (fun price => decide (price < order.getPrice))
            (l :: rest).reverse order e.orderToPrice out
          rw [hs] at hempty
          have hnoop := scanLevels_noop (fun price => decide (price < order.getPrice))
            s.levels s.order s.orderToPrice s.out (hempty hr)
          cases n with
          | zero => omega
          | succ m =>
            simp only [ne_eq, hq, not_false_eq_true, if_true, tradeSellLoop, hprice,
              List.reverse_reverse, hnoop]
            split_ifs <;> first | rfl | contradiction

/-- The two `do ... while` loops of `trade(Order&)` never run out of passes, and their
result is that of a single `for` loop over the opposite side. -/
theorem tradeLoop_eq_scan (order : Order) (e : MatchingEngine) (out : List Output) :
    trade order e out = if order.isBuying then buyPass order e out else sellPass order e out := by
  unfold trade
  split_ifs
  · exact tradeBuyLoop_eq_scan _ order e out (by simp [Order.getQuantity])
  · exact tradeSellLoop_eq_scan _ order e out (by simp [Order.getQuantity])

/-! ## The id index -/

theorem OrderToPrice.find_nil (id : String) : OrderToPrice.find [] id = none := rfl

theorem OrderToPrice.find_cons (a : String × Nat) (m : OrderToPrice) (id : String) :
    OrderToPrice.find (a :: m) id = if a.1 = id then some a.2 else OrderToPrice.find m id := by
  unfold OrderToPrice.find
  by_cases h : a.1 = id <;> simp [List.find?_cons, h]

theorem OrderToPrice.find_erase (m : OrderToPrice) (id id2 : String) :
    (OrderToPrice.erase m id).find id2 = if id2 = id then none else m.find id2 := by
  induction m with
  | nil => simp [OrderToPrice.erase, OrderToPrice.find_nil]
  | cons a t ih =>
    unfold OrderToPrice.erase at ih ⊢
    by_cases h : a.1 = id
    · simp only [List.filter_cons, h, decide_True, Bool.not_true, Bool.false_eq_true, if_false]
      rw [ih, OrderToPrice.find_cons]
      by_cases h2 : id2 = id
      · simp [h2]
      · have : ¬ a.1 = id2 := by rw [h]; exact fun hh => h2 hh.symm
        simp [h2, this]
    · simp only [List.filter_cons, h, decide_False, Bool.not_false, if_true]
      rw [OrderToPrice.find_cons, OrderToPrice.find_cons, ih]
      by_cases h2 : id2 = id
      · subst h2
        simp [h]
      · simp [h2]

theorem OrderToPrice.find_eraseAll (ids : List String) : ∀ (m : OrderToPrice) (id2 : String),
    (eraseAll m ids).find id2 = if id2 ∈ ids then none else m.find id2 := by
  induction ids with
  | nil => intro m id2; simp [eraseAll]
  | cons a t ih =>
    intro m id2
    have : eraseAll m (a :: t) = eraseAll (OrderToPrice.erase m a) t := rfl
    rw [this, ih, OrderToPrice.find_erase]
    by_cases h1 : id2 ∈ t
    · simp [h1]
    · by_cases h2 : id2 = a
      · simp [h2]
      · simp [h1, h2]

theorem OrderToPrice.erase_keys_sublist (m : OrderToPrice) (id : String) :
    ((OrderToPrice.erase m id).map Prod.fst).Sublist (m.map Prod.fst) :=
  List.Sublist.map _ (List.filter_sublist _)

theorem OrderToPrice.eraseAll_keys_sublist (ids : List String) : ∀ (m : OrderToPrice),
    ((eraseAll m ids).map Prod.fst).Sublist (m.map Prod.fst) := by
  induction ids with
  | nil => intro m; exact List.Sublist.refl _
  | cons a t ih =>
    intro m
    exact (ih (OrderToPrice.erase m a)).trans (OrderToPrice.erase_keys_sublist m a)

theorem OrderToPrice.find_eq_none_iff (m : OrderToPrice) (id : String) :
    m.find id = none ↔ id ∉ m.map Prod.fst := by
  induction m with
  | nil => simp [OrderToPrice.find_nil]
  | cons a t ih =>
    rw [OrderToPrice.find_cons]
    by_cases h : a.1 = id
    · simp [h]
    · simp only [h, if_false, ih, List.map_cons, List.mem_cons, not_or]
      constructor
      · intro h2; exact ⟨fun hh => h hh.symm, h2⟩
      · intro h2; exact h2.2

theorem OrderToPrice.find_append_single (m : OrderToPrice) (id id2 : String) (p : Nat)
    (h : m.find id = none) :
    OrderToPrice.find (m ++ [(id, p)]) id2 = if id2 = id then some p else m.find id2 := by
  induction m with
  | nil =>
    simp only [List.nil_append, OrderToPrice.find_cons, OrderToPrice.find_nil]
    by_cases h2 : id2 = id
    · simp [h2]
    · have : ¬ id = id2 := fun hh => h2 hh.symm
      simp [h2, this]
  | cons a t ih =>
    rw [OrderToPrice.find_cons] at h
    by_cases ha : a.1 = id
    · simp [ha] at h
    · simp only [ha, if_false] at h
      rw [List.cons_append, OrderToPrice.find_cons, OrderToPrice.find_cons, ih h]
      by_cases h2 : id2 = id
      · subst h2
        simp [ha]
      · simp [h2]

theorem isOrderExists_eq (e : MatchingEngine) (id : String) :
    e.isOrderExists id = (e.orderToPrice.find id).isSome := by
  unfold isOrderExists OrderToPrice.count
  cases h : (OrderToPrice.find e.orderToPrice id).isSome <;> simp

/-! ## What a pass removes and what it leaves -/

theorem Derived.refl (x : Nat × Order) : Derived x x :=
  ⟨rfl, rfl, le_rfl, fun h => h⟩

theorem Derived.ok {side : TradeOperation} {x y : Nat × Order} (h : Derived x y)
    (hy : RestingOK side y) : RestingOK side x := by
  obtain ⟨h1, h2, h3, h4⟩ := h
  obtain ⟨y1, y2, y3, y4, y5⟩ := hy
  refine ⟨?_, ?_, h4 y3, lt_of_le_of_lt h3 y4, ?_⟩
  · rw [h2, h1]; exact y1
  · rw [h1]; exact y2
  · rw [h2]; exact y5

theorem fill_keyId (q : Nat) (X : List (Nat × Order)) :
    X.map keyId = (fillGone q X).map keyId ++ (fillRest q X).map keyId := by
  induction X generalizing q with
  | nil => simp [fillGone, fillRest]
  | cons e t ih =>
    obtain ⟨k, o⟩ := e
    simp only [fillGone, fillRest]
    split_ifs with h1 h2
    · simp [keyId]
    · simp only [List.map_cons, List.cons_append]
      rw [← ih]
    · simp

theorem fillRest_derived (q : Nat) (X : List (Nat × Order)) :
    ∀ x ∈ fillRest q X, ∃ y ∈ X, Derived x y := by
  induction X generalizing q with
  | nil => intro x hx; simp [fillRest] at hx
  | cons e t ih =>
    obtain ⟨k, o⟩ := e
    intro x hx
    simp only [fillRest] at hx
    split_ifs at hx with h1 h2
    · rcases List.mem_cons.1 hx with rfl | hx
      · refine ⟨(k, o), by simp, rfl, rfl, ?_, ?_⟩
        · simp
        · intro _; simp; omega
      · exact ⟨x, by simp [hx], Derived.refl x⟩
    · obtain ⟨y, hy, hd⟩ := ih _ x hx
      exact ⟨y, by simp [hy], hd⟩
    · exact ⟨x, by simp [hx], Derived.refl x⟩

theorem beyond_stop (stop : Nat → Bool) (lv : List (Nat × OrdersData))
    (hs : lv.Pairwise (fun a b => stop a.1 = true → stop b.1 = true)) :
    ∀ l ∈ beyond stop lv, stop l.1 = true := by
  induction lv with
  | nil => intro l hl; simp [beyond] at hl
  | cons a t ih =>
    intro l hl
    rw [List.pairwise_cons] at hs
    by_cases ha : stop a.1 = true
    · have : beyond stop (a :: t) = a :: t := by simp [beyond, ha]
      rw [this] at hl
      rcases List.mem_cons.1 hl with rfl | hl
      · exact ha
      · exact hs.1 l hl ha
    · have : beyond stop (a :: t) = beyond stop t := by
        simp [beyond, ha]
      rw [this] at hl
      exact ih hs.2 l hl

theorem mem_flatK {lv : List (Nat × OrdersData)} {x : Nat × Order} :
    x ∈ flatK lv ↔ ∃ l ∈ lv, l.1 = x.1 ∧ x.2 ∈ l.2.orders := by
  unfold flatK
  simp only [List.mem_flatMap, List.mem_map]
  constructor
  · rintro ⟨l, hl, o, ho, rfl⟩
    exact ⟨l, hl, rfl, ho⟩
  · rintro ⟨l, hl, h1, h2⟩
    exact ⟨l, hl, x.2, h2, by rw [h1]⟩

theorem flatK_reverse_perm (lv : List (Nat × OrdersData)) :
    (flatK lv.reverse).Perm (flatK lv) := by
  unfold flatK
  exact List.Perm.flatMap_right _ (List.reverse_perm lv)

/-- What a `for` loop over the levels does to the book, in the terms the invariant
needs. -/
theorem scanLevels_effect (stop : Nat → Bool) (lv : List (Nat × OrdersData))
    (order : Order) (idx : OrderToPrice) (out : List Output)
    (hq : order.quantity < 2 ^ 32) (hb : ∀ e ∈ flatK lv, e.2.quantity < 2 ^ 32) :
    (∀ x ∈ flatK (scanLevels stop order idx out lv).levels, ∃ y ∈ flatK lv, Derived x y) ∧
      (flatK lv).map keyId
        = (fillGone order.quantity (flatK (crossing stop lv))).map keyId
          ++ (flatK (scanLevels stop order idx out lv).levels).map keyId ∧
      ((scanLevels stop order idx out lv).result = false →
        flatK (scanLevels stop order idx out lv).levels = flatK (beyond stop lv)) := by
  obtain ⟨s1, s2, s3, s4, s5⟩ := scanLevels_spec stop lv order idx out hq hb
  have hsplit : flatK lv = flatK (crossing stop lv) ++ flatK (beyond stop lv) := by
    rw [← flatK_append, crossing_append_beyond]
  refine ⟨?_, ?_, ?_⟩
  · intro x hx
    rw [s3] at hx
    rcases List.mem_append.1 hx with hx | hx
    · obtain ⟨y, hy, hd⟩ := fillRest_derived _ _ x hx
      exact ⟨y, by rw [hsplit]; exact List.mem_append_left _ hy, hd⟩
    · exact ⟨x, by rw [hsplit]; exact List.mem_append_right _ hx, Derived.refl x⟩
  · rw [s3, List.map_append, ← List.append_assoc, ← fill_keyId, ← List.map_append, ← hsplit]
  · intro hr
    rw [s3, fillRest_of_not_done _ _ (by rw [← s1]; exact hr)]
    rfl

/-! ## Preservation of the invariant when resting orders are removed or reduced -/

theorem mem_map_keyId_of_id {l : List (Nat × Order)} {p : Nat} {id : String}
    (h : (p, id) ∈ l.map keyId) : id ∈ l.map (fun x => x.2.orderId) := by
  obtain ⟨x, hx, he⟩ := List.mem_map.1 h
  exact List.mem_map.2 ⟨x, hx, congrArg Prod.snd he⟩

theorem map_id_eq_map_keyId (l : List (Nat × Order)) :
    l.map (fun x => x.2.orderId) = (l.map keyId).map Prod.snd := by
  simp [keyId, Function.comp_def]

/-- The invariant survives any change that keeps the keys of both maps, replaces resting
orders by orders derived from them, removes the orders `G`, and erases the ids of `G`
from the index and nothing else. -/
theorem Inv.shrink {e e2 : MatchingEngine} (G : List (Nat × Order)) (h : Inv e)
    (hkb : e2.buyPrices.map Prod.fst = e.buyPrices.map Prod.fst)
    (hks : e2.sellPrices.map Prod.fst = e.sellPrices.map Prod.fst)
    (hdb : ∀ x ∈ flatK e2.buyPrices, ∃ y ∈ flatK e.buyPrices, Derived x y)
    (hds : ∀ x ∈ flatK e2.sellPrices, ∃ y ∈ flatK e.sellPrices, Derived x y)
    (hperm : (e.resting.map keyId).Perm (G.map keyId ++ e2.resting.map keyId))
    (hkeys : (e2.orderToPrice.map Prod.fst).Sublist (e.orderToPrice.map Prod.fst))
    (hfind : ∀ id, e2.orderToPrice.find id
      = if id ∈ G.map (fun x => x.2.orderId) then none else e.orderToPrice.find id) :
    Inv e2 := by
  have hidperm : (e.resting.map (fun x => x.2.orderId)).Perm
      (G.map (fun x => x.2.orderId) ++ e2.resting.map (fun x => x.2.orderId)) := by
    rw [map_id_eq_map_keyId, map_id_eq_map_keyId, map_id_eq_map_keyId, ← List.map_append]
    exact hperm.map _
  have hnd : (G.map (fun x => x.2.orderId) ++ e2.resting.map (fun x => x.2.orderId)).Nodup :=
    hidperm.nodup_iff.1 h.idsNodup
  refine ⟨?_, ?_, ?_, ?_, ?_, ?_, ?_, ?_⟩
  · rw [hkb]; exact h.buySorted
  · rw [hks]; exact h.sellSorted
  · intro x hx
    obtain ⟨y, hy, hd⟩ := hdb x hx
    exact hd.ok (h.buyOK y hy)
  · intro x hx
    obtain ⟨y, hy, hd⟩ := hds x hx
    exact hd.ok (h.sellOK y hy)
  · exact (List.nodup_append.1 hnd).2.1
  · exact h.keysNodup.sublist hkeys
  · intro id p
    rw [hfind]
    have hdisj := (List.nodup_append.1 hnd).2.2
    by_cases hid : id ∈ G.map (fun x => x.2.orderId)
    · simp only [hid, if_true]
      constructor
      · intro hh; cases hh
      · intro hh
        exact absurd (mem_map_keyId_of_id hh) (fun h2 => hdisj hid h2)
    · simp only [hid, if_false]
      rw [h.index, hperm.mem_iff, List.mem_append]
      constructor
      · rintro (hh | hh)
        · exact absurd (mem_map_keyId_of_id hh) hid
        · exact hh
      · intro hh; exact Or.inr hh
  · intro b hb a ha
    obtain ⟨y, hy, hd⟩ := hdb b hb
    obtain ⟨z, hz, hd2⟩ := hds a ha
    rw [hd.1, hd2.1]
    exact h.noCross y hy z hz

/-! ## The price maps -/

theorem PricesMap.updateAt_keys_mem (f : OrdersData → OrdersData) (p : Nat) (m : PricesMap) :
    ∀ k ∈ (PricesMap.updateAt f p m).map Prod.fst, k = p ∨ k ∈ m.map Prod.fst := by
  induction m with
  | nil => intro k hk; simp [PricesMap.updateAt] at hk; exact Or.inl hk
  | cons a t ih =>
    obtain ⟨k0, d⟩ := a
    intro k hk
    simp only [PricesMap.updateAt] at hk
    split_ifs at hk with h1 h2
    · simp only [List.map_cons, List.mem_cons] at hk ⊢
      tauto
    · simp only [List.map_cons, List.mem_cons] at hk ⊢
      tauto
    · simp only [List.map_cons, List.mem_cons] at hk ⊢
      rcases hk with hk | hk
      · exact Or.inr (Or.inl hk)
      · rcases ih k hk with h | h
        · exact Or.inl h
        · exact Or.inr (Or.inr h)

theorem PricesMap.updateAt_sorted (f : OrdersData → OrdersData) (p : Nat) (m : PricesMap)
    (h : (m.map Prod.fst).Pairwise (fun a b => a < b)) :
    ((PricesMap.updateAt f p m).map Prod.fst).Pairwise (fun a b => a < b) := by
  induction m with
  | nil => simp [PricesMap.updateAt]
  | cons a t ih =>
    obtain ⟨k0, d⟩ := a
    simp only [List.map_cons, List.pairwise_cons] at h
    simp only [PricesMap.updateAt]
    split_ifs with h1 h2
    · simp only [List.map_cons, List.pairwise_cons, List.mem_cons]
      refine ⟨?_, h.1, h.2⟩
      intro b hb
      rcases hb with rfl | hb
      · exact h1
      · exact lt_trans h1 (h.1 b hb)
    · simp only [List.map_cons, List.pairwise_cons]
      exact ⟨h.1, h.2⟩
    · simp only [List.map_cons, List.pairwise_cons]
      refine ⟨?_, ih h.2⟩
      intro b hb
      rcases PricesMap.updateAt_keys_mem f p t b hb with rfl | hb2
      · omega
      · exact h.1 b hb2

/-- Resting a new order in a map: the new order is inserted into the list of resting
orders, behind the orders of its level. -/
theorem PricesMap.flatK_updateAt_addOrder (o : Order) (p : Nat) (m : PricesMap) :
    ∃ A B, flatK m = A ++ B ∧
      flatK (PricesMap.updateAt (fun d => d.addOrder o) p m) = A ++ (p, o) :: B := by
  induction m with
  | nil =>
    exact ⟨[], [], rfl, by simp [PricesMap.updateAt, flatK, OrdersData.addOrder]⟩
  | cons a t ih =>
    obtain ⟨k0, d⟩ := a
    simp only [PricesMap.updateAt]
    split_ifs with h1 h2
    · exact ⟨[], flatK ((k0, d) :: t), rfl, by
        rw [flatK_cons]; simp [OrdersData.addOrder]⟩
    · refine ⟨d.orders.map (fun o => (k0, o)), flatK t, by rw [flatK_cons], ?_⟩
      rw [flatK_cons]
      simp [OrdersData.addOrder, h2]
    · obtain ⟨A, B, hA, hB⟩ := ih
      refine ⟨d.orders.map (fun o => (k0, o)) ++ A, B, ?_, ?_⟩
      · rw [flatK_cons, hA, List.append_assoc]
      · rw [flatK_cons, hB, List.append_assoc]

theorem PricesMap.updateIfPresent_keys (f : OrdersData → OrdersData) (p : Nat) (m : PricesMap) :
    (PricesMap.updateIfPresent f p m).map Prod.fst = m.map Prod.fst := by
  induction m with
  | nil => rfl
  | cons a t ih =>
    obtain ⟨k0, d⟩ := a
    simp only [PricesMap.updateIfPresent]
    split_ifs with h1
    · rfl
    · simp [ih]

theorem OrdersData.eraseOrderById_orders (d : OrdersData) (id : String) :
    (d.eraseOrderById id).orders = d.orders.eraseP (fun o => decide (o.orderId = id)) := by
  unfold OrdersData.eraseOrderById
  simp only [Order.getOrderId]
  cases h : d.orders.find? (fun o => decide (o.orderId = id)) with
  | none =>
    simp only
    rw [List.eraseP_of_forall_not]
    intro a ha
    exact (List.find?_eq_none.1 h) a ha
  | some found => rfl


/-! ## `trade(Order&)` preserves the invariant -/

theorem buyPass_facts (e : MatchingEngine) (order : Order) (out : List Output) (h : Inv e)
    (hq : order.quantity < 2 ^ 32) :
    Inv (buyPass order e out).engine ∧
      (buyPass order e out).engine.buyPrices = e.buyPrices ∧
      ((buyPass order e out).result = false →
        ∀ x ∈ flatK (buyPass order e out).engine.sellPrices, order.price < x.1) ∧
      (e.orderToPrice.find order.orderId = none →
        (buyPass order e out).engine.orderToPrice.find order.orderId = none) := by
  have hb : ∀ x ∈ flatK e.sellPrices, x.2.quantity < 2 ^ 32 := by
    intro x hx
    have := (h.sellOK x hx).2.2.2.1
    omega
  obtain ⟨f1, f2, f3⟩ := scanLevels_effect (fun price => decide (price > order.getPrice))
    e.sellPrices order e.orderToPrice out hq hb
  obtain ⟨s1, s2, s3, s4, s5⟩ := scanLevels_spec (fun price => decide (price > order.getPrice))
    e.sellPrices order e.orderToPrice out hq hb
  refine ⟨?_, rfl, ?_, ?_⟩
  · refine Inv.shrink
      (fillGone order.quantity
        (flatK (crossing (fun price => decide (price > order.getPrice)) e.sellPrices)))
      h rfl (scanLevels_keys _ _ _ _ _) (fun x hx => ⟨x, hx, Derived.refl x⟩) f1 ?_ ?_ ?_
    · unfold MatchingEngine.resting
      simp only [buyPass, List.map_append]
      rw [f2, ← List.append_assoc, ← List.append_assoc]
      exact List.perm_append_comm.append_right _
    · simp only [buyPass]
      rw [s4]
      exact OrderToPrice.eraseAll_keys_sublist _ _
    · intro id
      simp only [buyPass]
      rw [s4, OrderToPrice.find_eraseAll]
  · intro hr x hx
    simp only [buyPass] at hr hx
    rw [f3 hr] at hx
    obtain ⟨l, hl, hk, _⟩ := mem_flatK.1 hx
    have hst := beyond_stop (fun price => decide (price > order.getPrice)) e.sellPrices (by
      have := h.sellSorted
      rw [List.pairwise_map] at this
      refine this.imp ?_
      intro a b hab ha
      simp only [decide_eq_true_eq] at ha ⊢
      omega) l hl
    simp only [decide_eq_true_eq, Order.getPrice] at hst
    omega
  · intro hnone
    simp only [buyPass]
    rw [s4, OrderToPrice.find_eraseAll, hnone]
    simp

theorem sellPass_facts (e : MatchingEngine) (order : Order) (out : List Output) (h : Inv e)
    (hq : order.quantity < 2 ^ 32) :
    Inv (sellPass order e out).engine ∧
      (sellPass order e out).engine.sellPrices = e.sellPrices ∧
      ((sellPass order e out).result = false →
        ∀ x ∈ flatK (sellPass order e out).engine.buyPrices, x.1 < order.price) ∧
      (e.orderToPrice.find order.orderId = none →
        (sellPass order e out).engine.orderToPrice.find order.orderId = none) := by
  have hb : ∀ x ∈ flatK e.buyPrices.reverse, x.2.quantity < 2 ^ 32 := by
    intro x hx
    have := (h.buyOK x ((flatK_reverse_perm _).mem_iff.1 hx)).2.2.2.1
    omega
  obtain ⟨f1, f2, f3⟩ := scanLevels_effect (fun price => decide (price < order.getPrice))
    e.buyPrices.reverse order e.orderToPrice out hq hb
  obtain ⟨s1, s2, s3, s4, s5⟩ := scanLevels_spec (fun price => decide (price < order.getPrice))
    e.buyPrices.reverse order e.orderToPrice out hq hb
  refine ⟨?_, rfl, ?_, ?_⟩
  · refine Inv.shrink
      (fillGone order.quantity
        (flatK (crossing (fun price => decide (price < order.getPrice)) e.buyPrices.reverse)))
      h ?_ rfl ?_ (fun x hx => ⟨x, hx, Derived.refl x⟩) ?_ ?_ ?_
    · simp only [sellPass]
      rw [List.map_reverse, scanLevels_keys, List.map_reverse, List.reverse_reverse]
    · intro x hx
      simp only [sellPass] at hx
      obtain ⟨y, hy, hd⟩ := f1 x ((flatK_reverse_perm _).mem_iff.1 hx)
      exact ⟨y, (flatK_reverse_perm _).mem_iff.1 hy, hd⟩
    · unfold MatchingEngine.resting
      simp only [sellPass, List.map_append]
      have p1 : (List.map keyId (flatK e.buyPrices)).Perm
          (List.map keyId (flatK e.buyPrices.reverse)) :=
        ((flatK_reverse_perm e.buyPrices).symm).map _
      have p2 : (List.map keyId (flatK (scanLevels (fun price => decide (price < order.getPrice))
          order e.orderToPrice out e.buyPrices.reverse).levels)).Perm
          (List.map keyId (flatK (scanLevels (fun price => decide (price < order.getPrice))
          order e.orderToPrice out e.buyPrices.reverse).levels.reverse)) :=
        ((flatK_reverse_perm _).symm).map _
      rw [f2] at p1
      have p3 := (p1.trans (p2.append_left _)).append_right
        (List.map keyId (flatK e.sellPrices))
      rwa [List.append_assoc] at p3
    · simp only [sellPass]
      rw [s4]
      exact OrderToPrice.eraseAll_keys_sublist _ _
    · intro id
      simp only [sellPass]
      rw [s4, OrderToPrice.find_eraseAll]
  · intro hr x hx
    simp only [sellPass] at hr hx
    have hx2 := (flatK_reverse_perm _).mem_iff.1 hx
    rw [f3 hr] at hx2
    obtain ⟨l, hl, hk, _⟩ := mem_flatK.1 hx2
    have hst := beyond_stop (fun price => decide (price < order.getPrice)) e.buyPrices.reverse (by
      have := h.buySorted
      rw [List.pairwise_map] at this
      rw [List.pairwise_reverse]
      refine this.imp ?_
      intro a b hab ha
      simp only [decide_eq_true_eq] at ha ⊢
      omega) l hl
    simp only [decide_eq_true_eq, Order.getPrice] at hst
    omega
  · intro hnone
    simp only [sellPass]
    rw [s4, OrderToPrice.find_eraseAll, hnone]
    simp

/-! ## Resting a new order preserves the invariant -/

theorem Inv.id_not_resting {e : MatchingEngine} (h : Inv e) {id : String}
    (hn : e.orderToPrice.find id = none) : id ∉ e.resting.map (fun x => x.2.orderId) := by
  intro hmem
  obtain ⟨x, hx, hid⟩ := List.mem_map.1 hmem
  have : (x.1, id) ∈ e.resting.map keyId :=
    List.mem_map.2 ⟨x, hx, by unfold engine.keyId; rw [hid]⟩
  rw [← h.index, hn] at this
  cases this

theorem Inv.addBuy {e : MatchingEngine} (h : Inv e) (o : Order)
    (hok : RestingOK TradeOperation.Buy (o.price, o))
    (hnew : e.orderToPrice.find o.orderId = none)
    (hcross : ∀ a ∈ flatK e.sellPrices, o.price < a.1) :
    Inv { e with
      orderToPrice := e.orderToPrice ++ [(o.orderId, o.price)]
      buyPrices := PricesMap.updateAt (fun d => d.addOrder o) o.price e.buyPrices } := by
  obtain ⟨A, B, hA, hB⟩ := PricesMap.flatK_updateAt_addOrder o o.price e.buyPrices
  have hnr := h.id_not_resting hnew
  have hperm : (A ++ (o.price, o) :: B ++ flatK e.sellPrices).Perm
      ((o.price, o) :: e.resting) := by
    unfold MatchingEngine.resting
    rw [hA]
    exact (List.perm_middle.append_right _)
  refine ⟨?_, h.sellSorted, ?_, h.sellOK, ?_, ?_, ?_, ?_⟩
  · exact PricesMap.updateAt_sorted _ _ _ h.buySorted
  · intro x hx
    simp only at hx
    rw [hB] at hx
    rcases List.mem_append.1 hx with hx | hx
    · exact h.buyOK x (by rw [hA]; exact List.mem_append_left _ hx)
    · rcases List.mem_cons.1 hx with rfl | hx
      · exact hok
      · exact h.buyOK x (by rw [hA]; exact List.mem_append_right _ hx)
  · unfold MatchingEngine.resting
    simp only
    rw [hB]
    refine ((hperm.map _).nodup_iff).2 ?_
    simp only [List.map_cons, List.nodup_cons]
    exact ⟨hnr, h.idsNodup⟩
  · simp only [List.map_append, List.map_cons, List.map_nil]
    rw [List.nodup_append]
    refine ⟨h.keysNodup, by simp, ?_⟩
    intro a ha hb
    simp only [List.mem_singleton] at hb
    subst hb
    exact (OrderToPrice.find_eq_none_iff _ _).1 hnew ha
  · intro id p
    simp only
    rw [OrderToPrice.find_append_single _ _ _ _ hnew]
    unfold MatchingEngine.resting
    simp only
    rw [hB, (hperm.map keyId).mem_iff, List.map_cons, List.mem_cons]
    by_cases hid : id = o.orderId
    · subst hid
      simp only [if_true, keyId, Prod.mk.injEq, and_true, Option.some.injEq]
      constructor
      · intro hp; exact Or.inl hp.symm
      · rintro (hp | hp)
        · exact hp.symm
        · exact absurd (mem_map_keyId_of_id hp) hnr
    · simp only [hid, if_false, keyId, Prod.mk.injEq, and_false, false_or]
      exact h.index id p
  · intro b hb a ha
    simp only at hb ha
    rw [hB] at hb
    rcases List.mem_append.1 hb with hb | hb
    · exact h.noCross b (by rw [hA]; exact List.mem_append_left _ hb) a ha
    · rcases List.mem_cons.1 hb with rfl | hb
      · exact hcross a ha
      · exact h.noCross b (by rw [hA]; exact List.mem_append_right _ hb) a ha

theorem Inv.addSell {e : MatchingEngine} (h : Inv e) (o : Order)
    (hok : RestingOK TradeOperation.Sell (o.price, o))
    (hnew : e.orderToPrice.find o.orderId = none)
    (hcross : ∀ b ∈ flatK e.buyPrices, b.1 < o.price) :
    Inv { e with
      orderToPrice := e.orderToPrice ++ [(o.orderId, o.price)]
      sellPrices := PricesMap.updateAt (fun d => d.addOrder o) o.price e.sellPrices } := by
  obtain ⟨A, B, hA, hB⟩ := PricesMap.flatK_updateAt_addOrder o o.price e.sellPrices
  have hnr := h.id_not_resting hnew
  have hperm : (flatK e.buyPrices ++ (A ++ (o.price, o) :: B)).Perm
      ((o.price, o) :: e.resting) := by
    unfold MatchingEngine.resting
    rw [hA, ← List.append_assoc, ← List.append_assoc]
    exact List.perm_middle
  refine ⟨h.buySorted, ?_, h.buyOK, ?_, ?_, ?_, ?_, ?_⟩
  · exact PricesMap.updateAt_sorted _ _ _ h.sellSorted
  · intro x hx
    simp only at hx
    rw [hB] at hx
    rcases List.mem_append.1 hx with hx | hx
    · exact h.sellOK x (by rw [hA]; exact List.mem_append_left _ hx)
    · rcases List.mem_cons.1 hx with rfl | hx
      · exact hok
      · exact h.sellOK x (by rw [hA]; exact List.mem_append_right _ hx)
  · unfold MatchingEngine.resting
    simp only
    rw [hB]
    refine ((hperm.map _).nodup_iff).2 ?_
    simp only [List.map_cons, List.nodup_cons]
    exact ⟨hnr, h.idsNodup⟩
  · simp only [List.map_append, List.map_cons, List.map_nil]
    rw [List.nodup_append]
    refine ⟨h.keysNodup, by simp, ?_⟩
    intro a ha hb
    simp only [List.mem_singleton] at hb
    subst hb
    exact (OrderToPrice.find_eq_none_iff _ _).1 hnew ha
  · intro id p
    simp only
    rw [OrderToPrice.find_append_single _ _ _ _ hnew]
    unfold MatchingEngine.resting
    simp only
    rw [hB, (hperm.map keyId).mem_iff, List.map_cons, List.mem_cons]
    by_cases hid : id = o.orderId
    · subst hid
      simp only [if_true, keyId, Prod.mk.injEq, and_true, Option.some.injEq]
      constructor
      · intro hp; exact Or.inl hp.symm
      · rintro (hp | hp)
        · exact hp.symm
        · exact absurd (mem_map_keyId_of_id hp) hnr
    · simp only [hid, if_false, keyId, Prod.mk.injEq, and_false, false_or]
      exact h.index id p
  · intro b hb a ha
    simp only at hb ha
    rw [hB] at ha
    rcases List.mem_append.1 ha with ha | ha
    · exact h.noCross b hb a (by rw [hA]; exact List.mem_append_left _ ha)
    · rcases List.mem_cons.1 ha with rfl | ha
      · exact hcross b hb
      · exact h.noCross b hb a (by rw [hA]; exact List.mem_append_right _ ha)

/-! ## `placeOrder` preserves the invariant -/

theorem fillRem_pos (q : Nat) (X : List (Nat × Order)) (hq : 0 < q)
    (hd : fillDone q X = false) : 0 < fillRem q X := by
  induction X generalizing q with
  | nil => simpa [fillRem] using hq
  | cons e t ih =>
    obtain ⟨k, o⟩ := e
    simp only [fillDone, fillRem] at hd ⊢
    split_ifs at hd ⊢ with h1 h2
    exact ih _ (by omega) hd

/-- After a pass that does not fill the incoming order, the order has kept its fields, and
its quantity is positive and not larger than before. -/
theorem scanLevels_remainder (stop : Nat → Bool) (lv : List (Nat × OrdersData))
    (order : Order) (idx : OrderToPrice) (out : List Output)
    (hq : order.quantity < 2 ^ 32) (hb : ∀ e ∈ flatK lv, e.2.quantity < 2 ^ 32) :
    (scanLevels stop order idx out lv).order
        = { order with quantity := (scanLevels stop order idx out lv).order.quantity } ∧
      (scanLevels stop order idx out lv).order.quantity ≤ order.quantity ∧
      (0 < order.quantity → (scanLevels stop order idx out lv).result = false →
        0 < (scanLevels stop order idx out lv).order.quantity) := by
  obtain ⟨s1, s2, s3, s4, s5⟩ := scanLevels_spec stop lv order idx out hq hb
  refine ⟨?_, ?_, ?_⟩
  · rw [s2]
  · rw [s2]; exact fillRem_le _ _
  · intro hpos hr
    rw [s2]
    exact fillRem_pos _ _ hpos (by rw [← s1]; exact hr)

theorem Order.WellFormed.side {o : Order} (h : o.WellFormed) :
    (o.isBuying = true ∧ o.tradeOperation = TradeOperation.Buy) ∨
      (o.isBuying = false ∧ o.tradeOperation = TradeOperation.Sell) := by
  obtain ⟨_, _, _, _, _, hs, _⟩ := h
  unfold Order.isBuying
  cases ht : o.tradeOperation with
  | Unknown => exact absurd ht hs
  | Sell => right; simp
  | Buy => left; simp

theorem OrderToPrice.emplace_new (m : OrderToPrice) (id : String) (p : Nat)
    (h : m.find id = none) : m.emplace id p = (m ++ [(id, p)], true) := by
  unfold OrderToPrice.emplace
  simp [h]

theorem placeOrder_inv (e : MatchingEngine) (order : Order) (out : List Output)
    (h : Inv e) (hw : order.WellFormed) : Inv (e.placeOrder order out).1 := by
  have hsd := hw.side
  obtain ⟨_, hp0, hp1, hq0, hq1, _, _⟩ := hw
  have hq : order.quantity < 2 ^ 32 := by omega
  unfold placeOrder
  by_cases hex : e.isOrderExists order.getOrderId = true
  · simp [hex, h]
  · simp only [hex, Bool.false_eq_true, if_false]
    have hnone : e.orderToPrice.find order.orderId = none := by
      rw [isOrderExists_eq] at hex
      simpa [Order.getOrderId] using hex
    rw [tradeLoop_eq_scan]
    rcases hsd with ⟨hb, hside⟩ | ⟨hb, hside⟩
    · simp only [hb, if_true]
      obtain ⟨g1, g2, g3, g4⟩ := buyPass_facts e order out h hq
      have hbq : ∀ x ∈ flatK e.sellPrices, x.2.quantity < 2 ^ 32 := by
        intro x hx
        have := (h.sellOK x hx).2.2.2.1
        omega
      obtain ⟨r1, r2, r3⟩ := scanLevels_remainder (fun price => decide (price > order.getPrice))
        e.sellPrices order e.orderToPrice out hq hbq
      by_cases hr : (buyPass order e out).result = true
      · simp [hr, g1]
      · simp only [hr, Bool.false_eq_true, if_false]
        by_cases hioc : (buyPass order e out).order.isInsertOrCancel = true
        · simp [hioc, g1]
        · simp only [hioc, Bool.false_eq_true, if_false]
          have hord : (buyPass order e out).order
              = { order with quantity := (buyPass order e out).order.quantity } := r1
          have hid : (buyPass order e out).order.getOrderId = order.orderId := by
            rw [hord]; rfl
          have hpr : (buyPass order e out).order.getPrice = order.price := by
            rw [hord]; rfl
          have hbuy : (buyPass order e out).order.isBuying = true := by
            rw [hord]; exact hb
          have hn2 := g4 hnone
          rw [hid, hpr, OrderToPrice.emplace_new _ _ _ hn2]
          simp only [Bool.not_true, Bool.false_eq_true, if_false, hbuy, if_true]
          have hr2 : (buyPass order e out).result = false := by simpa using hr
          have hadd := Inv.addBuy g1 (buyPass order e out).order ?_ ?_ ?_
          · have e1 : (buyPass order e out).order.orderId = order.orderId := hid
            have e2 : (buyPass order e out).order.price = order.price := hpr
            rw [e1, e2] at hadd
            exact hadd
          · refine ⟨rfl, ?_, r3 hq0 hr2, lt_of_le_of_lt r2 hq1, ?_⟩
            · have e2 : (buyPass order e out).order.price = order.price := hpr
              rw [e2]; exact hp0
            · rw [hord]; exact hside
          · have e1 : (buyPass order e out).order.orderId = order.orderId := hid
            rw [e1]; exact hn2
          · have e2 : (buyPass order e out).order.price = order.price := hpr
            rw [e2]; exact g3 hr2
    · simp only [hb, Bool.false_eq_true, if_false]
      obtain ⟨g1, g2, g3, g4⟩ := sellPass_facts e order out h hq
      have hbq : ∀ x ∈ flatK e.buyPrices.reverse, x.2.quantity < 2 ^ 32 := by
        intro x hx
        have := (h.buyOK x ((flatK_reverse_perm _).mem_iff.1 hx)).2.2.2.1
        omega
      obtain ⟨r1, r2, r3⟩ := scanLevels_remainder (fun price => decide (price < order.getPrice))
        e.buyPrices.reverse order e.orderToPrice out hq hbq
      by_cases hr : (sellPass order e out).result = true
      · simp [hr, g1]
      · simp only [hr, Bool.false_eq_true, if_false]
        by_cases hioc : (sellPass order e out).order.isInsertOrCancel = true
        · simp [hioc, g1]
        · simp only [hioc, Bool.false_eq_true, if_false]
          have hord : (sellPass order e out).order
              = { order with quantity := (sellPass order e out).order.quantity } := r1
          have hid : (sellPass order e out).order.getOrderId = order.orderId := by
            rw [hord]; rfl
          have hpr : (sellPass order e out).order.getPrice = order.price := by
            rw [hord]; rfl
          have hbuy : (sellPass order e out).order.isBuying = false := by
            rw [hord]; exact hb
          have hn2 := g4 hnone
          rw [hid, hpr, OrderToPrice.emplace_new _ _ _ hn2]
          simp only [Bool.not_true, Bool.false_eq_true, if_false, hbuy]
          have hr2 : (sellPass order e out).result = false := by simpa using hr
          have hadd := Inv.addSell g1 (sellPass order e out).order ?_ ?_ ?_
          · have e1 : (sellPass order e out).order.orderId = order.orderId := hid
            have e2 : (sellPass order e out).order.price = order.price := hpr
            rw [e1, e2] at hadd
            exact hadd
          · refine ⟨rfl, ?_, r3 hq0 hr2, lt_of_le_of_lt r2 hq1, ?_⟩
            · have e2 : (sellPass order e out).order.price = order.price := hpr
              rw [e2]; exact hp0
            · rw [hord]; exact hside
          · have e1 : (sellPass order e out).order.orderId = order.orderId := hid
            rw [e1]; exact hn2
          · have e2 : (sellPass order e out).order.price = order.price := hpr
            rw [e2]; exact g3 hr2

/-! ## `cancelOrder` -/

theorem eraseP_eq_filter_of_nodup (id : String) (l : List Order)
    (h : (l.map (fun o => o.orderId)).Nodup) :
    l.eraseP (fun o => decide (o.orderId = id)) = l.filter (fun o => !decide (o.orderId = id)) := by
  induction l with
  | nil => rfl
  | cons a t ih =>
    simp only [List.map_cons, List.nodup_cons] at h
    by_cases ha : a.orderId = id
    · simp only [List.eraseP_cons, ha, decide_True, cond_true, List.filter_cons, Bool.not_true,
        Bool.false_eq_true, if_false]
      symm
      rw [List.filter_eq_self]
      intro b hb
      have : b.orderId ≠ id := by
        intro hbe
        exact h.1 (List.mem_map.2 ⟨b, hb, by rw [hbe, ha]⟩)
      simp [this]
    · simp only [List.eraseP_cons, ha, decide_False, cond_false, List.filter_cons, Bool.not_false,
        if_true]
      rw [ih h.2]

theorem flatK_eq_of_levels (m : PricesMap) :
    flatK m = (m.map (fun l => (l.1, l.2.orders))).flatMap
      (fun l => l.2.map (fun o => (l.1, o))) := by
  unfold flatK
  induction m with
  | nil => rfl
  | cons a t ih => simp [List.flatMap_cons, ih]

theorem flatK_filter_levels (keep : Order → Bool) (m : List (Nat × List Order)) :
    (m.map (fun l => (l.1, l.2.filter keep))).flatMap (fun l => l.2.map (fun o => (l.1, o)))
      = (m.flatMap (fun l => l.2.map (fun o => (l.1, o)))).filter (fun x => keep x.2) := by
  induction m with
  | nil => rfl
  | cons a t ih =>
    simp only [List.map_cons, List.flatMap_cons, List.filter_append, ih]
    congr 1
    rw [List.filter_map]
    rfl

/-- Under the invariant, `removeOrderInMap` filters the order with the given id out of
every queue of the map and changes nothing else of the queues. -/
theorem removeOrderInMap_filter (id : String) (p : Nat) (m : PricesMap)
    (hs : (m.map Prod.fst).Pairwise (fun a b => a < b))
    (hnd : ((flatK m).map (fun x => x.2.orderId)).Nodup)
    (hkey : ∀ x ∈ flatK m, x.2.orderId = id → x.1 = p) :
    (removeOrderInMap id p m).map (fun l => (l.1, l.2.orders))
      = m.map (fun l => (l.1, l.2.orders.filter (fun o => !decide (o.orderId = id)))) := by
  unfold removeOrderInMap
  induction m with
  | nil => rfl
  | cons a t ih =>
    obtain ⟨k, d⟩ := a
    simp only [List.map_cons, List.pairwise_cons] at hs
    rw [flatK_cons, List.map_append, List.nodup_append] at hnd
    simp only [PricesMap.updateIfPresent]
    by_cases hk : k = p
    · simp only [hk, if_true, List.map_cons, OrdersData.eraseOrderById_orders]
      congr 1
      · rw [eraseP_eq_filter_of_nodup]
        have := hnd.1
        simpa [List.map_map, Function.comp_def] using this
      · rw [List.map_inj_left]
        intro l hl
        have : l.2.orders.filter (fun o => !decide (o.orderId = id)) = l.2.orders := by
          rw [List.filter_eq_self]
          intro o ho
          have hx : (l.1, o) ∈ flatK ((k, d) :: t) := by
            rw [flatK_cons]
            exact List.mem_append_right _ (mem_flatK.2 ⟨l, hl, rfl, ho⟩)
          have hne : o.orderId ≠ id := by
            intro he
            have h1 := hkey (l.1, o) hx he
            have h2 := hs.1 l.1 (List.mem_map.2 ⟨l, hl, rfl⟩)
            simp only at h1
            omega
          simp [hne]
        rw [this]
    · simp only [hk, if_false, List.map_cons]
      congr 1
      · have : d.orders.filter (fun o => !decide (o.orderId = id)) = d.orders := by
          rw [List.filter_eq_self]
          intro o ho
          have hx : (k, o) ∈ flatK ((k, d) :: t) := by
            rw [flatK_cons]
            exact List.mem_append_left _ (List.mem_map.2 ⟨o, ho, rfl⟩)
          have hne : o.orderId ≠ id := fun he => hk (hkey (k, o) hx he)
          simp [hne]
        rw [this]
      · exact ih hs.2 hnd.2.1 (fun x hx he =>
          hkey x (by rw [flatK_cons]; exact List.mem_append_right _ hx) he)

theorem flatK_removeOrderInMap (id : String) (p : Nat) (m : PricesMap)
    (hs : (m.map Prod.fst).Pairwise (fun a b => a < b))
    (hnd : ((flatK m).map (fun x => x.2.orderId)).Nodup)
    (hkey : ∀ x ∈ flatK m, x.2.orderId = id → x.1 = p) :
    flatK (removeOrderInMap id p m)
      = (flatK m).filter (fun x => !decide (x.2.orderId = id)) := by
  rw [flatK_eq_of_levels, removeOrderInMap_filter id p m hs hnd hkey, flatK_eq_of_levels m]
  have := flatK_filter_levels (fun o => !decide (o.orderId = id))
    (m.map (fun l => (l.1, l.2.orders)))
  rw [List.map_map] at this
  exact this

theorem removeOrderInMap_keys (id : String) (p : Nat) (m : PricesMap) :
    (removeOrderInMap id p m).map Prod.fst = m.map Prod.fst :=
  PricesMap.updateIfPresent_keys _ _ _

theorem Inv.key_of_id {e : MatchingEngine} (h : Inv e) {id : String} {p : Nat}
    (hf : e.orderToPrice.find id = some p) :
    ∀ x ∈ e.resting, x.2.orderId = id → x.1 = p := by
  intro x hx he
  have : (x.1, id) ∈ e.resting.map keyId :=
    List.mem_map.2 ⟨x, hx, by unfold engine.keyId; rw [he]⟩
  rw [← h.index, hf] at this
  exact (Option.some.inj this).symm

/-- The resting orders after `cancelOrder`, when the id is in the index. -/
theorem cancelOrder_resting (e : MatchingEngine) (id : String) (p : Nat) (h : Inv e)
    (hf : e.orderToPrice.find id = some p) :
    flatK (e.cancelOrder id).buyPrices
        = (flatK e.buyPrices).filter (fun x => !decide (x.2.orderId = id)) ∧
      flatK (e.cancelOrder id).sellPrices
        = (flatK e.sellPrices).filter (fun x => !decide (x.2.orderId = id)) := by
  have hnd := h.idsNodup
  unfold MatchingEngine.resting at hnd
  rw [List.map_append, List.nodup_append] at hnd
  have hk := h.key_of_id hf
  unfold cancelOrder
  simp only [hf]
  exact ⟨flatK_removeOrderInMap id p _ h.buySorted hnd.1
      (fun x hx => hk x (List.mem_append_left _ hx)),
    flatK_removeOrderInMap id p _ h.sellSorted hnd.2.1
      (fun x hx => hk x (List.mem_append_right _ hx))⟩

theorem cancelOrder_inv (e : MatchingEngine) (id : String) (h : Inv e) :
    Inv (e.cancelOrder id) := by
  cases hf : e.orderToPrice.find id with
  | none =>
    unfold cancelOrder
    simp only [hf]
    exact h
  | some p =>
    obtain ⟨c1, c2⟩ := cancelOrder_resting e id p h hf
    have hidx : (e.cancelOrder id).orderToPrice = e.orderToPrice.erase id := by
      unfold cancelOrder; simp only [hf]
    have hkb : (e.cancelOrder id).buyPrices.map Prod.fst = e.buyPrices.map Prod.fst := by
      unfold cancelOrder; simp only [hf]; exact removeOrderInMap_keys _ _ _
    have hks : (e.cancelOrder id).sellPrices.map Prod.fst = e.sellPrices.map Prod.fst := by
      unfold cancelOrder; simp only [hf]; exact removeOrderInMap_keys _ _ _
    have hin : (p, id) ∈ e.resting.map keyId := (h.index id p).1 hf
    refine Inv.shrink (e.resting.filter (fun x => decide (x.2.orderId = id))) h hkb hks ?_ ?_ ?_ ?_ ?_
    · intro x hx
      rw [c1] at hx
      exact ⟨x, (List.mem_filter.1 hx).1, Derived.refl x⟩
    · intro x hx
      rw [c2] at hx
      exact ⟨x, (List.mem_filter.1 hx).1, Derived.refl x⟩
    · have : (e.cancelOrder id).resting
          = e.resting.filter (fun x => !decide (x.2.orderId = id)) := by
        unfold MatchingEngine.resting
        rw [c1, c2, List.filter_append]
      rw [this, ← List.map_append]
      exact ((List.filter_append_perm _ _).symm).map _
    · rw [hidx]; exact OrderToPrice.erase_keys_sublist _ _
    · intro id2
      rw [hidx, OrderToPrice.find_erase]
      have : id2 ∈ (e.resting.filter (fun x => decide (x.2.orderId = id))).map
          (fun x => x.2.orderId) ↔ id2 = id := by
        constructor
        · intro hm
          obtain ⟨x, hx, he⟩ := List.mem_map.1 hm
          have := (List.mem_filter.1 hx).2
          simp only [decide_eq_true_eq] at this
          rw [← he, this]
        · rintro rfl
          obtain ⟨x, hx, he⟩ := List.mem_map.1 hin
          have hid : x.2.orderId = id2 := congrArg Prod.snd he
          exact List.mem_map.2 ⟨x, List.mem_filter.2 ⟨hx, by simp [hid]⟩, hid⟩
      by_cases h2 : id2 = id
      · rw [if_pos h2, if_pos (this.2 h2)]
      · rw [if_neg h2, if_neg (fun hh => h2 (this.1 hh))]

/-! ## Parsing -/

theorem toInt32_range (n : Int) : -(2 ^ 31) ≤ toInt32 n ∧ toInt32 n < 2 ^ 31 := by
  unfold toInt32
  simp only
  split_ifs with h <;> omega

theorem atoi_range (s : List Char) : -(2 ^ 31) ≤ atoi s ∧ atoi s < 2 ^ 31 := by
  unfold atoi
  exact toInt32_range _

theorem getIntegerAndForward_range (c : ColumnsData) :
    -(2 ^ 31) ≤ c.getIntegerAndForward.1 ∧ c.getIntegerAndForward.1 < 2 ^ 31 := by
  unfold ColumnsData.getIntegerAndForward
  cases c.items.get? c.index with
  | none => simp
  | some item => exact atoi_range _

theorem Order.toU32_pos (n : Int) (h0 : 0 < n) (h1 : n < 2 ^ 31) :
    0 < Order.toU32 n ∧ Order.toU32 n < 2 ^ 31 := by
  unfold Order.toU32
  omega

/-- An order that passes the validation of the parsing constructor is well formed. -/
theorem Order.ofColumns_wellFormed (columns : ColumnsData)
    (h : (Order.ofColumns columns).isValidFormat = true) : (Order.ofColumns columns).WellFormed := by
  unfold Order.isValidFormat at h
  unfold Order.ofColumns at h ⊢
  simp only at h ⊢
  split_ifs at h ⊢ with h1 h2 h3 h4 h5
  · have r1 := getIntegerAndForward_range columns.forward.forward
    have r2 := getIntegerAndForward_range columns.forward.forward.getIntegerAndForward.2
    have p1 := Order.toU32_pos _ (not_le.1 h4) r1.2
    have p2 := Order.toU32_pos _ (not_le.1 h5) r2.2
    exact ⟨rfl, p1.1, p1.2, p2.1, p2.2, h2, h3⟩

theorem Order.ofFields_wellFormed (id : String) (p q : Int) (op : TradeOperation)
    (hp : 0 < p) (hp2 : p < 2 ^ 31) (hq : 0 < q) (hq2 : q < 2 ^ 31)
    (hop : op ≠ TradeOperation.Unknown) :
    (Order.ofFields id (Order.toU32 p) (Order.toU32 q) op).WellFormed := by
  have p1 := Order.toU32_pos p hp hp2
  have p2 := Order.toU32_pos q hq hq2
  exact ⟨rfl, p1.1, p1.2, p2.1, p2.2, hop, by simp [Order.ofFields]⟩

/-! ## Every command preserves the invariant -/

theorem modifyOrder_inv (e : MatchingEngine) (c : ColumnsData) (out : List Output) (h : Inv e) :
    Inv (e.modifyOrder c out).1 := by
  unfold modifyOrder
  simp only
  split_ifs with h1 h2 h3 h4
  · exact h
  · exact h
  · exact h
  · exact h
  · refine placeOrder_inv _ _ _ (cancelOrder_inv e _ h) ?_
    exact Order.ofFields_wellFormed _ _ _ _ (not_le.1 h3) (getIntegerAndForward_range _).2
      (not_le.1 h4) (getIntegerAndForward_range _).2 h2

theorem runCommand_inv (e : MatchingEngine) (line : String) (h : Inv e) :
    Inv (e.runCommand line).1 := by
  unfold runCommand
  simp only
  split_ifs with h1 h2 h3 h4 h5 h6 h7
  · exact h
  · exact cancelOrder_inv e _ h
  · exact h
  · exact modifyOrder_inv e _ _ h
  · exact h
  · exact h
  · exact h
  · exact placeOrder_inv e _ _ h (Order.ofColumns_wellFormed _ (by simpa using h7))

theorem inv_init : Inv ({} : MatchingEngine) := by
  refine ⟨?_, ?_, ?_, ?_, ?_, ?_, ?_, ?_⟩ <;>
    simp [MatchingEngine.resting, flatK, OrderToPrice.find_nil]

/-- Every reachable state of the engine satisfies the invariant. -/
theorem Reachable.inv {e : MatchingEngine} (h : Reachable e) : Inv e := by
  induction h with
  | init => exact inv_init
  | step e line _ ih => exact runCommand_inv e line ih

theorem Reachable.runLines_from {e : MatchingEngine} (h : Reachable e) (lines : List String) :
    Reachable (e.runLines lines).1 := by
  unfold runLines
  suffices hs : ∀ (acc : MatchingEngine × List Output), Reachable acc.1 →
      Reachable (lines.foldl
        (fun acc line => let r := runCommand acc.1 line; (r.1, acc.2 ++ r.2)) acc).1 from
    hs (e, []) h
  induction lines with
  | nil => intro acc ha; exact ha
  | cons l t ih =>
    intro acc ha
    exact ih _ (Reachable.step acc.1 l ha)

theorem reachable_runLines (lines : List String) :
    Reachable (MatchingEngine.runLines {} lines).1 :=
  Reachable.init.runLines_from lines

/-! ## The claims -/

/-- C1. No crossed book: in every reachable state, every bid level that holds a resting
order has a price strictly below every ask level that holds a resting order. -/
theorem C1_no_crossed_book (e : MatchingEngine) (h : Reachable e)
    (b : Nat × OrdersData) (hb : b ∈ e.buyPrices) (hbn : b.2.orders ≠ [])
    (a : Nat × OrdersData) (ha : a ∈ e.sellPrices) (han : a.2.orders ≠ []) :
    b.1 < a.1 := by
  obtain ⟨ob, hob⟩ := List.exists_mem_of_ne_nil _ hbn
  obtain ⟨oa, hoa⟩ := List.exists_mem_of_ne_nil _ han
  exact h.inv.noCross (b.1, ob) (mem_flatK.2 ⟨b, hb, rfl, hob⟩) (a.1, oa)
    (mem_flatK.2 ⟨a, ha, rfl, hoa⟩)

theorem C1_no_crossed_book_witness :
    Reachable exTwoSided ∧ exBidLevel ∈ exTwoSided.buyPrices ∧
      exAskLevel ∈ exTwoSided.sellPrices ∧ exBidLevel.1 < exAskLevel.1 :=
  ⟨reachable_runLines _, by decide, by decide,
    C1_no_crossed_book exTwoSided (reachable_runLines _) exBidLevel (by decide) (by decide)
      exAskLevel (by decide) (by decide)⟩

/-- C2. Index/queue consistency: in every reachable state an id maps to `p` in the index
exactly when one and only one resting order (over both sides) has that id, and that order
is stored in the level with key `p` and has price `p`; no id occurs twice among the
resting orders, and no key occurs twice in the index. -/
theorem C2_index_queue_consistency (e : MatchingEngine) (h : Reachable e) :
    (∀ id p, e.orderToPrice.find id = some p ↔
        ((e.resting.map (fun x => x.2.orderId)).count id = 1 ∧
          ∀ x ∈ e.resting, x.2.orderId = id → x.1 = p ∧ x.2.price = p)) ∧
      (e.resting.map (fun x => x.2.orderId)).Nodup ∧
      (e.orderToPrice.map Prod.fst).Nodup := by
  have hi := h.inv
  refine ⟨?_, hi.idsNodup, hi.keysNodup⟩
  intro id p
  have hprice : ∀ x ∈ e.resting, x.2.price = x.1 := by
    intro x hx
    rcases List.mem_append.1 hx with hx | hx
    · exact (hi.buyOK x hx).1
    · exact (hi.sellOK x hx).1
  constructor
  · intro hf
    have hin := (hi.index id p).1 hf
    refine ⟨List.count_eq_one_of_mem hi.idsNodup (mem_map_keyId_of_id hin), ?_⟩
    intro x hx he
    have hk := hi.key_of_id hf x hx he
    exact ⟨hk, by rw [hprice x hx, hk]⟩
  · rintro ⟨hc, hall⟩
    have hmem : id ∈ e.resting.map (fun x => x.2.orderId) := by
      rw [← List.count_pos_iff]
      omega
    obtain ⟨x, hx, he⟩ := List.mem_map.1 hmem
    rw [hi.index]
    refine List.mem_map.2 ⟨x, hx, ?_⟩
    unfold engine.keyId
    rw [(hall x hx he).1, he]

theorem C2_index_queue_consistency_witness :
    Reachable exTwoSided ∧ exTwoSided.orderToPrice.find "B1" = some 99 ∧
      ((exTwoSided.resting.map (fun x => x.2.orderId)).count "B1" = 1 ∧
        ∀ x ∈ exTwoSided.resting, x.2.orderId = "B1" → x.1 = 99 ∧ x.2.price = 99) :=
  ⟨reachable_runLines _, by decide,
    ((C2_index_queue_consistency exTwoSided (reachable_runLines _)).1 "B1" 99).1 (by decide)⟩

/-! ## `trade(Order&)` and `placeOrder` in terms of the reference description -/

theorem priority_split (order : Order) (e : MatchingEngine) :
    priority order e = crossList order e ++ beyondList order e := by
  unfold priority crossList beyondList
  split_ifs <;> rw [← flatK_append, crossing_append_beyond]

theorem Inv.bounded_priority {e : MatchingEngine} (h : Inv e) (order : Order) :
    ∀ x ∈ priority order e, 0 < x.2.quantity ∧ x.2.quantity < 2 ^ 32 ∧ x.2.price = x.1 := by
  intro x hx
  unfold priority at hx
  split_ifs at hx
  · obtain ⟨h1, _, h3, h4, _⟩ := h.sellOK x hx
    exact ⟨h3, by omega, h1⟩
  · obtain ⟨h1, _, h3, h4, _⟩ := h.buyOK x ((flatK_reverse_perm _).mem_iff.1 hx)
    exact ⟨h3, by omega, h1⟩

/-- Agreement of `trade(Order&)` with the reference description, on a book that satisfies
the invariant. -/
theorem trade_spec (e : MatchingEngine) (order : Order) (out : List Output) (h : Inv e)
    (hq : order.quantity < 2 ^ 32) :
    (trade order e out).result = fillDone order.quantity (crossList order e) ∧
      (trade order e out).order
        = { order with quantity := fillRem order.quantity (crossList order e) } ∧
      priority order (trade order e out).engine
        = fillRest order.quantity (crossList order e) ++ beyondList order e ∧
      (trade order e out).engine.orderToPrice
        = eraseAll e.orderToPrice
            ((fillGone order.quantity (crossList order e)).map (fun x => x.2.orderId)) ∧
      (trade order e out).out
        = out ++ fillTrades order.orderId order.price order.quantity (crossList order e) := by
  have hbd := h.bounded_priority order
  rw [tradeLoop_eq_scan]
  unfold priority crossList beyondList at *
  by_cases hb : order.isBuying = true
  · simp only [hb, if_true] at hbd ⊢
    obtain ⟨s1, s2, s3, s4, s5⟩ := scanLevels_spec (fun price => decide (price > order.getPrice))
      e.sellPrices order e.orderToPrice out hq (fun x hx => (hbd x hx).2.1)
    exact ⟨s1, s2, s3, s4, s5⟩
  · simp only [hb, Bool.false_eq_true, if_false] at hbd ⊢
    obtain ⟨s1, s2, s3, s4, s5⟩ := scanLevels_spec (fun price => decide (price < order.getPrice))
      e.buyPrices.reverse order e.orderToPrice out hq (fun x hx => (hbd x hx).2.1)
    refine ⟨s1, s2, ?_, s4, s5⟩
    simp only [sellPass, List.reverse_reverse]
    exact s3

/-- The side of the incoming order is left alone by `trade(Order&)`. -/
theorem trade_own_side (e : MatchingEngine) (order : Order) (out : List Output) :
    (order.isBuying = true → (trade order e out).engine.buyPrices = e.buyPrices) ∧
      (order.isBuying = false → (trade order e out).engine.sellPrices = e.sellPrices) := by
  rw [tradeLoop_eq_scan]
  constructor
  · intro hb; simp only [hb, if_true]; rfl
  · intro hb; simp only [hb, Bool.false_eq_true, if_false]; rfl

theorem trade_inv (e : MatchingEngine) (order : Order) (out : List Output) (h : Inv e)
    (hq : order.quantity < 2 ^ 32) : Inv (trade order e out).engine := by
  rw [tradeLoop_eq_scan]
  split_ifs
  · exact (buyPass_facts e order out h hq).1
  · exact (sellPass_facts e order out h hq).1

/-- What `placeOrder` returns when the id of the order is already in the index. -/
theorem placeOrder_duplicate (e : MatchingEngine) (order : Order) (out : List Output)
    (p : Nat) (hf : e.orderToPrice.find order.orderId = some p) :
    e.placeOrder order out = (e, out) := by
  unfold placeOrder
  have : e.isOrderExists order.getOrderId = true := by
    rw [isOrderExists_eq]; simp [Order.getOrderId, hf]
  simp [this]

/-- The output of `placeOrder` for an id that is not in the index is the output of
`trade(Order&)`. -/
theorem placeOrder_out (e : MatchingEngine) (order : Order) (out : List Output)
    (hf : e.orderToPrice.find order.orderId = none) :
    (e.placeOrder order out).2 = (trade order e out).out := by
  unfold placeOrder
  have : e.isOrderExists order.getOrderId = false := by
    rw [isOrderExists_eq]; simp [Order.getOrderId, hf]
  simp only [this, Bool.false_eq_true, if_false]
  split_ifs <;> rfl

/-- The engine after `placeOrder` when the order is filled or is IOC. -/
theorem placeOrder_no_rest (e : MatchingEngine) (order : Order) (out : List Output)
    (hf : e.orderToPrice.find order.orderId = none)
    (hr : (trade order e out).result = true ∨ (trade order e out).order.isInsertOrCancel = true) :
    (e.placeOrder order out).1 = (trade order e out).engine := by
  unfold placeOrder
  have : e.isOrderExists order.getOrderId = false := by
    rw [isOrderExists_eq]; simp [Order.getOrderId, hf]
  simp only [this, Bool.false_eq_true, if_false]
  by_cases h1 : (trade order e out).result = true
  · simp [h1]
  · rcases hr with hr | hr
    · exact absurd hr h1
    · simp [h1, hr]

/-- The engine after `placeOrder` when a GFD order is not filled: the remainder is
entered into the index and appended to the level at its price on its own side. -/
theorem placeOrder_rest (e : MatchingEngine) (order : Order) (out : List Output) (h : Inv e)
    (hq : order.quantity < 2 ^ 32)
    (hf : e.orderToPrice.find order.orderId = none)
    (hr : (trade order e out).result = false)
    (hioc : order.isInsertOrCancel = false) :
    (e.placeOrder order out).1 =
      if order.isBuying then
        { (trade order e out).engine with
          orderToPrice := (trade order e out).engine.orderToPrice ++ [(order.orderId, order.price)]
          buyPrices := PricesMap.updateAt (fun d => d.addOrder (trade order e out).order)
            order.price (trade order e out).engine.buyPrices }
      else
        { (trade order e out).engine with
          orderToPrice := (trade order e out).engine.orderToPrice ++ [(order.orderId, order.price)]
          sellPrices := PricesMap.updateAt (fun d => d.addOrder (trade order e out).order)
            order.price (trade order e out).engine.sellPrices } := by
  obtain ⟨t1, t2, t3, t4, t5⟩ := trade_spec e order out h hq
  have hid : (trade order e out).order.getOrderId = order.orderId := by rw [t2]; rfl
  have hpr : (trade order e out).order.getPrice = order.price := by rw [t2]; rfl
  have hbuy : (trade order e out).order.isBuying = order.isBuying := by rw [t2]; rfl
  have hi2 : (trade order e out).order.isInsertOrCancel = false := by rw [t2]; exact hioc
  have hn2 : (trade order e out).engine.orderToPrice.find order.orderId = none := by
    rw [t4, OrderToPrice.find_eraseAll, hf]; simp
  unfold placeOrder
  have : e.isOrderExists order.getOrderId = false := by
    rw [isOrderExists_eq]; simp [Order.getOrderId, hf]
  simp only [this, Bool.false_eq_true, if_false, hr, hi2, hid, hpr, hbuy,
    OrderToPrice.emplace_new _ _ _ hn2, Bool.not_true]
  split_ifs <;> rfl

/-! ## The TRADE lines of one placement -/

theorem totalQty_nil : totalQty [] = 0 := rfl

theorem totalQty_cons (x : Nat × Order) (l : List (Nat × Order)) :
    totalQty (x :: l) = x.2.quantity + totalQty l := by
  simp [totalQty]

theorem totalQty_append (a b : List (Nat × Order)) :
    totalQty (a ++ b) = totalQty a + totalQty b := by
  simp [totalQty]

theorem fillTrades_length_le (id : String) (p : Nat) (X : List (Nat × Order)) :
    ∀ q, (fillTrades id p q X).length ≤ X.length := by
  induction X with
  | nil => intro q; simp [fillTrades]
  | cons a t ih =>
    obtain ⟨k, o⟩ := a
    intro q
    simp only [fillTrades]
    split_ifs
    · simp
    · simp only [List.length_cons]; exact Nat.succ_le_succ (ih _)
    · simp

/-- The `i`-th TRADE line of a pass names the `i`-th order of the priority list, for the
smaller of that order's quantity and what is left of the incoming quantity; all earlier
orders of the list were filled completely and removed. -/
theorem fillTrades_index (id : String) (p : Nat) (X : List (Nat × Order)) :
    ∀ q i, i < (fillTrades id p q X).length →
      ∃ x, X[i]? = some x ∧
        (fillTrades id p q X)[i]? = some (Output.trade x.2.orderId x.2.price
          (min x.2.quantity (q - totalQty (X.take i))) id p
          (min x.2.quantity (q - totalQty (X.take i)))) ∧
        ∀ j, j < i → ∃ y, X[j]? = some y ∧ y ∈ fillGone q X ∧
          (fillTrades id p q X)[j]? = some (Output.trade y.2.orderId y.2.price y.2.quantity
            id p y.2.quantity) := by
  induction X with
  | nil => intro q i hi; simp [fillTrades] at hi
  | cons a t ih =>
    obtain ⟨k, o⟩ := a
    intro q i hi
    simp only [fillTrades, fillGone] at hi ⊢
    split_ifs at hi ⊢ with h1 h2
    · have hi0 : i = 0 := by simpa using hi
      subst hi0
      refine ⟨(k, o), List.getElem?_cons_zero, ?_, fun j hj => absurd hj (Nat.not_lt_zero j)⟩
      have : min o.quantity q = q := by omega
      simp [totalQty_nil, this]
    · cases i with
      | zero =>
        refine ⟨(k, o), List.getElem?_cons_zero, ?_, fun j hj => absurd hj (Nat.not_lt_zero j)⟩
        have : min o.quantity q = o.quantity := by omega
        simp [totalQty_nil, this]
      | succ i =>
        have hi2 : i < (fillTrades id p (q - o.quantity) t).length := by
          simpa using hi
        obtain ⟨x, hx, hxt, hprev⟩ := ih (q - o.quantity) i hi2
        refine ⟨x, by simpa using hx, ?_, ?_⟩
        · simp only [List.take_succ_cons, totalQty_cons, List.getElem?_cons_succ]
          rw [hxt, Nat.sub_sub]
        · intro j hj
          cases j with
          | zero => exact ⟨(k, o), List.getElem?_cons_zero, by simp, List.getElem?_cons_zero⟩
          | succ j =>
            obtain ⟨y, hy, hyg, hyt⟩ := hprev j (by omega)
            exact ⟨y, by simpa using hy, List.mem_cons_of_mem _ hyg, by simpa using hyt⟩
    · have hi0 : i = 0 := by simpa using hi
      subst hi0
      refine ⟨(k, o), List.getElem?_cons_zero, ?_, fun j hj => absurd hj (Nat.not_lt_zero j)⟩
      have : min o.quantity q = q := by omega
      simp [totalQty_nil, this]

theorem fillGone_subset (q : Nat) (X : List (Nat × Order)) : ∀ y ∈ fillGone q X, y ∈ X := by
  induction X generalizing q with
  | nil => intro y hy; simp [fillGone] at hy
  | cons a t ih =>
    obtain ⟨k, o⟩ := a
    intro y hy
    simp only [fillGone] at hy
    split_ifs at hy
    · simp at hy
    · rcases List.mem_cons.1 hy with rfl | hy
      · simp
      · exact List.mem_cons_of_mem _ (ih _ y hy)
    · simp only [List.mem_singleton] at hy
      subst hy
      simp

/-- The levels the `for` loop enters are at crossing prices. -/
theorem crossList_crossing (order : Order) (e : MatchingEngine) :
    ∀ x ∈ crossList order e,
      if order.isBuying then x.1 ≤ order.price else order.price ≤ x.1 := by
  intro x hx
  unfold crossList at hx
  split_ifs at hx ⊢
  · obtain ⟨l, hl, hk, _⟩ := mem_flatK.1 hx
    have := List.mem_takeWhile_imp hl
    simp only [Order.getPrice, Bool.not_eq_true', decide_eq_false_iff_not, not_lt] at this
    omega
  · obtain ⟨l, hl, hk, _⟩ := mem_flatK.1 hx
    have := List.mem_takeWhile_imp hl
    simp only [Order.getPrice, Bool.not_eq_true', decide_eq_false_iff_not, not_lt] at this
    omega

/-- The index after `placeOrder` of an order whose id was not in the index. -/
theorem placeOrder_index (e : MatchingEngine) (order : Order) (out : List Output) (h : Inv e)
    (hq : order.quantity < 2 ^ 32) (hf : e.orderToPrice.find order.orderId = none) (id : String) :
    (e.placeOrder order out).1.orderToPrice.find id =
      if fillDone order.quantity (crossList order e) = false ∧ order.isInsertOrCancel = false
          ∧ id = order.orderId then some order.price
      else if id ∈ (fillGone order.quantity (crossList order e)).map (fun x => x.2.orderId)
        then none
      else e.orderToPrice.find id := by
  obtain ⟨t1, t2, t3, t4, t5⟩ := trade_spec e order out h hq
  have hn2 : (trade order e out).engine.orderToPrice.find order.orderId = none := by
    rw [t4, OrderToPrice.find_eraseAll, hf]; simp
  by_cases hrest : (trade order e out).result = false ∧ order.isInsertOrCancel = false
  · rw [placeOrder_rest e order out h hq hf hrest.1 hrest.2]
    have hfd : fillDone order.quantity (crossList order e) = false := by rw [← t1]; exact hrest.1
    have hcases : ∀ (m1 m2 : MatchingEngine),
        m1.orderToPrice = (trade order e out).engine.orderToPrice ++ [(order.orderId, order.price)] →
        m2.orderToPrice = (trade order e out).engine.orderToPrice ++ [(order.orderId, order.price)] →
        (if order.isBuying = true then m1 else m2).orderToPrice
          = (trade order e out).engine.orderToPrice ++ [(order.orderId, order.price)] := by
      intro m1 m2 h1 h2
      split_ifs
      · exact h1
      · exact h2
    rw [hcases _ _ rfl rfl, OrderToPrice.find_append_single _ _ _ _ hn2, t4,
      OrderToPrice.find_eraseAll]
    by_cases hid : id = order.orderId
    · simp [hid, hfd, hrest.2]
    · simp [hid]
  · have hnr : (trade order e out).result = true ∨
        (trade order e out).order.isInsertOrCancel = true := by
      by_cases hr : (trade order e out).result = true
      · exact Or.inl hr
      · right
        have hr2 : (trade order e out).result = false := by simpa using hr
        have : ¬ order.isInsertOrCancel = false := fun hh => hrest ⟨hr2, hh⟩
        rw [t2]
        simpa [Order.isInsertOrCancel] using this
    rw [placeOrder_no_rest e order out hf hnr, t4, OrderToPrice.find_eraseAll]
    have : ¬ (fillDone order.quantity (crossList order e) = false ∧
        order.isInsertOrCancel = false ∧ id = order.orderId) := by
      rintro ⟨a, b, _⟩
      exact hrest ⟨by rw [t1]; exact a, b⟩
    rw [if_neg this]

theorem flatK_pairwise (R S : Nat → Nat → Prop) (hRS : ∀ a b, S a b → R a b)
    (hR : ∀ a, R a a) (lv : List (Nat × OrdersData)) (h : (lv.map Prod.fst).Pairwise S) :
    (flatK lv).Pairwise (fun x y => R x.1 y.1) := by
  induction lv with
  | nil => simp [flatK]
  | cons l t ih =>
    simp only [List.map_cons, List.pairwise_cons] at h
    rw [flatK_cons, List.pairwise_append]
    refine ⟨?_, ih h.2, ?_⟩
    · rw [List.pairwise_map]
      exact List.pairwise_of_forall (fun _ _ => hR l.1)
    · intro a ha b hb
      obtain ⟨o, _, rfl⟩ := List.mem_map.1 ha
      obtain ⟨l2, hl2, hk, _⟩ := mem_flatK.1 hb
      rw [← hk]
      exact hRS _ _ (h.1 l2.1 (List.mem_map.2 ⟨l2, hl2, rfl⟩))

/-- The priority list is in price order, best price first. -/
theorem Inv.priority_sorted {e : MatchingEngine} (h : Inv e) (order : Order) :
    if order.isBuying then (priority order e).Pairwise (fun x y => x.2.price ≤ y.2.price)
    else (priority order e).Pairwise (fun x y => y.2.price ≤ x.2.price) := by
  have hbd := h.bounded_priority order
  split_ifs with hb
  · have hs : (priority order e).Pairwise (fun x y => x.1 ≤ y.1) := by
      unfold priority
      rw [if_pos hb]
      exact flatK_pairwise (fun a b => a ≤ b) (fun a b => a < b) (fun _ _ hab => le_of_lt hab)
        (fun _ => le_rfl) _ h.sellSorted
    refine hs.imp_of_mem ?_
    intro a b ha hb2 hab
    rw [(hbd a ha).2.2, (hbd b hb2).2.2]
    exact hab
  · have hs : (priority order e).Pairwise (fun x y => y.1 ≤ x.1) := by
      unfold priority
      rw [if_neg hb]
      refine flatK_pairwise (fun a b => b ≤ a) (fun a b => b < a) (fun _ _ hab => le_of_lt hab)
        (fun _ => le_rfl) _ ?_
      rw [List.map_reverse, List.pairwise_reverse]
      exact h.buySorted
    refine hs.imp_of_mem ?_
    intro a b ha hb2 hab
    rw [(hbd a ha).2.2, (hbd b hb2).2.2]
    exact hab

/-- The queue of every level appears in the list of resting orders as one block, in queue
order. -/
theorem flatK_level_infix (lv : List (Nat × OrdersData)) (l : Nat × OrdersData) (hl : l ∈ lv) :
    (l.2.orders.map (fun o => (l.1, o))) <:+: flatK lv := by
  obtain ⟨s, t, rfl⟩ := List.mem_iff_append.1 hl
  exact ⟨flatK s, flatK t, by rw [flatK_append, flatK_cons, List.append_assoc]⟩

theorem priority_level_infix (order : Order) (e : MatchingEngine) (l : Nat × OrdersData)
    (hl : l ∈ (if order.isBuying then e.sellPrices else e.buyPrices)) :
    (l.2.orders.map (fun o => (l.1, o))) <:+: priority order e := by
  unfold priority
  split_ifs at hl ⊢
  · exact flatK_level_infix _ l hl
  · exact flatK_level_infix _ l (List.mem_reverse.2 hl)

/-- The TRADE lines of one `placeOrder`, line by line. -/
theorem placeOrder_trades (e : MatchingEngine) (order : Order) (h : Inv e)
    (hw : order.WellFormed) (i : Nat) (hi : i < (e.placeOrder order []).2.length) :
    ∃ x, (priority order e)[i]? = some x ∧ x ∈ crossList order e ∧
      (e.placeOrder order []).2[i]? = some (Output.trade x.2.orderId x.2.price
        (min x.2.quantity (order.quantity - totalQty ((priority order e).take i)))
        order.orderId order.price
        (min x.2.quantity (order.quantity - totalQty ((priority order e).take i)))) ∧
      ∀ j, j < i → ∃ y, (priority order e)[j]? = some y ∧
        (e.placeOrder order []).2[j]? = some (Output.trade y.2.orderId y.2.price y.2.quantity
          order.orderId order.price y.2.quantity) ∧
        y.2.orderId ∉ (e.placeOrder order []).1.resting.map (fun z => z.2.orderId) := by
  have hq : order.quantity < 2 ^ 32 := by
    have := hw.2.2.2.2.1
    omega
  cases hf : e.orderToPrice.find order.orderId with
  | some p =>
    rw [placeOrder_duplicate e order [] p hf] at hi
    simp at hi
  | none =>
    obtain ⟨t1, t2, t3, t4, t5⟩ := trade_spec e order [] h hq
    have hout : (e.placeOrder order []).2
        = fillTrades order.orderId order.price order.quantity (crossList order e) := by
      rw [placeOrder_out e order [] hf, t5, List.nil_append]
    rw [hout] at hi ⊢
    obtain ⟨x, hx, hxt, hprev⟩ := fillTrades_index order.orderId order.price
      (crossList order e) order.quantity i hi
    have hlen := fillTrades_length_le order.orderId order.price (crossList order e) order.quantity
    have hil : i < (crossList order e).length := lt_of_lt_of_le hi hlen
    have hget : ∀ j, j < (crossList order e).length →
        (priority order e)[j]? = (crossList order e)[j]? := by
      intro j hj
      rw [priority_split, List.getElem?_append_left hj]
    have htake : (priority order e).take i = (crossList order e).take i := by
      rw [priority_split, List.take_append_of_le_length (le_of_lt hil)]
    refine ⟨x, by rw [hget i hil]; exact hx, List.getElem?_mem hx, by rw [htake]; exact hxt, ?_⟩
    intro j hj
    obtain ⟨y, hy, hyg, hyt⟩ := hprev j hj
    refine ⟨y, by rw [hget j (by omega)]; exact hy, hyt, ?_⟩
    have hinv2 := placeOrder_inv e order [] h hw
    apply hinv2.id_not_resting
    rw [placeOrder_index e order [] h hq hf]
    have hyid : y.2.orderId ∈ (fillGone order.quantity (crossList order e)).map
        (fun x => x.2.orderId) := List.mem_map.2 ⟨y, hyg, rfl⟩
    have hne : y.2.orderId ≠ order.orderId := by
      intro heq
      have hyr : y ∈ e.resting := by
        have hyp : y ∈ priority order e := by
          rw [priority_split]
          exact List.mem_append_left _ (fillGone_subset _ _ y hyg)
        unfold priority at hyp
        unfold MatchingEngine.resting
        split_ifs at hyp
        · exact List.mem_append_right _ hyp
        · exact List.mem_append_left _ ((flatK_reverse_perm _).mem_iff.1 hyp)
      exact h.id_not_resting hf (List.mem_map.2 ⟨y, hyr, heq⟩)
    simp [hne, hyid]

/-- C3. Price-time priority: on a reachable book, the list of opposite-side resting orders
that an incoming order meets is in price order, best price first, and holds the queue of
every level as one block in queue order; the `i`-th TRADE line of the placement names the
`i`-th order of that list, and every order before it in the list has been filled
completely (its TRADE line carries its whole quantity) and no longer rests after the
placement. -/
theorem C3_price_time_priority (e : MatchingEngine) (order : Order) (h : Reachable e)
    (hw : order.WellFormed) :
    (if order.isBuying then (priority order e).Pairwise (fun x y => x.2.price ≤ y.2.price)
      else (priority order e).Pairwise (fun x y => y.2.price ≤ x.2.price)) ∧
    (∀ l ∈ (if order.isBuying then e.sellPrices else e.buyPrices),
      (l.2.orders.map (fun o => (l.1, o))) <:+: priority order e) ∧
    ∀ i, i < (e.placeOrder order []).2.length →
      ∃ x q, (priority order e)[i]? = some x ∧
        (e.placeOrder order []).2[i]? =
          some (Output.trade x.2.orderId x.2.price q order.orderId order.price q) ∧
        ∀ j, j < i → ∃ y, (priority order e)[j]? = some y ∧
          (e.placeOrder order []).2[j]? = some (Output.trade y.2.orderId y.2.price y.2.quantity
            order.orderId order.price y.2.quantity) ∧
          y.2.orderId ∉ (e.placeOrder order []).1.resting.map (fun z => z.2.orderId) := by
  refine ⟨h.inv.priority_sorted order, priority_level_infix order e, ?_⟩
  intro i hi
  obtain ⟨x, hx, _, hxt, hprev⟩ := placeOrder_trades e order h.inv hw i hi
  exact ⟨x, _, hx, hxt, hprev⟩

theorem C3_price_time_priority_witness :
    Reachable exAsks ∧ exBuy.WellFormed ∧
      (exAsks.placeOrder exBuy []).2 =
        [Output.trade "S1" 100 5 "B1" 101 5, Output.trade "S3" 100 5 "B1" 101 5,
          Output.trade "S2" 101 2 "B1" 101 2] ∧
      ∃ x q, (priority exBuy exAsks)[2]? = some x ∧
        (exAsks.placeOrder exBuy []).2[2]? =
          some (Output.trade x.2.orderId x.2.price q exBuy.orderId exBuy.price q) ∧
        ∀ j, j < 2 → ∃ y, (priority exBuy exAsks)[j]? = some y ∧
          (exAsks.placeOrder exBuy []).2[j]? = some (Output.trade y.2.orderId y.2.price
            y.2.quantity exBuy.orderId exBuy.price y.2.quantity) ∧
          y.2.orderId ∉ (exAsks.placeOrder exBuy []).1.resting.map (fun z => z.2.orderId) :=
  ⟨reachable_runLines _, by unfold Order.WellFormed; decide, by decide,
    (C3_price_time_priority exAsks exBuy (reachable_runLines _)
      (by unfold Order.WellFormed; decide)).2.2 2 (by decide)⟩

/-- C4. Content of a TRADE line: on a reachable book, the `i`-th TRADE line of a placement
carries the id and the price of the resting order it matches (the `i`-th of the priority
list), the quantity, the id and the limit price of the incoming order, and the quantity
again; the quantity is the smaller of the resting order's quantity and what is left of
the incoming quantity after the earlier matches; and the resting price crosses the
incoming price. -/
theorem C4_trade_content (e : MatchingEngine) (order : Order) (h : Reachable e)
    (hw : order.WellFormed) (i : Nat) (hi : i < (e.placeOrder order []).2.length) :
    ∃ x, (priority order e)[i]? = some x ∧
      (e.placeOrder order []).2[i]? = some (Output.trade x.2.orderId x.2.price
        (min x.2.quantity (order.quantity - totalQty ((priority order e).take i)))
        order.orderId order.price
        (min x.2.quantity (order.quantity - totalQty ((priority order e).take i)))) ∧
      (if order.isBuying then x.2.price ≤ order.price else order.price ≤ x.2.price) := by
  obtain ⟨x, hx, hxc, hxt, _⟩ := placeOrder_trades e order h.inv hw i hi
  refine ⟨x, hx, hxt, ?_⟩
  have hp : x.2.price = x.1 :=
    (h.inv.bounded_priority order x (by
      rw [priority_split]; exact List.mem_append_left _ hxc)).2.2
  rw [hp]
  exact crossList_crossing order e x hxc

theorem C4_trade_content_witness :
    Reachable exAsks ∧ exBuy.WellFormed ∧ 2 < (exAsks.placeOrder exBuy []).2.length ∧
      ∃ x, (priority exBuy exAsks)[2]? = some x ∧
        (exAsks.placeOrder exBuy []).2[2]? = some (Output.trade x.2.orderId x.2.price
          (min x.2.quantity (exBuy.quantity - totalQty ((priority exBuy exAsks).take 2)))
          exBuy.orderId exBuy.price
          (min x.2.quantity (exBuy.quantity - totalQty ((priority exBuy exAsks).take 2)))) ∧
        (if exBuy.isBuying then x.2.price ≤ exBuy.price else exBuy.price ≤ x.2.price) :=
  ⟨reachable_runLines _, by unfold Order.WellFormed; decide, by decide,
    C4_trade_content exAsks exBuy (reachable_runLines _)
      (by unfold Order.WellFormed; decide) 2 (by decide)⟩

/-! ## Quantities -/

theorem fillTrades_sum (id : String) (p : Nat) (X : List (Nat × Order)) :
    ∀ q, ((fillTrades id p q X).map Output.tradeQuantity).sum = min q (totalQty X) := by
  induction X with
  | nil => intro q; simp [fillTrades, totalQty_nil]
  | cons a t ih =>
    obtain ⟨k, o⟩ := a
    intro q
    simp only [fillTrades, totalQty_cons]
    split_ifs with h1 h2
    · simp only [List.map_cons, List.map_nil, List.sum_cons, List.sum_nil, Output.tradeQuantity]
      omega
    · simp only [List.map_cons, List.sum_cons, Output.tradeQuantity, ih]
      omega
    · simp only [List.map_cons, List.map_nil, List.sum_cons, List.sum_nil, Output.tradeQuantity]
      omega

theorem fillRest_total (X : List (Nat × Order)) :
    ∀ q, totalQty (fillRest q X) + min q (totalQty X) = totalQty X := by
  induction X with
  | nil => intro q; simp [fillRest, totalQty_nil]
  | cons a t ih =>
    obtain ⟨k, o⟩ := a
    intro q
    simp only [fillRest, totalQty_cons]
    split_ifs with h1 h2
    · simp only [totalQty_cons]
      omega
    · have := ih (q - o.quantity)
      omega
    · omega

theorem fillDone_true_le (X : List (Nat × Order)) :
    ∀ q, fillDone q X = true → q ≤ totalQty X := by
  induction X with
  | nil => intro q h; simp [fillDone] at h
  | cons a t ih =>
    obtain ⟨k, o⟩ := a
    intro q h
    simp only [fillDone] at h
    simp only [totalQty_cons]
    split_ifs at h with h1 h2
    · omega
    · have := ih _ h
      omega
    · omega

theorem fillDone_false_rem (X : List (Nat × Order)) :
    ∀ q, fillDone q X = false → fillRem q X + totalQty X = q := by
  induction X with
  | nil => intro q _; simp [fillRem, totalQty_nil]
  | cons a t ih =>
    obtain ⟨k, o⟩ := a
    intro q h
    simp only [fillDone] at h
    simp only [fillRem, totalQty_cons]
    split_ifs at h ⊢ with h1 h2
    have := ih _ h
    omega

/-- C5. Quantity conservation: in one call of `trade` on a reachable book, the quantities of
the emitted TRADE lines add up to what the resting orders of the opposite side lose, and
to what the incoming order loses (its quantity minus what is left unfilled, nothing being
left when `trade` reports the order filled). -/
theorem C5_quantity_conservation (e : MatchingEngine) (order : Order) (h : Reachable e)
    (hw : order.WellFormed) :
    ((trade order e []).out.map Output.tradeQuantity).sum
          + totalQty (priority order (trade order e []).engine)
        = totalQty (priority order e) ∧
      ((trade order e []).out.map Output.tradeQuantity).sum
          + (if (trade order e []).result then 0 else (trade order e []).order.quantity)
        = order.quantity := by
  have hq : order.quantity < 2 ^ 32 := by
    have := hw.2.2.2.2.1
    omega
  obtain ⟨t1, t2, t3, t4, t5⟩ := trade_spec e order [] h.inv hq
  rw [t5, List.nil_append, fillTrades_sum, t3, t1, t2, priority_split, totalQty_append,
    totalQty_append]
  have hr := fillRest_total (crossList order e) order.quantity
  constructor
  · omega
  · cases hd : fillDone order.quantity (crossList order e) with
    | true =>
      have := fillDone_true_le _ _ hd
      simp only [if_true]
      omega
    | false =>
      have := fillDone_false_rem _ _ hd
      simp only [Bool.false_eq_true, if_false]
      omega

theorem C5_quantity_conservation_witness :
    Reachable exAsks ∧ exBuy.WellFormed ∧
      ((trade exBuy exAsks []).out.map Output.tradeQuantity).sum = 12 ∧
      (((trade exBuy exAsks []).out.map Output.tradeQuantity).sum
            + totalQty (priority exBuy (trade exBuy exAsks []).engine)
          = totalQty (priority exBuy exAsks) ∧
        ((trade exBuy exAsks []).out.map Output.tradeQuantity).sum
            + (if (trade exBuy exAsks []).result then 0
                else (trade exBuy exAsks []).order.quantity)
          = exBuy.quantity) :=
  ⟨reachable_runLines _, by unfold Order.WellFormed; decide, by decide,
    C5_quantity_conservation exAsks exBuy (reachable_runLines _)
      (by unfold Order.WellFormed; decide)⟩

/-! ## Resting the remainder -/

theorem Inv.find_none_of_not_resting {e : MatchingEngine} (h : Inv e) {id : String}
    (hn : id ∉ e.resting.map (fun x => x.2.orderId)) : e.orderToPrice.find id = none := by
  cases hf : e.orderToPrice.find id with
  | none => rfl
  | some p => exact absurd (mem_map_keyId_of_id ((h.index id p).1 hf)) hn

/-- On a book that satisfies the invariant, the levels the `for` loop enters hold exactly
the opposite-side orders at crossing prices. -/
theorem Inv.crossList_eq_filter {e : MatchingEngine} (h : Inv e) (order : Order) :
    crossList order e = (priority order e).filter (crosses order) := by
  have hbd := h.bounded_priority order
  have hcr := crossList_crossing order e
  rw [priority_split, List.filter_append]
  have h1 : (crossList order e).filter (crosses order) = crossList order e := by
    rw [List.filter_eq_self]
    intro x hx
    have hp := (hbd x (by rw [priority_split]; exact List.mem_append_left _ hx)).2.2
    have := hcr x hx
    unfold crosses
    split_ifs at this ⊢ <;> simp only [decide_eq_true_eq] <;> omega
  have h2 : (beyondList order e).filter (crosses order) = [] := by
    rw [List.filter_eq_nil_iff]
    intro x hx
    have hp := (hbd x (by rw [priority_split]; exact List.mem_append_right _ hx)).2.2
    unfold beyondList at hx
    unfold crosses
    split_ifs at hx ⊢ with hb
    · obtain ⟨l, hl, hk, _⟩ := mem_flatK.1 hx
      have hst := beyond_stop (fun price => decide (price > order.getPrice)) e.sellPrices (by
        have := h.sellSorted
        rw [List.pairwise_map] at this
        refine this.imp ?_
        intro a b hab ha
        simp only [decide_eq_true_eq] at ha ⊢
        omega) l hl
      simp only [decide_eq_true_eq, Order.getPrice] at hst ⊢
      omega
    · obtain ⟨l, hl, hk, _⟩ := mem_flatK.1 hx
      have hst := beyond_stop (fun price => decide (price < order.getPrice)) e.buyPrices.reverse (by
        have := h.buySorted
        rw [List.pairwise_map] at this
        rw [List.pairwise_reverse]
        refine this.imp ?_
        intro a b hab ha
        simp only [decide_eq_true_eq] at ha ⊢
        omega) l hl
      simp only [decide_eq_true_eq, Order.getPrice] at hst ⊢
      omega
  rw [h1, h2, List.append_nil]

theorem PricesMap.updateAt_addOrder_last (o : Order) (p : Nat) (m : PricesMap) :
    ∃ d, (p, d) ∈ PricesMap.updateAt (fun d => d.addOrder o) p m ∧
      d.orders.getLast? = some o := by
  induction m with
  | nil =>
    exact ⟨OrdersData.addOrder {} o, by simp [PricesMap.updateAt], by simp [OrdersData.addOrder]⟩
  | cons a t ih =>
    obtain ⟨k, d0⟩ := a
    simp only [PricesMap.updateAt]
    split_ifs with h1 h2
    · exact ⟨OrdersData.addOrder {} o, by simp, by simp [OrdersData.addOrder]⟩
    · exact ⟨d0.addOrder o, by simp [h2], by simp [OrdersData.addOrder]⟩
    · obtain ⟨d, hd, hl⟩ := ih
      exact ⟨d, List.mem_cons_of_mem _ hd, hl⟩

/-- C6. Resting of a GFD remainder: on a reachable book, for a valid GFD order whose id
does not rest, let `C` be the total quantity of the opposite-side resting orders at
crossing prices. If `C` is below the order's quantity `q`, the order rests afterwards as
the last order of the level at its price on its own side, with quantity `q - C`, and the
index maps its id to its price; otherwise no order with its id rests afterwards. -/
theorem C6_gfd_remainder_rests (e : MatchingEngine) (order : Order) (h : Reachable e)
    (hw : order.WellFormed) (hgfd : order.orderType = OrderType.GFD)
    (hnew : order.orderId ∉ e.resting.map (fun x => x.2.orderId)) :
    (totalQty ((priority order e).filter (crosses order)) < order.quantity →
        (∃ d, (order.price, d) ∈
            (if order.isBuying then (e.placeOrder order []).1.buyPrices
              else (e.placeOrder order []).1.sellPrices) ∧
          d.orders.getLast? = some { order with
            quantity := order.quantity - totalQty ((priority order e).filter (crosses order)) }) ∧
        (e.placeOrder order []).1.orderToPrice.find order.orderId = some order.price) ∧
      (order.quantity ≤ totalQty ((priority order e).filter (crosses order)) →
        order.orderId ∉ (e.placeOrder order []).1.resting.map (fun x => x.2.orderId)) := by
  have hi := h.inv
  have hq : order.quantity < 2 ^ 32 := by
    have := hw.2.2.2.2.1
    omega
  have hq0 : 0 < order.quantity := hw.2.2.2.1
  have hf := hi.find_none_of_not_resting hnew
  have hioc : order.isInsertOrCancel = false := by
    simp [Order.isInsertOrCancel, hgfd]
  obtain ⟨t1, t2, t3, t4, t5⟩ := trade_spec e order [] hi hq
  rw [← hi.crossList_eq_filter order]
  have hidx := placeOrder_index e order [] hi hq hf order.orderId
  constructor
  · intro hC
    have hd : fillDone order.quantity (crossList order e) = false := by
      cases hdd : fillDone order.quantity (crossList order e) with
      | false => rfl
      | true =>
        have := fillDone_true_le _ _ hdd
        omega
    have hrem := fillDone_false_rem _ _ hd
    have hr : (trade order e []).result = false := by rw [t1]; exact hd
    refine ⟨?_, ?_⟩
    · rw [placeOrder_rest e order [] hi hq hf hr hioc]
      have ho : (trade order e []).order = { order with
          quantity := order.quantity - totalQty (crossList order e) } := by
        rw [t2]
        have : fillRem order.quantity (crossList order e)
            = order.quantity - totalQty (crossList order e) := by omega
        rw [this]
      rw [← ho]
      split_ifs with hb
      · simp only [if_true]
        exact PricesMap.updateAt_addOrder_last _ _ _
      · simp only [Bool.false_eq_true, if_false]
        exact PricesMap.updateAt_addOrder_last _ _ _
    · rw [hidx]
      simp [hd, hioc]
  · intro hC
    have hd : fillDone order.quantity (crossList order e) = true := by
      cases hdd : fillDone order.quantity (crossList order e) with
      | true => rfl
      | false =>
        have h1 := fillDone_false_rem _ _ hdd
        have h2 := fillRem_pos _ _ hq0 hdd
        omega
    apply (placeOrder_inv e order [] hi hw).id_not_resting
    rw [hidx]
    simp [hd, hf]

theorem C6_gfd_remainder_rests_witness :
    (Reachable exOneAsk ∧ exSmallBuy.WellFormed ∧ exSmallBuy.orderType = OrderType.GFD ∧
        exSmallBuy.orderId ∉ exOneAsk.resting.map (fun x => x.2.orderId) ∧
        exSmallBuy.quantity ≤ totalQty ((priority exSmallBuy exOneAsk).filter (crosses exSmallBuy)) ∧
        (exOneAsk.placeOrder exSmallBuy []).1.resting.map (fun x => (x.2.orderId, x.2.quantity))
          = [("S1", 5)] ∧
        exSmallBuy.orderId ∉
          (exOneAsk.placeOrder exSmallBuy []).1.resting.map (fun x => x.2.orderId)) ∧
      (totalQty ((priority exLargeBuy exOneAsk).filter (crosses exLargeBuy)) < exLargeBuy.quantity ∧
        (exOneAsk.placeOrder exLargeBuy []).1.orderToPrice.find exLargeBuy.orderId
          = some exLargeBuy.price) :=
  ⟨⟨reachable_runLines _, by unfold Order.WellFormed; decide, by decide, by decide, by decide,
      by decide,
      (C6_gfd_remainder_rests exOneAsk exSmallBuy (reachable_runLines _)
        (by unfold Order.WellFormed; decide) (by decide) (by decide)).2 (by decide)⟩,
    by decide,
    ((C6_gfd_remainder_rests exOneAsk exLargeBuy (reachable_runLines _)
        (by unfold Order.WellFormed; decide) (by decide) (by decide)).1 (by decide)).2⟩

/-- C7 as stated fails: an IOC order whose id is the id of a resting order is dropped by
the duplicate-id guard of `placeOrder`, and the resting order with that id stays in its
queue and in the index. -/
theorem C7_ioc_never_rests_counterexample :
    Reachable exTwoSided ∧ exIocDuplicate.WellFormed ∧
      exIocDuplicate.orderType = OrderType.IOC ∧
      exIocDuplicate.orderId ∈
        (exTwoSided.placeOrder exIocDuplicate []).1.resting.map (fun x => x.2.orderId) ∧
      (exTwoSided.placeOrder exIocDuplicate []).1.orderToPrice.find exIocDuplicate.orderId
        = some 99 :=
  ⟨reachable_runLines _, by unfold Order.WellFormed; decide, by decide, by decide, by decide⟩

/-- C7, amended. IOC never rests: on a reachable book, after `placeOrder` of a valid IOC
order whose id is not the id of a resting order, no order with that id is stored in any
queue, the id is not a key of the index, and the maps of the order's own side are
unchanged. -/
theorem C7_ioc_never_rests (e : MatchingEngine) (order : Order) (h : Reachable e)
    (hw : order.WellFormed) (hioc : order.orderType = OrderType.IOC)
    (hnew : order.orderId ∉ e.resting.map (fun x => x.2.orderId)) :
    order.orderId ∉ (e.placeOrder order []).1.resting.map (fun x => x.2.orderId) ∧
      (e.placeOrder order []).1.orderToPrice.find order.orderId = none ∧
      (if order.isBuying then (e.placeOrder order []).1.buyPrices = e.buyPrices
        else (e.placeOrder order []).1.sellPrices = e.sellPrices) := by
  have hi := h.inv
  have hq : order.quantity < 2 ^ 32 := by
    have := hw.2.2.2.2.1
    omega
  have hf := hi.find_none_of_not_resting hnew
  have hic : order.isInsertOrCancel = true := by
    simp [Order.isInsertOrCancel, hioc]
  obtain ⟨t1, t2, t3, t4, t5⟩ := trade_spec e order [] hi hq
  have hidx := placeOrder_index e order [] hi hq hf order.orderId
  have hnone : (e.placeOrder order []).1.orderToPrice.find order.orderId = none := by
    rw [hidx]
    simp [hic, hf]
  refine ⟨(placeOrder_inv e order [] hi hw).id_not_resting hnone, hnone, ?_⟩
  have hnr : (trade order e []).result = true ∨
      (trade order e []).order.isInsertOrCancel = true := by
    right
    rw [t2]
    exact hic
  rw [placeOrder_no_rest e order [] hf hnr]
  split_ifs with hb
  · exact (trade_own_side e order []).1 hb
  · exact (trade_own_side e order []).2 (by simpa using hb)

theorem C7_ioc_never_rests_witness :
    Reachable exSmallAsk ∧ exIocBuy.WellFormed ∧ exIocBuy.orderType = OrderType.IOC ∧
      exIocBuy.orderId ∉ exSmallAsk.resting.map (fun x => x.2.orderId) ∧
      exSmallAsk.placeOrder exIocBuy [] =
        ({ buyPrices := [], sellPrices := [(100, { orders := [], totalQuantity := 0 })],
           orderToPrice := [] }, [Output.trade "S1" 100 5 "B1" 100 5]) ∧
      (exIocBuy.orderId ∉ (exSmallAsk.placeOrder exIocBuy []).1.resting.map (fun x => x.2.orderId) ∧
        (exSmallAsk.placeOrder exIocBuy []).1.orderToPrice.find exIocBuy.orderId = none ∧
        (if exIocBuy.isBuying then (exSmallAsk.placeOrder exIocBuy []).1.buyPrices
            = exSmallAsk.buyPrices
          else (exSmallAsk.placeOrder exIocBuy []).1.sellPrices = exSmallAsk.sellPrices)) :=
  ⟨reachable_runLines _, by unfold Order.WellFormed; decide, by decide, by decide, by decide,
    C7_ioc_never_rests exSmallAsk exIocBuy (reachable_runLines _)
      (by unfold Order.WellFormed; decide) (by decide) (by decide)⟩

/-- C8. Duplicate id rejection: on a reachable book, `placeOrder` of an order whose id is
the id of a resting order returns the engine (both maps and the index) unchanged and
writes nothing, whatever the side, time-in-force, price and quantity of the order. -/
theorem C8_duplicate_id_rejected (e : MatchingEngine) (order : Order) (out : List Output)
    (h : Reachable e) (hdup : order.orderId ∈ e.resting.map (fun x => x.2.orderId)) :
    e.placeOrder order out = (e, out) := by
  obtain ⟨x, hx, hid⟩ := List.mem_map.1 hdup
  have hk : (x.1, order.orderId) ∈ e.resting.map keyId :=
    List.mem_map.2 ⟨x, hx, by unfold engine.keyId; rw [hid]⟩
  exact placeOrder_duplicate e order out x.1 ((h.inv.index _ _).2 hk)

theorem C8_duplicate_id_rejected_witness :
    Reachable exTwoSided ∧
      exIocDuplicate.orderId ∈ exTwoSided.resting.map (fun x => x.2.orderId) ∧
      (exTwoSided.sellPrices.map Prod.fst = [100] ∧ exIocDuplicate.price = 100) ∧
      exTwoSided.placeOrder exIocDuplicate [] = (exTwoSided, []) :=
  ⟨reachable_runLines _, by decide, by decide,
    C8_duplicate_id_rejected exTwoSided exIocDuplicate [] (reachable_runLines _) (by decide)⟩

/-! ## CANCEL -/

/-- A CANCEL line with two tokens runs `cancelOrder` on its second token and writes
nothing. -/
theorem tokens_pair (line : String) (a b : String) (hline : tokens line = [a, b]) :
    ∃ i1 i2, ColumnsData.parseLine line = { items := [i1, i2], index := 0 } ∧
      i1.token = a.data ∧ String.mk i2.token = b := by
  unfold tokens at hline
  have hidx : (ColumnsData.parseLine line).index = 0 := rfl
  generalize ColumnsData.parseLine line = c at hline hidx
  obtain ⟨items, index⟩ := c
  simp only at hidx hline
  subst hidx
  match items, hline with
  | [], h => simp at h
  | [_], h => simp at h
  | [i1, i2], h =>
    simp only [List.map_cons, List.map_nil, List.cons.injEq, and_true] at h
    refine ⟨i1, i2, rfl, ?_, h.2⟩
    have := congrArg String.data h.1
    simpa using this
  | _ :: _ :: _ :: _, h => simp at h

theorem runCommand_cancel (e : MatchingEngine) (line : String) (id : String)
    (hline : tokens line = ["CANCEL", id]) :
    e.runCommand line = (e.cancelOrder id, []) := by
  obtain ⟨i1, i2, hp, h1, h2⟩ := tokens_pair line "CANCEL" id hline
  unfold runCommand
  rw [hp]
  simp [ColumnsData.empty, ColumnsData.compare, h1, ColumnsData.getColumnsCount,
    EXPECTED_CANCEL_COLUMNS, ColumnsData.forward, ColumnsData.getStringAndForward, h2]

theorem cancelOrder_absent (e : MatchingEngine) (id : String)
    (h : e.orderToPrice.find id = none) : e.cancelOrder id = e := by
  unfold cancelOrder
  simp only [h]

theorem cancelOrder_find (e : MatchingEngine) (id : String) :
    (e.cancelOrder id).orderToPrice.find id = none := by
  cases hf : e.orderToPrice.find id with
  | none => rw [cancelOrder_absent e id hf]; exact hf
  | some p =>
    unfold cancelOrder
    simp only [hf]
    rw [OrderToPrice.find_erase]
    simp

/-- C9. Idempotent cancel: `cancelOrder` on an id that is not in the index returns the
engine (both maps and the index) unchanged; applying `cancelOrder` twice gives the same
engine as applying it once; and a CANCEL line writes no output. This holds for every
book, reachable or not. -/
theorem C9_idempotent_cancel (e : MatchingEngine) (id : String) :
    (e.orderToPrice.find id = none → e.cancelOrder id = e) ∧
      (e.cancelOrder id).cancelOrder id = e.cancelOrder id ∧
      ∀ line, tokens line = ["CANCEL", id] →
        e.runCommand line = (e.cancelOrder id, []) ∧
        (e.runCommand line).1.runCommand line = ((e.runCommand line).1, []) := by
  refine ⟨cancelOrder_absent e id, cancelOrder_absent _ id (cancelOrder_find e id), ?_⟩
  intro line hline
  rw [runCommand_cancel e line id hline]
  refine ⟨rfl, ?_⟩
  rw [runCommand_cancel _ line id hline, cancelOrder_absent _ id (cancelOrder_find e id)]

theorem C9_idempotent_cancel_witness :
    (exTwoSided.orderToPrice.find "X9" = none ∧ exTwoSided.cancelOrder "X9" = exTwoSided) ∧
      (tokens "CANCEL B1" = ["CANCEL", "B1"] ∧
        (exTwoSided.runCommand "CANCEL B1").1.resting.map (fun x => x.2.orderId) = ["S1"] ∧
        (exTwoSided.runCommand "CANCEL B1").1.runCommand "CANCEL B1"
          = ((exTwoSided.runCommand "CANCEL B1").1, [])) :=
  ⟨⟨by decide, (C9_idempotent_cancel exTwoSided "X9").1 (by decide)⟩,
    by decide, by decide,
    ((C9_idempotent_cancel exTwoSided "B1").2.2 "CANCEL B1" (by decide)).2⟩

/-- C10. Cancel removes exactly one order: on a reachable book, after a CANCEL line for an
id that rests, no order with that id is in any queue and the id is not in the index; every
level of both maps keeps its key and its queue with only the order of that id filtered
out (so every other order keeps its side, level, quantity and relative position); every
other index entry is unchanged; and nothing is written. -/
theorem C10_cancel_removes_one (e : MatchingEngine) (id : String) (line : String)
    (h : Reachable e) (hrest : id ∈ e.resting.map (fun x => x.2.orderId))
    (hline : tokens line = ["CANCEL", id]) :
    (e.runCommand line).2 = [] ∧
      id ∉ (e.runCommand line).1.resting.map (fun x => x.2.orderId) ∧
      (e.runCommand line).1.orderToPrice.find id = none ∧
      (e.runCommand line).1.buyPrices.map (fun l => (l.1, l.2.orders))
        = e.buyPrices.map
            (fun l => (l.1, l.2.orders.filter (fun o => !decide (o.orderId = id)))) ∧
      (e.runCommand line).1.sellPrices.map (fun l => (l.1, l.2.orders))
        = e.sellPrices.map
            (fun l => (l.1, l.2.orders.filter (fun o => !decide (o.orderId = id)))) ∧
      ∀ id2, id2 ≠ id →
        (e.runCommand line).1.orderToPrice.find id2 = e.orderToPrice.find id2 := by
  have hi := h.inv
  rw [runCommand_cancel e line id hline]
  obtain ⟨x, hx, hid⟩ := List.mem_map.1 hrest
  have hf : e.orderToPrice.find id = some x.1 :=
    (hi.index id x.1).2 (List.mem_map.2 ⟨x, hx, by unfold engine.keyId; rw [hid]⟩)
  have hnd := hi.idsNodup
  unfold MatchingEngine.resting at hnd
  rw [List.map_append, List.nodup_append] at hnd
  have hk := hi.key_of_id hf
  have hnone := cancelOrder_find e id
  refine ⟨rfl, (cancelOrder_inv e id hi).id_not_resting hnone, hnone, ?_, ?_, ?_⟩
  · unfold cancelOrder
    simp only [hf]
    exact removeOrderInMap_filter id x.1 _ hi.buySorted hnd.1
      (fun y hy => hk y (List.mem_append_left _ hy))
  · unfold cancelOrder
    simp only [hf]
    exact removeOrderInMap_filter id x.1 _ hi.sellSorted hnd.2.1
      (fun y hy => hk y (List.mem_append_right _ hy))
  · intro id2 hne
    unfold cancelOrder
    simp only [hf]
    rw [OrderToPrice.find_erase, if_neg hne]

theorem C10_cancel_removes_one_witness :
    Reachable exOneBid ∧ "B1" ∈ exOneBid.resting.map (fun x => x.2.orderId) ∧
      tokens "CANCEL B1" = ["CANCEL", "B1"] ∧
      (MatchingEngine.runLines {} ["BUY GFD 100 10 B1", "CANCEL B1", "PRINT"]).2
        = [Output.group "SELL:", Output.group "BUY:"] ∧
      ((exOneBid.runCommand "CANCEL B1").2 = [] ∧
        "B1" ∉ (exOneBid.runCommand "CANCEL B1").1.resting.map (fun x => x.2.orderId) ∧
        (exOneBid.runCommand "CANCEL B1").1.orderToPrice.find "B1" = none) :=
  ⟨reachable_runLines _, by decide, by decide, by decide,
    (C10_cancel_removes_one exOneBid "B1" "CANCEL B1" (reachable_runLines _) (by decide)
      (by decide)).1,
    (C10_cancel_removes_one exOneBid "B1" "CANCEL B1" (reachable_runLines _) (by decide)
      (by decide)).2.1,
    (C10_cancel_removes_one exOneBid "B1" "CANCEL B1" (reachable_runLines _) (by decide)
      (by decide)).2.2.1⟩

/-! ## The cached aggregate quantity stays in sync modulo `2 ^ 32` -/

theorem queueSum_nil : queueSum [] = 0 := rfl

theorem queueSum_cons (o : Order) (t : List Order) :
    queueSum (o :: t) = o.quantity + queueSum t := by
  simp [queueSum]

theorem queueSum_append (a b : List Order) : queueSum (a ++ b) = queueSum a + queueSum b := by
  simp [queueSum]

theorem LevelSync.empty : LevelSync {} := by
  simp [LevelSync, queueSum]

theorem LevelSync.addOrder {d : OrdersData} (h : LevelSync d) (o : Order) :
    LevelSync (d.addOrder o) := by
  unfold LevelSync at h ⊢
  simp only [OrdersData.addOrder, Order.getQuantity, queueSum_append, queueSum_cons,
    queueSum_nil, h]
  omega

theorem LevelSync.eraseOrder_zero {d : OrdersData} (h : LevelSync d) :
    LevelSync (d.eraseOrder 0) := by
  unfold LevelSync at h ⊢
  unfold OrdersData.eraseOrder
  cases hd : d.orders with
  | nil => simp only [List.get?_nil]; exact h
  | cons o t =>
    rw [hd, queueSum_cons] at h
    simp only [List.get?_cons_zero, List.eraseIdx_cons_zero, Order.getQuantity, h]
    omega

theorem queueSum_eraseP (P : Order → Bool) (l : List Order) (found : Order)
    (h : l.find? P = some found) : queueSum (l.eraseP P) + found.quantity = queueSum l := by
  induction l with
  | nil => simp at h
  | cons a t ih =>
    rw [List.find?_cons] at h
    rw [List.eraseP_cons]
    cases hp : P a with
    | true =>
      simp only [hp] at h
      have : a = found := Option.some.inj h
      subst this
      simp only [cond_true, queueSum_cons]
      omega
    | false =>
      simp only [hp] at h
      simp only [cond_false, queueSum_cons]
      have := ih h
      omega

theorem LevelSync.eraseOrderById {d : OrdersData} (h : LevelSync d) (id : String) :
    LevelSync (d.eraseOrderById id) := by
  unfold LevelSync at h ⊢
  unfold OrdersData.eraseOrderById
  cases hf : d.orders.find? (fun order => decide (order.getOrderId = id)) with
  | none => exact h
  | some found =>
    have hs := queueSum_eraseP _ _ _ hf
    simp only [Order.getQuantity, h]
    omega

/-- When the front order is larger than the subtracted quantity, `subtract` keeps the
counter in sync. -/
theorem LevelSync.subtract_front {d : OrdersData} (h : LevelSync d) (o : Order) (t : List Order)
    (q : Nat) (hd : d.orders = o :: t) (hq : q < o.quantity) (ho : o.quantity < 2 ^ 32) :
    LevelSync (d.subtract 0 q) := by
  have hsub : o.subtract q = { o with quantity := o.quantity - q } :=
    Order.subtract_quantity o q (by omega) ho
  have hne : (o.subtract q).quantity ≠ 0 := by rw [hsub]; simp; omega
  unfold LevelSync at h ⊢
  rw [OrdersData.subtract_zero_orders d o t q hd hne, hsub, queueSum_cons]
  rw [hd, queueSum_cons] at h
  have htot : (d.subtract 0 q).totalQuantity = (d.totalQuantity + 2 ^ 32 - q % 2 ^ 32) % 2 ^ 32 := by
    unfold OrdersData.subtract
    simp [hd, Order.getQuantity, hne]
  rw [htot, h]
  simp only
  omega

theorem tradeOrders_sync (order : Order) (d : OrdersData) (idx : OrderToPrice)
    (out : List Output) :
    order.quantity < 2 ^ 32 → (∀ o ∈ d.orders, o.quantity < 2 ^ 32) → LevelSync d →
      LevelSync (tradeOrders order d idx out).ordersData := by
  refine tradeOrders_induct
    (fun order d _ _ r => order.quantity < 2 ^ 32 → (∀ o ∈ d.orders, o.quantity < 2 ^ 32) →
      LevelSync d → LevelSync r.ordersData) ?_ ?_ ?_ ?_ order d idx out
  · intro order d idx out _ _ _ hs; exact hs
  · intro order d idx out o t hd hgt hq hb hs
    exact hs.subtract_front o t _ hd hgt (hb o (by simp [hd]))
  · intro order d idx out o t hd hlt ht ih hq hb hs
    have hsub : order.subtract o.quantity = { order with quantity := order.quantity - o.quantity } :=
      Order.subtract_quantity order o.quantity (by omega) hq
    refine ih ?_ ?_ hs.eraseOrder_zero
    · rw [hsub]; simp; omega
    · intro x hx; rw [ht] at hx; exact hb x (by simp [hd, hx])
  · intro order d idx out o t hd _ _ _ hs
    exact hs.eraseOrder_zero

theorem scanLevels_sync (stop : Nat → Bool) (lv : List (Nat × OrdersData)) :
    ∀ (order : Order) (idx : OrderToPrice) (out : List Output),
    order.quantity < 2 ^ 32 → (∀ e ∈ flatK lv, e.2.quantity < 2 ^ 32) →
    (∀ l ∈ lv, LevelSync l.2) →
    ∀ l ∈ (scanLevels stop order idx out lv).levels, LevelSync l.2 := by
  induction lv with
  | nil => intro _ _ _ _ _ _ l hl; simp [scanLevels] at hl
  | cons a rest ih =>
    intro order idx out hq hb hs
    obtain ⟨p, d⟩ := a
    have hbd : ∀ o ∈ d.orders, o.quantity < 2 ^ 32 := by
      intro o ho
      exact hb (p, o) (by rw [flatK_cons]; simp [ho])
    have hbr : ∀ e ∈ flatK rest, e.2.quantity < 2 ^ 32 := by
      intro e he
      exact hb e (by rw [flatK_cons]; simp [he])
    have hd : LevelSync d := hs (p, d) (by simp)
    have hrest : ∀ l ∈ rest, LevelSync l.2 := fun l hl => hs l (List.mem_cons_of_mem _ hl)
    have hts := tradeOrders_sync order d idx out hq hbd hd
    obtain ⟨_, t2, _, _, _⟩ := tradeOrders_spec p order d idx out hq hbd
    simp only [scanLevels]
    split_ifs with h1 h2
    · exact hs
    · intro l hl
      rcases List.mem_cons.1 hl with rfl | hl
      · exact hts
      · exact hrest l hl
    · intro l hl
      simp only [List.mem_cons] at hl
      rcases hl with rfl | hl
      · exact hts
      · refine ih _ _ _ ?_ hbr hrest l hl
        rw [t2]
        exact lt_of_le_of_lt (fillRem_le _ _) hq

theorem trade_totals (e : MatchingEngine) (order : Order) (out : List Output) (h : Inv e)
    (ht : Totals e) (hq : order.quantity < 2 ^ 32) : Totals (trade order e out).engine := by
  rw [tradeLoop_eq_scan]
  split_ifs
  · refine ⟨ht.1, ?_⟩
    exact scanLevels_sync _ _ _ _ _ hq
      (fun x hx => by have := (h.sellOK x hx).2.2.2.1; omega) ht.2
  · refine ⟨?_, ht.2⟩
    intro l hl
    simp only [sellPass, List.mem_reverse] at hl
    exact scanLevels_sync _ _ _ _ _ hq
      (fun x hx => by
        have := (h.buyOK x ((flatK_reverse_perm _).mem_iff.1 hx)).2.2.2.1
        omega)
      (fun l hl => ht.1 l (List.mem_reverse.1 hl)) l hl

theorem PricesMap.updateAt_all (P : OrdersData → Prop) (f : OrdersData → OrdersData)
    (hf : ∀ d, P d → P (f d)) (h0 : P {}) (p : Nat) (m : PricesMap)
    (h : ∀ l ∈ m, P l.2) : ∀ l ∈ PricesMap.updateAt f p m, P l.2 := by
  induction m with
  | nil =>
    intro l hl
    simp only [PricesMap.updateAt, List.mem_singleton] at hl
    subst hl
    exact hf _ h0
  | cons a t ih =>
    obtain ⟨k, d⟩ := a
    intro l hl
    simp only [PricesMap.updateAt] at hl
    split_ifs at hl with h1 h2
    · rcases List.mem_cons.1 hl with rfl | hl
      · exact hf _ h0
      · exact h l hl
    · rcases List.mem_cons.1 hl with rfl | hl
      · exact hf _ (h (k, d) (by simp))
      · exact h l (List.mem_cons_of_mem _ hl)
    · rcases List.mem_cons.1 hl with rfl | hl
      · exact h (k, d) (by simp)
      · exact ih (fun l hl => h l (List.mem_cons_of_mem _ hl)) l hl

theorem PricesMap.updateIfPresent_all (P : OrdersData → Prop) (f : OrdersData → OrdersData)
    (hf : ∀ d, P d → P (f d)) (p : Nat) (m : PricesMap)
    (h : ∀ l ∈ m, P l.2) : ∀ l ∈ PricesMap.updateIfPresent f p m, P l.2 := by
  induction m with
  | nil => intro l hl; simp [PricesMap.updateIfPresent] at hl
  | cons a t ih =>
    obtain ⟨k, d⟩ := a
    intro l hl
    simp only [PricesMap.updateIfPresent] at hl
    split_ifs at hl with h1
    · rcases List.mem_cons.1 hl with rfl | hl
      · exact hf _ (h (k, d) (by simp))
      · exact h l (List.mem_cons_of_mem _ hl)
    · rcases List.mem_cons.1 hl with rfl | hl
      · exact h (k, d) (by simp)
      · exact ih (fun l hl => h l (List.mem_cons_of_mem _ hl)) l hl

theorem placeOrder_totals (e : MatchingEngine) (order : Order) (out : List Output)
    (h : Inv e) (ht : Totals e) (hw : order.WellFormed) : Totals (e.placeOrder order out).1 := by
  have hq : order.quantity < 2 ^ 32 := by
    have := hw.2.2.2.2.1
    omega
  have htt := trade_totals e order out h ht hq
  unfold placeOrder
  simp only
  split_ifs
  · exact ht
  · exact htt
  · exact htt
  · exact htt
  · exact ⟨PricesMap.updateAt_all LevelSync _ (fun d hd => hd.addOrder _) LevelSync.empty _ _
      htt.1, htt.2⟩
  · exact ⟨htt.1, PricesMap.updateAt_all LevelSync _ (fun d hd => hd.addOrder _)
      LevelSync.empty _ _ htt.2⟩

theorem cancelOrder_totals (e : MatchingEngine) (id : String) (ht : Totals e) :
    Totals (e.cancelOrder id) := by
  unfold cancelOrder
  cases e.orderToPrice.find id with
  | none => exact ht
  | some p =>
    exact ⟨PricesMap.updateIfPresent_all LevelSync _ (fun d hd => hd.eraseOrderById id) _ _ ht.1,
      PricesMap.updateIfPresent_all LevelSync _ (fun d hd => hd.eraseOrderById id) _ _ ht.2⟩

theorem modifyOrder_totals (e : MatchingEngine) (c : ColumnsData) (out : List Output) (h : Inv e)
    (ht : Totals e) : Totals (e.modifyOrder c out).1 := by
  unfold modifyOrder
  simp only
  split_ifs with h1 h2 h3 h4
  · exact ht
  · exact ht
  · exact ht
  · exact ht
  · refine placeOrder_totals _ _ _ (cancelOrder_inv e _ h) (cancelOrder_totals e _ ht) ?_
    exact Order.ofFields_wellFormed _ _ _ _ (not_le.1 h3) (getIntegerAndForward_range _).2
      (not_le.1 h4) (getIntegerAndForward_range _).2 h2

theorem runCommand_totals (e : MatchingEngine) (line : String) (h : Inv e) (ht : Totals e) :
    Totals (e.runCommand line).1 := by
  unfold runCommand
  simp only
  split_ifs with h1 h2 h3 h4 h5 h6 h7
  · exact ht
  · exact cancelOrder_totals e _ ht
  · exact ht
  · exact modifyOrder_totals e _ _ h ht
  · exact ht
  · exact ht
  · exact ht
  · exact placeOrder_totals e _ _ h ht (Order.ofColumns_wellFormed _ (by simpa using h7))

/-- Every reachable state has all counters in sync modulo `2 ^ 32`. -/
theorem Reachable.totals {e : MatchingEngine} (h : Reachable e) : Totals e := by
  induction h with
  | init => exact ⟨fun l hl => by simp at hl, fun l hl => by simp at hl⟩
  | step e line hr ih => exact runCommand_totals e line hr.inv ih

theorem Reachable.level_sync {e : MatchingEngine} (h : Reachable e) :
    ∀ l ∈ e.buyPrices ++ e.sellPrices, LevelSync l.2 := by
  intro l hl
  rcases List.mem_append.1 hl with hl | hl
  · exact h.totals.1 l hl
  · exact h.totals.2 l hl

/-- C16 as stated fails: three resting orders of quantity `2 ^ 31 - 1` at one price have
the exact sum `6442450941`, and the 32-bit counter of their level holds `2147483645`. -/
theorem C16_aggregate_in_sync_counterexample :
    Reachable exOverflow ∧
      exOverflow.buyPrices.map (fun l => (l.1, l.2.totalQuantity, queueSum l.2.orders))
        = [(1, 2147483645, 6442450941)] :=
  ⟨reachable_runLines _, by decide⟩

/-- C16, amended. Aggregate quantity in sync: in every reachable state, for every level of
`buyPrices` and `sellPrices` the cached 32-bit counter `totalQuantity` equals the sum of
the remaining quantities of the orders of the level reduced modulo `2 ^ 32`; it equals
the exact sum whenever that sum is below `2 ^ 32`. -/
theorem C16_aggregate_in_sync (e : MatchingEngine) (h : Reachable e) (l : Nat × OrdersData)
    (hl : l ∈ e.buyPrices ++ e.sellPrices) :
    l.2.totalQuantity = queueSum l.2.orders % 2 ^ 32 ∧
      (queueSum l.2.orders < 2 ^ 32 → l.2.totalQuantity = queueSum l.2.orders) := by
  have hs : l.2.totalQuantity = queueSum l.2.orders % 2 ^ 32 := h.level_sync l hl
  refine ⟨hs, fun hlt => ?_⟩
  rw [hs]
  exact Nat.mod_eq_of_lt hlt

theorem C16_aggregate_in_sync_witness :
    Reachable exTwoSided ∧ exBidLevel ∈ exTwoSided.buyPrices ++ exTwoSided.sellPrices ∧
      queueSum exBidLevel.2.orders < 2 ^ 32 ∧
      exBidLevel.2.totalQuantity = queueSum exBidLevel.2.orders :=
  ⟨reachable_runLines _, by decide, by decide,
    (C16_aggregate_in_sync exTwoSided (reachable_runLines _) exBidLevel (by decide)).2
      (by decide)⟩

/-! ## Price levels are never removed -/

theorem PricesMap.updateAt_keys_superset (f : OrdersData → OrdersData) (p : Nat) (m : PricesMap) :
    ∀ k ∈ m.map Prod.fst, k ∈ (PricesMap.updateAt f p m).map Prod.fst := by
  induction m with
  | nil => intro k hk; simp at hk
  | cons a t ih =>
    obtain ⟨k0, d⟩ := a
    intro k hk
    simp only [PricesMap.updateAt]
    split_ifs with h1 h2
    · exact List.mem_cons_of_mem _ hk
    · exact hk
    · simp only [List.map_cons, List.mem_cons] at hk ⊢
      rcases hk with hk | hk
      · exact Or.inl hk
      · exact Or.inr (ih k hk)

theorem trade_keys (order : Order) (e : MatchingEngine) (out : List Output) :
    (trade order e out).engine.buyPrices.map Prod.fst = e.buyPrices.map Prod.fst ∧
      (trade order e out).engine.sellPrices.map Prod.fst = e.sellPrices.map Prod.fst := by
  rw [tradeLoop_eq_scan]
  split_ifs
  · exact ⟨rfl, scanLevels_keys _ _ _ _ _⟩
  · refine ⟨?_, rfl⟩
    simp only [sellPass]
    rw [List.map_reverse, scanLevels_keys, List.map_reverse, List.reverse_reverse]

theorem placeOrder_keys (e : MatchingEngine) (order : Order) (out : List Output) :
    (∀ k ∈ e.buyPrices.map Prod.fst, k ∈ (e.placeOrder order out).1.buyPrices.map Prod.fst) ∧
      (∀ k ∈ e.sellPrices.map Prod.fst,
        k ∈ (e.placeOrder order out).1.sellPrices.map Prod.fst) := by
  obtain ⟨k1, k2⟩ := trade_keys order e out
  unfold placeOrder
  simp only
  split_ifs
  · exact ⟨fun k hk => hk, fun k hk => hk⟩
  · exact ⟨fun k hk => by rw [k1]; exact hk, fun k hk => by rw [k2]; exact hk⟩
  · exact ⟨fun k hk => by rw [k1]; exact hk, fun k hk => by rw [k2]; exact hk⟩
  · exact ⟨fun k hk => by rw [k1]; exact hk, fun k hk => by rw [k2]; exact hk⟩
  · exact ⟨fun k hk => PricesMap.updateAt_keys_superset _ _ _ k (by rw [k1]; exact hk),
      fun k hk => by rw [k2]; exact hk⟩
  · exact ⟨fun k hk => by rw [k1]; exact hk,
      fun k hk => PricesMap.updateAt_keys_superset _ _ _ k (by rw [k2]; exact hk)⟩

theorem cancelOrder_keys (e : MatchingEngine) (id : String) :
    (e.cancelOrder id).buyPrices.map Prod.fst = e.buyPrices.map Prod.fst ∧
      (e.cancelOrder id).sellPrices.map Prod.fst = e.sellPrices.map Prod.fst := by
  unfold cancelOrder
  cases e.orderToPrice.find id with
  | none => exact ⟨rfl, rfl⟩
  | some p => exact ⟨removeOrderInMap_keys _ _ _, removeOrderInMap_keys _ _ _⟩

theorem modifyOrder_keys (e : MatchingEngine) (c : ColumnsData) (out : List Output) :
    (∀ k ∈ e.buyPrices.map Prod.fst, k ∈ (e.modifyOrder c out).1.buyPrices.map Prod.fst) ∧
      (∀ k ∈ e.sellPrices.map Prod.fst,
        k ∈ (e.modifyOrder c out).1.sellPrices.map Prod.fst) := by
  unfold modifyOrder
  simp only
  split_ifs
  · exact ⟨fun k hk => hk, fun k hk => hk⟩
  · exact ⟨fun k hk => hk, fun k hk => hk⟩
  · exact ⟨fun k hk => hk, fun k hk => hk⟩
  · exact ⟨fun k hk => hk, fun k hk => hk⟩
  · obtain ⟨c1, c2⟩ := cancelOrder_keys e c.forward.getStringAndForward.1
    obtain ⟨p1, p2⟩ := placeOrder_keys (e.cancelOrder c.forward.getStringAndForward.1)
      (Order.ofFields c.forward.getStringAndForward.1
        (Order.toU32 c.forward.getStringAndForward.2.forward.getIntegerAndForward.1)
        (Order.toU32
          c.forward.getStringAndForward.2.forward.getIntegerAndForward.2.getIntegerAndForward.1)
        (getTradeOperation c.forward.getStringAndForward.2)) out
    exact ⟨fun k hk => p1 k (by rw [c1]; exact hk), fun k hk => p2 k (by rw [c2]; exact hk)⟩

/-- No command removes a key from `buyPrices` or `sellPrices`. -/
theorem runCommand_keys (e : MatchingEngine) (line : String) :
    (∀ k ∈ e.buyPrices.map Prod.fst, k ∈ (e.runCommand line).1.buyPrices.map Prod.fst) ∧
      (∀ k ∈ e.sellPrices.map Prod.fst,
        k ∈ (e.runCommand line).1.sellPrices.map Prod.fst) := by
  unfold runCommand
  simp only
  split_ifs
  · exact ⟨fun k hk => hk, fun k hk => hk⟩
  · obtain ⟨c1, c2⟩ := cancelOrder_keys e
      (ColumnsData.parseLine line).forward.getStringAndForward.1
    exact ⟨fun k hk => by rw [c1]; exact hk, fun k hk => by rw [c2]; exact hk⟩
  · exact ⟨fun k hk => hk, fun k hk => hk⟩
  · exact modifyOrder_keys e _ _
  · exact ⟨fun k hk => hk, fun k hk => hk⟩
  · exact ⟨fun k hk => hk, fun k hk => hk⟩
  · exact ⟨fun k hk => hk, fun k hk => hk⟩
  · exact placeOrder_keys e _ _

/-- C18 as stated fails: after `BUY GFD 100 10 B1`, `CANCEL B1` the key 100 is still in
`buyPrices`, with an empty queue. -/
theorem C18_no_empty_level_counterexample :
    Reachable exCancelled ∧
      exCancelled.buyPrices = [(100, { orders := [], totalQuantity := 0 })] :=
  ⟨reachable_runLines _, by decide⟩

/-- C18, amended. Price levels are kept: no command removes a key from `buyPrices` or
`sellPrices`, so a level whose last order is filled, cancelled or modified away stays in
the map with an empty queue; in every reachable state such an empty level has the cached
quantity 0. -/
theorem C18_no_empty_level (e : MatchingEngine) (h : Reachable e) :
    (∀ l ∈ e.buyPrices ++ e.sellPrices, l.2.orders = [] → l.2.totalQuantity = 0) ∧
      ∀ line,
        (∀ k ∈ e.buyPrices.map Prod.fst, k ∈ (e.runCommand line).1.buyPrices.map Prod.fst) ∧
        (∀ k ∈ e.sellPrices.map Prod.fst,
          k ∈ (e.runCommand line).1.sellPrices.map Prod.fst) := by
  refine ⟨?_, fun line => runCommand_keys e line⟩
  intro l hl hempty
  have hs : l.2.totalQuantity = queueSum l.2.orders % 2 ^ 32 := h.level_sync l hl
  rw [hs, hempty]
  rfl

theorem C18_no_empty_level_witness :
    Reachable exOneBid ∧ exOneBid.buyPrices.map Prod.fst = [100] ∧
      (exOneBid.runCommand "CANCEL B1").1.buyPrices.map (fun l => (l.1, l.2.orders)) = [(100, [])] ∧
      ((∀ k ∈ exOneBid.buyPrices.map Prod.fst,
          k ∈ (exOneBid.runCommand "CANCEL B1").1.buyPrices.map Prod.fst) ∧
        (∀ k ∈ exOneBid.sellPrices.map Prod.fst,
          k ∈ (exOneBid.runCommand "CANCEL B1").1.sellPrices.map Prod.fst)) :=
  ⟨reachable_runLines _, by decide, by decide,
    (C18_no_empty_level exOneBid (reachable_runLines _)).2 "CANCEL B1"⟩

/-! ## PRINT -/

theorem tokens_head (line : String) (a : String) (rest : List String)
    (hline : tokens line = a :: rest) :
    ∃ i0 is, ColumnsData.parseLine line = { items := i0 :: is, index := 0 } ∧
      i0.token = a.data := by
  unfold tokens at hline
  have hidx : (ColumnsData.parseLine line).index = 0 := rfl
  generalize ColumnsData.parseLine line = c at hline hidx
  obtain ⟨items, index⟩ := c
  simp only at hidx hline
  subst hidx
  match items, hline with
  | [], h => simp at h
  | i0 :: is, h =>
    simp only [List.map_cons, List.cons.injEq] at h
    refine ⟨i0, is, rfl, ?_⟩
    have := congrArg String.data h.1
    simpa using this

/-- A line whose first token is PRINT runs `printOrders` and leaves the engine alone. -/
theorem runCommand_print (e : MatchingEngine) (line : String) (rest : List String)
    (hline : tokens line = "PRINT" :: rest) :
    e.runCommand line = (e, e.printOrders) := by
  obtain ⟨i0, is, hp, h0⟩ := tokens_head line "PRINT" rest hline
  unfold runCommand
  rw [hp]
  simp [ColumnsData.empty, ColumnsData.compare, h0]

theorem printPricesMap_snapshot (m : PricesMap) (group : String)
    (hsync : ∀ l ∈ m, LevelSync l.2) (hb : ∀ l ∈ m, queueSum l.2.orders < 2 ^ 32)
    (hpos : ∀ x ∈ flatK m, 0 < x.2.quantity) :
    printPricesMap m group = Output.group group :: snapshotLines m := by
  unfold printPricesMap snapshotLines
  have htot : ∀ l ∈ m, l.2.totalQuantity = queueSum l.2.orders := by
    intro l hl
    have h1 : l.2.totalQuantity = queueSum l.2.orders % 2 ^ 32 := hsync l hl
    rw [h1]
    exact Nat.mod_eq_of_lt (hb l hl)
  have hfilter : m.reverse.filter (fun l => decide (l.2.getQuantity > 0))
      = m.reverse.filter (fun l => !l.2.orders.isEmpty) := by
    apply List.filter_congr
    intro l hl
    have hl2 := List.mem_reverse.1 hl
    simp only [OrdersData.getQuantity, htot l hl2]
    cases ho : l.2.orders with
    | nil => simp [queueSum_nil]
    | cons o t =>
      have : 0 < o.quantity := hpos (l.1, o) (mem_flatK.2 ⟨l, hl2, rfl, by rw [ho]; simp⟩)
      simp [queueSum_cons]
      omega
  rw [hfilter]
  congr 1
  apply List.map_congr_left
  intro l hl
  have hl2 := List.mem_reverse.1 (List.mem_filter.1 hl).1
  simp only [OrdersData.getQuantity, htot l hl2]

theorem snapshot_descending (m : PricesMap)
    (hs : (m.map Prod.fst).Pairwise (fun a b => a < b)) :
    ((m.reverse.filter (fun l => !l.2.orders.isEmpty)).map Prod.fst).Pairwise
      (fun a b => a > b) := by
  rw [List.pairwise_map] at hs ⊢
  exact (List.pairwise_reverse.2 hs).sublist (List.filter_sublist _)

/-- C13. PRINT snapshot: on a reachable book in which the sum of the remaining quantities
of every level is below `2 ^ 32`, a line whose first token is PRINT leaves the engine
unchanged and writes `SELL:`, one line `price quantity` for exactly the ask levels that
hold an order, in strictly descending price order, then `BUY:` and the same for the bid
levels; the quantity of a line is the sum of the remaining quantities of the orders of
the level. -/
theorem C13_print_snapshot (e : MatchingEngine) (line : String) (rest : List String)
    (h : Reachable e) (hb : ∀ l ∈ e.buyPrices ++ e.sellPrices, queueSum l.2.orders < 2 ^ 32)
    (hline : tokens line = "PRINT" :: rest) :
    e.runCommand line =
        (e, Output.group "SELL:" :: snapshotLines e.sellPrices
          ++ Output.group "BUY:" :: snapshotLines e.buyPrices) ∧
      ((e.sellPrices.reverse.filter (fun l => !l.2.orders.isEmpty)).map Prod.fst).Pairwise
        (fun a b => a > b) ∧
      ((e.buyPrices.reverse.filter (fun l => !l.2.orders.isEmpty)).map Prod.fst).Pairwise
        (fun a b => a > b) ∧
      ∀ p q, (Output.level p q).render = toString p ++ " " ++ toString q := by
  have hi := h.inv
  have ht := h.totals
  refine ⟨?_, snapshot_descending _ hi.sellSorted, snapshot_descending _ hi.buySorted,
    fun _ _ => rfl⟩
  rw [runCommand_print e line rest hline]
  unfold printOrders
  rw [printPricesMap_snapshot e.sellPrices "SELL:" ht.2
      (fun l hl => hb l (List.mem_append_right _ hl))
      (fun x hx => (hi.sellOK x hx).2.2.1),
    printPricesMap_snapshot e.buyPrices "BUY:" ht.1
      (fun l hl => hb l (List.mem_append_left _ hl))
      (fun x hx => (hi.buyOK x hx).2.2.1)]

theorem C13_print_snapshot_witness :
    Reachable exOneAsk ∧
      (∀ l ∈ exOneAsk.buyPrices ++ exOneAsk.sellPrices, queueSum l.2.orders < 2 ^ 32) ∧
      tokens "PRINT" = ["PRINT"] ∧
      (MatchingEngine.runLines {} ["SELL GFD 100 10 S1", "PRINT"]).2.map Output.render
        = ["SELL:", "100 10", "BUY:"] ∧
      exOneAsk.runCommand "PRINT" =
        (exOneAsk, Output.group "SELL:" :: snapshotLines exOneAsk.sellPrices
          ++ Output.group "BUY:" :: snapshotLines exOneAsk.buyPrices) :=
  ⟨reachable_runLines _, by decide, by decide, by decide,
    (C13_print_snapshot exOneAsk "PRINT" [] (reachable_runLines _) (by decide) (by decide)).1⟩

/-! ## MODIFY -/

/-- What `runCommand` does on a five-token line whose first token is MODIFY, in terms of
the items of the line. -/
theorem runCommand_modify (e : MatchingEngine) (line : String) (i0 i1 i2 i3 i4 : Item)
    (hp : (ColumnsData.parseLine line).items = [i0, i1, i2, i3, i4])
    (h0 : i0.token = "MODIFY".data) :
    e.runCommand line =
      if (e.orderToPrice.find (String.mk i1.token)).isSome = false then (e, [])
      else if sideOfToken i2.token = TradeOperation.Unknown then (e, [])
      else if atoi i3.cstr ≤ 0 then (e, [])
      else if atoi i4.cstr ≤ 0 then (e, [])
      else (e.cancelOrder (String.mk i1.token)).placeOrder
        (Order.ofFields (String.mk i1.token) (Order.toU32 (atoi i3.cstr))
          (Order.toU32 (atoi i4.cstr)) (sideOfToken i2.token)) [] := by
  have hc : ColumnsData.parseLine line = { items := [i0, i1, i2, i3, i4], index := 0 } := by
    have hidx : (ColumnsData.parseLine line).index = 0 := rfl
    generalize ColumnsData.parseLine line = c at hp hidx
    obtain ⟨items, index⟩ := c
    simp only at hp hidx
    rw [hp, hidx]
  have hne1 : ¬ ("MODIFY".data = "CANCEL".data) := by decide
  unfold runCommand
  rw [hc]
  simp only [ColumnsData.empty, ColumnsData.compare, h0, hne1, List.isEmpty_cons,
    Bool.false_eq_true, if_false, List.get?_cons_zero, decide_False, decide_True, if_true,
    ColumnsData.getColumnsCount, List.length_cons, List.length_nil, EXPECTED_MODIFY_COLUMNS]
  unfold modifyOrder
  simp only [ColumnsData.forward, ColumnsData.getStringAndForward, isOrderExists_eq,
    getTradeOperation, ColumnsData.compare, ColumnsData.getIntegerAndForward, sideOfToken,
    List.get?_cons_succ, List.get?_cons_zero, zero_add, Nat.reduceAdd, decide_eq_true_eq,
    Bool.not_eq_true']

/-- The rejections of `modifyOrder`, in terms of the values it parses: on a reachable book,
a five-token MODIFY line whose id does not rest, or whose side token is neither BUY nor
SELL, or for which `getIntegerAndForward` returns a price or a quantity `≤ 0`, leaves both
maps and the index unchanged and writes nothing. -/
theorem modify_rejected_parsed (e : MatchingEngine) (line : String)
    (i0 i1 i2 i3 i4 : Item) (h : Reachable e)
    (hp : (ColumnsData.parseLine line).items = [i0, i1, i2, i3, i4])
    (h0 : i0.token = "MODIFY".data)
    (hrej : String.mk i1.token ∉ e.resting.map (fun x => x.2.orderId) ∨
      (i2.token ≠ "BUY".data ∧ i2.token ≠ "SELL".data) ∨
      atoi i3.cstr ≤ 0 ∨ atoi i4.cstr ≤ 0) :
    e.runCommand line = (e, []) := by
  rw [runCommand_modify e line i0 i1 i2 i3 i4 hp h0]
  rcases hrej with h1 | h1 | h1 | h1
  · have := h.inv.find_none_of_not_resting h1
    simp [this]
  · have : sideOfToken i2.token = TradeOperation.Unknown := by
      simp [sideOfToken, h1.1, h1.2]
    simp [this]
  · simp [h1]
  · simp [h1]

/-- Resting a new order in a sorted map puts it behind the orders of the level at its
price. -/
theorem PricesMap.updateAt_addOrder_level (o : Order) (p : Nat) (m : PricesMap)
    (hs : (m.map Prod.fst).Pairwise (fun a b => a < b)) :
    ∃ d, (p, d) ∈ PricesMap.updateAt (fun d => d.addOrder o) p m ∧
      d.orders.getLast? = some o ∧
      ∀ d0, (p, d0) ∈ m → d.orders = d0.orders ++ [o] := by
  induction m with
  | nil =>
    exact ⟨OrdersData.addOrder {} o, by simp [PricesMap.updateAt], by simp [OrdersData.addOrder],
      fun d0 hd0 => by simp at hd0⟩
  | cons a t ih =>
    obtain ⟨k, dk⟩ := a
    simp only [List.map_cons, List.pairwise_cons] at hs
    simp only [PricesMap.updateAt]
    split_ifs with h1 h2
    · refine ⟨OrdersData.addOrder {} o, by simp, by simp [OrdersData.addOrder], ?_⟩
      intro d0 hd0
      rcases List.mem_cons.1 hd0 with heq | hd0
      · have : p = k := congrArg Prod.fst heq
        omega
      · have := hs.1 p (List.mem_map.2 ⟨(p, d0), hd0, rfl⟩)
        omega
    · refine ⟨dk.addOrder o, by simp [h2], by simp [OrdersData.addOrder], ?_⟩
      intro d0 hd0
      rcases List.mem_cons.1 hd0 with heq | hd0
      · have : d0 = dk := congrArg Prod.snd heq
        rw [this]
        rfl
      · have := hs.1 p (List.mem_map.2 ⟨(p, d0), hd0, rfl⟩)
        omega
    · obtain ⟨d, hd, hl, hall⟩ := ih hs.2
      refine ⟨d, List.mem_cons_of_mem _ hd, hl, ?_⟩
      intro d0 hd0
      rcases List.mem_cons.1 hd0 with heq | hd0
      · have : p = k := congrArg Prod.fst heq
        exact absurd this h2
      · exact hall d0 hd0

/-- The map of the order's own side after `placeOrder` rests the remainder of a GFD
order. -/
theorem placeOrder_rest_own (e : MatchingEngine) (order : Order) (h : Inv e)
    (hw : order.WellFormed) (hgfd : order.orderType = OrderType.GFD)
    (hf : e.orderToPrice.find order.orderId = none)
    (hC : totalQty ((priority order e).filter (crosses order)) < order.quantity) :
    ownSide order (e.placeOrder order []).1 =
      PricesMap.updateAt
        (fun d => d.addOrder { order with
          quantity := order.quantity - totalQty ((priority order e).filter (crosses order)) })
        order.price (ownSide order e) := by
  have hq : order.quantity < 2 ^ 32 := by
    have := hw.2.2.2.2.1
    omega
  have hioc : order.isInsertOrCancel = false := by
    simp [Order.isInsertOrCancel, hgfd]
  obtain ⟨t1, t2, t3, t4, t5⟩ := trade_spec e order [] h hq
  rw [← h.crossList_eq_filter order] at hC ⊢
  have hd : fillDone order.quantity (crossList order e) = false := by
    cases hdd : fillDone order.quantity (crossList order e) with
    | false => rfl
    | true =>
      have := fillDone_true_le _ _ hdd
      omega
  have hrem := fillDone_false_rem _ _ hd
  have hr : (trade order e []).result = false := by rw [t1]; exact hd
  have ho : (trade order e []).order = { order with
      quantity := order.quantity - totalQty (crossList order e) } := by
    rw [t2]
    have : fillRem order.quantity (crossList order e)
        = order.quantity - totalQty (crossList order e) := by omega
    rw [this]
  rw [placeOrder_rest e order [] h hq hf hr hioc, ← ho]
  unfold ownSide
  by_cases hb : order.isBuying = true
  · simp only [hb, if_true]
    rw [(trade_own_side e order []).1 hb]
  · have hb2 : order.isBuying = false := by simpa using hb
    simp only [hb2, Bool.false_eq_true, if_false]
    rw [(trade_own_side e order []).2 hb2]

theorem ownSide_sorted {e : MatchingEngine} (h : Inv e) (order : Order) :
    ((ownSide order e).map Prod.fst).Pairwise (fun a b => a < b) := by
  unfold ownSide
  split_ifs
  · exact h.buySorted
  · exact h.sellSorted

/-- The levels of a map after `cancelOrder`, when the id is in the index. -/
theorem cancelOrder_levels (e : MatchingEngine) (id : String) (p : Nat) (h : Inv e)
    (hf : e.orderToPrice.find id = some p) :
    (e.cancelOrder id).buyPrices.map (fun l => (l.1, l.2.orders))
        = e.buyPrices.map
            (fun l => (l.1, l.2.orders.filter (fun o => !decide (o.orderId = id)))) ∧
      (e.cancelOrder id).sellPrices.map (fun l => (l.1, l.2.orders))
        = e.sellPrices.map
            (fun l => (l.1, l.2.orders.filter (fun o => !decide (o.orderId = id)))) := by
  have hnd := h.idsNodup
  unfold MatchingEngine.resting at hnd
  rw [List.map_append, List.nodup_append] at hnd
  have hk := h.key_of_id hf
  unfold cancelOrder
  simp only [hf]
  exact ⟨removeOrderInMap_filter id p _ h.buySorted hnd.1
      (fun y hy => hk y (List.mem_append_left _ hy)),
    removeOrderInMap_filter id p _ h.sellSorted hnd.2.1
      (fun y hy => hk y (List.mem_append_right _ hy))⟩

/-- C12. MODIFY loses time priority: on a reachable book, an accepted MODIFY line (five
tokens, resting id, side BUY or SELL, price and quantity parsed to positive values) gives
exactly the result of `cancelOrder` of the id followed by `placeOrder` of a new GFD order
with that id and the new side, price and quantity. If that order is not completely
filled (the crossing quantity `C` of the opposite side is below its quantity), it is the
last order of the level at its price on its new side, and the queue of that level is the
queue the level had before the command, without the modified order, followed by the new
order; this includes the case of an unchanged side and price. -/
theorem C12_modify_loses_priority (e : MatchingEngine) (line : String)
    (i0 i1 i2 i3 i4 : Item) (h : Reachable e)
    (hp : (ColumnsData.parseLine line).items = [i0, i1, i2, i3, i4])
    (h0 : i0.token = "MODIFY".data)
    (hrest : String.mk i1.token ∈ e.resting.map (fun x => x.2.orderId))
    (hside : sideOfToken i2.token ≠ TradeOperation.Unknown)
    (hprice : 0 < atoi i3.cstr) (hqty : 0 < atoi i4.cstr) :
    e.runCommand line =
        (e.cancelOrder (String.mk i1.token)).placeOrder
          (Order.ofFields (String.mk i1.token) (Order.toU32 (atoi i3.cstr))
            (Order.toU32 (atoi i4.cstr)) (sideOfToken i2.token)) [] ∧
      ∀ order, order = Order.ofFields (String.mk i1.token) (Order.toU32 (atoi i3.cstr))
          (Order.toU32 (atoi i4.cstr)) (sideOfToken i2.token) →
        ∀ C, C = totalQty ((priority order (e.cancelOrder order.orderId)).filter
            (crosses order)) →
        C < order.quantity →
        ∃ d, (order.price, d) ∈ ownSide order (e.runCommand line).1 ∧
          d.orders.getLast? = some { order with quantity := order.quantity - C } ∧
          ∀ d0, (order.price, d0) ∈ ownSide order e →
            d.orders = d0.orders.filter (fun o => !decide (o.orderId = order.orderId))
              ++ [{ order with quantity := order.quantity - C }] := by
  have hi := h.inv
  obtain ⟨x, hx, hid⟩ := List.mem_map.1 hrest
  have hf : e.orderToPrice.find (String.mk i1.token) = some x.1 :=
    (hi.index _ x.1).2 (List.mem_map.2 ⟨x, hx, by unfold engine.keyId; rw [hid]⟩)
  have hrun : e.runCommand line =
      (e.cancelOrder (String.mk i1.token)).placeOrder
        (Order.ofFields (String.mk i1.token) (Order.toU32 (atoi i3.cstr))
          (Order.toU32 (atoi i4.cstr)) (sideOfToken i2.token)) [] := by
    rw [runCommand_modify e line i0 i1 i2 i3 i4 hp h0]
    simp [hf, hside, not_le.2 hprice, not_le.2 hqty]
  refine ⟨hrun, ?_⟩
  intro order hord C hCdef hC
  have hw : order.WellFormed := by
    rw [hord]
    exact Order.ofFields_wellFormed _ _ _ _ hprice (atoi_range _).2 hqty (atoi_range _).2 hside
  have hoid : order.orderId = String.mk i1.token := by rw [hord]; rfl
  have hgfd : order.orderType = OrderType.GFD := by rw [hord]; rfl
  have hic := cancelOrder_inv e order.orderId hi
  have hfc : (e.cancelOrder order.orderId).orderToPrice.find order.orderId = none :=
    cancelOrder_find e order.orderId
  rw [hrun, ← hord, ← hoid]
  subst hCdef
  have hown := placeOrder_rest_own (e.cancelOrder order.orderId) order hic hw hgfd hfc hC
  rw [hown]
  obtain ⟨d, hd, hl, hall⟩ := PricesMap.updateAt_addOrder_level
    { order with quantity := order.quantity
        - totalQty ((priority order (e.cancelOrder order.orderId)).filter (crosses order)) }
    order.price (ownSide order (e.cancelOrder order.orderId)) (ownSide_sorted hic order)
  refine ⟨d, hd, hl, ?_⟩
  intro d0 hd0
  rw [← hoid] at hf
  obtain ⟨c1, c2⟩ := cancelOrder_levels e order.orderId x.1 hi hf
  have hlev : (ownSide order (e.cancelOrder order.orderId)).map (fun l => (l.1, l.2.orders))
      = (ownSide order e).map
          (fun l => (l.1, l.2.orders.filter (fun o => !decide (o.orderId = order.orderId)))) := by
    unfold ownSide
    split_ifs
    · exact c1
    · exact c2
  have hmem : (order.price, d0.orders.filter (fun o => !decide (o.orderId = order.orderId)))
      ∈ (ownSide order (e.cancelOrder order.orderId)).map (fun l => (l.1, l.2.orders)) := by
    rw [hlev]
    exact List.mem_map.2 ⟨(order.price, d0), hd0, rfl⟩
  obtain ⟨l, hl1, hl2⟩ := List.mem_map.1 hmem
  have hk : l.1 = order.price := congrArg Prod.fst hl2
  have ho : l.2.orders = d0.orders.filter (fun o => !decide (o.orderId = order.orderId)) :=
    congrArg Prod.snd hl2
  have hl3 : (order.price, l.2) ∈ ownSide order (e.cancelOrder order.orderId) := by
    rw [← hk]; exact hl1
  rw [hall l.2 hl3, ho]

theorem C12_modify_loses_priority_witness :
    Reachable exTwoBids ∧
      (MatchingEngine.runLines {}
          ["BUY GFD 100 10 B1", "MODIFY B1 SELL 100 10", "BUY GFD 100 10 B2"]).2
        = [Output.trade "B1" 100 10 "B2" 100 10] ∧
      (exTwoBids.buyPrices.map (fun l => (l.1, l.2.orders.map (fun o => o.orderId)))
          = [(100, ["B1", "B3"])] ∧
        (exTwoBids.runCommand "MODIFY B1 BUY 100 7").1.buyPrices.map
            (fun l => (l.1, l.2.orders.map (fun o => (o.orderId, o.quantity))))
          = [(100, [("B3", 4), ("B1", 7)])]) ∧
      exTwoBids.runCommand "MODIFY B1 BUY 100 7" =
        (exTwoBids.cancelOrder "B1").placeOrder
          (Order.ofFields "B1" (Order.toU32 (atoi "100 7".data)) (Order.toU32 (atoi "7".data))
            (sideOfToken "BUY".data)) [] :=
  ⟨reachable_runLines _, by decide, by decide,
    (C12_modify_loses_priority exTwoBids "MODIFY B1 BUY 100 7"
      ⟨"MODIFY".data, "MODIFY B1 BUY 100 7".data⟩ ⟨"B1".data, "B1 BUY 100 7".data⟩
      ⟨"BUY".data, "BUY 100 7".data⟩ ⟨"100".data, "100 7".data⟩ ⟨"7".data, "7".data⟩
      (reachable_runLines _) (by decide) (by decide) (by decide) (by decide) (by decide)
      (by decide)).1⟩

/-! ## Token counts and validation of new orders -/

theorem parseLine_eq (line : String) (items : List Item)
    (hp : (ColumnsData.parseLine line).items = items) :
    ColumnsData.parseLine line = { items := items, index := 0 } := by
  have hidx : (ColumnsData.parseLine line).index = 0 := rfl
  generalize ColumnsData.parseLine line = c at hp hidx
  obtain ⟨its, index⟩ := c
  simp only at hp hidx
  rw [hp, hidx]

/-- A line that is not dispatched to CANCEL, MODIFY or PRINT and whose order does not
pass the validation changes nothing and writes nothing. -/
theorem runCommand_invalid_order (e : MatchingEngine) (line : String)
    (hkey : ∀ i0 is, (ColumnsData.parseLine line).items = i0 :: is →
      i0.token ≠ "CANCEL".data ∧ i0.token ≠ "MODIFY".data ∧ i0.token ≠ "PRINT".data)
    (hinv : (Order.ofColumns (ColumnsData.parseLine line)).isValidFormat = false) :
    e.runCommand line = (e, []) := by
  cases hitems : (ColumnsData.parseLine line).items with
  | nil =>
    unfold runCommand
    simp [ColumnsData.empty, hitems]
  | cons i0 is =>
    obtain ⟨k1, k2, k3⟩ := hkey i0 is hitems
    have hc := parseLine_eq line _ hitems
    unfold runCommand
    rw [hc] at hinv ⊢
    simp [ColumnsData.empty, ColumnsData.compare, k1, k2, k3, hinv]

/-- A CANCEL or MODIFY line with the wrong number of tokens changes nothing and writes
nothing. -/
theorem runCommand_wrong_count (e : MatchingEngine) (line : String) (i0 : Item)
    (is : List Item) (hp : (ColumnsData.parseLine line).items = i0 :: is)
    (h : (i0.token = "CANCEL".data ∧ is.length + 1 ≠ 2) ∨
      (i0.token = "MODIFY".data ∧ is.length + 1 ≠ 5)) :
    e.runCommand line = (e, []) := by
  have hc := parseLine_eq line _ hp
  have hne1 : ¬ ("MODIFY".data = "CANCEL".data) := by decide
  unfold runCommand
  rw [hc]
  rcases h with ⟨h1, h2⟩ | ⟨h1, h2⟩
  · simp [ColumnsData.empty, ColumnsData.compare, h1, ColumnsData.getColumnsCount,
      EXPECTED_CANCEL_COLUMNS, h2]
  · simp [ColumnsData.empty, ColumnsData.compare, h1, hne1, ColumnsData.getColumnsCount,
      EXPECTED_MODIFY_COLUMNS, h2]

/-- A line with another number of tokens than five never gives a valid order. -/
theorem ofColumns_wrong_count (c : ColumnsData) (h : c.items.length ≠ 5) :
    (Order.ofColumns c).isValidFormat = false := by
  unfold Order.ofColumns
  simp [ColumnsData.getColumnsCount, EXPECTED_ORDER_COULMNS, h, Order.isValidFormat]

/-- C14, at the failing input: a two-token line whose first token is PRINT is not
discarded; `runCommand` writes the snapshot of the book. -/
theorem C14_print_ignores_token_count :
    tokens "PRINT now" = ["PRINT", "now"] ∧
      exOneAsk.runCommand "PRINT now"
        = (exOneAsk, [Output.group "SELL:", Output.level 100 10, Output.group "BUY:"]) :=
  ⟨by decide, by decide⟩

/-- The validation of the parsing constructor on a five-token line. -/
theorem ofColumns_valid_iff (line : String) (i0 i1 i2 i3 i4 : Item)
    (hp : (ColumnsData.parseLine line).items = [i0, i1, i2, i3, i4]) :
    (Order.ofColumns (ColumnsData.parseLine line)).isValidFormat = true ↔
      (i0.token = "BUY".data ∨ i0.token = "SELL".data) ∧
      (i1.token = "GFD".data ∨ i1.token = "IOC".data) ∧
      0 < atoi i2.cstr ∧ 0 < atoi i3.cstr := by
  rw [parseLine_eq line _ hp]
  unfold Order.ofColumns Order.isValidFormat
  simp only [ColumnsData.getColumnsCount, List.length_cons, List.length_nil,
    EXPECTED_ORDER_COULMNS, getTradeOperation, getOrderType, ColumnsData.compare,
    ColumnsData.forward, ColumnsData.getIntegerAndForward, ColumnsData.getStringAndForward,
    List.get?_cons_succ, List.get?_cons_zero, zero_add, Nat.reduceAdd, decide_eq_true_eq]
  by_cases a1 : i0.token = "BUY".data <;> by_cases a2 : i0.token = "SELL".data <;>
    by_cases b1 : i1.token = "GFD".data <;> by_cases b2 : i1.token = "IOC".data <;>
    by_cases c1 : atoi i2.cstr ≤ 0 <;> by_cases c2 : atoi i3.cstr ≤ 0 <;>
    simp [a1, a2, b1, b2, c1, c2, not_le.1, not_lt.2]

/-- C17, at the failing input: on a queue whose counter equals the sum of its members
(5 + 3 = 8), `subtract(0, 5)` with the whole quantity of the front order removes the
front order and leaves the counter at 8, while the remaining member sums to 3. -/
theorem C17_subtract_whole_front_stale :
    exLevel.totalQuantity = queueSum exLevel.orders ∧
      (exLevel.subtract 0 5).orders.map (fun o => (o.orderId, o.quantity)) = [("S2", 3)] ∧
      (exLevel.subtract 0 5).totalQuantity = 8 ∧
      queueSum (exLevel.subtract 0 5).orders = 3 :=
  ⟨by decide, by decide, by decide, by decide⟩

/-- The part of C17 the code satisfies: when less than the whole quantity of the front
order is subtracted, the front order keeps its place with the reduced quantity and the
counter goes down by exactly that amount. -/
theorem subtract_front_partial (d : OrdersData) (o : Order) (t : List Order) (q : Nat)
    (hd : d.orders = o :: t) (hsync : d.totalQuantity = queueSum d.orders)
    (hbound : d.totalQuantity < 2 ^ 32) (hq0 : 0 < q) (hq : q < o.quantity) :
    (d.subtract 0 q).orders = { o with quantity := o.quantity - q } :: t ∧
      (d.subtract 0 q).totalQuantity = queueSum (d.subtract 0 q).orders ∧
      (d.subtract 0 q).totalQuantity + q = d.totalQuantity := by
  rw [hd, queueSum_cons] at hsync
  have ho : o.quantity < 2 ^ 32 := by omega
  have hsub : o.subtract q = { o with quantity := o.quantity - q } :=
    Order.subtract_quantity o q (by omega) ho
  have hne : (o.subtract q).quantity ≠ 0 := by rw [hsub]; simp; omega
  have horders := OrdersData.subtract_zero_orders d o t q hd hne
  have htot : (d.subtract 0 q).totalQuantity = (d.totalQuantity + 2 ^ 32 - q % 2 ^ 32) % 2 ^ 32 := by
    unfold OrdersData.subtract
    simp [hd, Order.getQuantity, hne]
  rw [horders, hsub, htot, queueSum_cons]
  refine ⟨rfl, ?_, ?_⟩
  · simp only
    omega
  · omega

/-! ## Resting orders only shrink -/

theorem Derived.trans {x y z : Nat × Order} (h1 : Derived x y) (h2 : Derived y z) :
    Derived x z := by
  obtain ⟨a1, a2, a3, a4⟩ := h1
  obtain ⟨b1, b2, b3, b4⟩ := h2
  refine ⟨a1.trans b1, ?_, le_trans a3 b3, fun h => a4 (b4 h)⟩
  rw [a2, b2]

theorem DerivedFrom.self (e : MatchingEngine) (P : String → Prop) : DerivedFrom e e P :=
  ⟨fun y hy => Or.inl ⟨y, hy, Derived.refl y⟩, fun y hy => Or.inl ⟨y, hy, Derived.refl y⟩⟩

theorem DerivedFrom.mono {e e2 : MatchingEngine} {P Q : String → Prop}
    (h : DerivedFrom e e2 P) (hpq : ∀ id, P id → Q id) : DerivedFrom e e2 Q :=
  ⟨fun y hy => (h.1 y hy).imp id (hpq _), fun y hy => (h.2 y hy).imp id (hpq _)⟩

theorem DerivedFrom.compose {e e2 e3 : MatchingEngine} {P : String → Prop}
    (h1 : DerivedFrom e e2 P) (h2 : DerivedFrom e2 e3 P) : DerivedFrom e e3 P := by
  constructor
  · intro y hy
    rcases h2.1 y hy with ⟨x, hx, hd⟩ | hp
    · rcases h1.1 x hx with ⟨w, hw, hd2⟩ | hp
      · exact Or.inl ⟨w, hw, hd.trans hd2⟩
      · right
        have : y.2.orderId = x.2.orderId := by rw [hd.2.1]
        rw [this]; exact hp
    · exact Or.inr hp
  · intro y hy
    rcases h2.2 y hy with ⟨x, hx, hd⟩ | hp
    · rcases h1.2 x hx with ⟨w, hw, hd2⟩ | hp
      · exact Or.inl ⟨w, hw, hd.trans hd2⟩
      · right
        have : y.2.orderId = x.2.orderId := by rw [hd.2.1]
        rw [this]; exact hp
    · exact Or.inr hp

theorem trade_derivedFrom (e : MatchingEngine) (order : Order) (out : List Output) (h : Inv e)
    (hq : order.quantity < 2 ^ 32) (P : String → Prop) :
    DerivedFrom e (trade order e out).engine P := by
  rw [tradeLoop_eq_scan]
  split_ifs
  · have hb : ∀ x ∈ flatK e.sellPrices, x.2.quantity < 2 ^ 32 := by
      intro x hx
      have := (h.sellOK x hx).2.2.2.1
      omega
    obtain ⟨f1, _, _⟩ := scanLevels_effect (fun price => decide (price > order.getPrice))
      e.sellPrices order e.orderToPrice out hq hb
    exact ⟨fun y hy => Or.inl ⟨y, hy, Derived.refl y⟩, fun y hy => Or.inl (f1 y hy)⟩
  · have hb : ∀ x ∈ flatK e.buyPrices.reverse, x.2.quantity < 2 ^ 32 := by
      intro x hx
      have := (h.buyOK x ((flatK_reverse_perm _).mem_iff.1 hx)).2.2.2.1
      omega
    obtain ⟨f1, _, _⟩ := scanLevels_effect (fun price => decide (price < order.getPrice))
      e.buyPrices.reverse order e.orderToPrice out hq hb
    refine ⟨fun y hy => Or.inl ?_, fun y hy => Or.inl ⟨y, hy, Derived.refl y⟩⟩
    simp only [sellPass] at hy
    obtain ⟨x, hx, hd⟩ := f1 y ((flatK_reverse_perm _).mem_iff.1 hy)
    exact ⟨x, (flatK_reverse_perm _).mem_iff.1 hx, hd⟩

theorem placeOrder_derivedFrom (e : MatchingEngine) (order : Order) (out : List Output)
    (h : Inv e) (hw : order.WellFormed) :
    DerivedFrom e (e.placeOrder order out).1
      (fun id => id = order.orderId ∧ e.orderToPrice.find order.orderId = none) := by
  have hq : order.quantity < 2 ^ 32 := by
    have := hw.2.2.2.2.1
    omega
  cases hf : e.orderToPrice.find order.orderId with
  | some p =>
    rw [placeOrder_duplicate e order out p hf]
    exact DerivedFrom.self e _
  | none =>
    have htd := trade_derivedFrom e order out h hq
      (fun id => id = order.orderId ∧ (none : Option Nat) = none)
    obtain ⟨t1, t2, t3, t4, t5⟩ := trade_spec e order out h hq
    by_cases hrest : (trade order e out).result = false ∧ order.isInsertOrCancel = false
    · rw [placeOrder_rest e order out h hq hf hrest.1 hrest.2]
      have hid : (trade order e out).order.orderId = order.orderId := by rw [t2]
      obtain ⟨A, B, hA, hB⟩ := PricesMap.flatK_updateAt_addOrder (trade order e out).order
        order.price (trade order e out).engine.buyPrices
      obtain ⟨A2, B2, hA2, hB2⟩ := PricesMap.flatK_updateAt_addOrder (trade order e out).order
        order.price (trade order e out).engine.sellPrices
      split_ifs
      · refine ⟨?_, htd.2⟩
        intro y hy
        simp only at hy
        rw [hB] at hy
        rcases List.mem_append.1 hy with hy | hy
        · exact htd.1 y (by rw [hA]; exact List.mem_append_left _ hy)
        · rcases List.mem_cons.1 hy with rfl | hy
          · exact Or.inr ⟨hid, rfl⟩
          · exact htd.1 y (by rw [hA]; exact List.mem_append_right _ hy)
      · refine ⟨htd.1, ?_⟩
        intro y hy
        simp only at hy
        rw [hB2] at hy
        rcases List.mem_append.1 hy with hy | hy
        · exact htd.2 y (by rw [hA2]; exact List.mem_append_left _ hy)
        · rcases List.mem_cons.1 hy with rfl | hy
          · exact Or.inr ⟨hid, rfl⟩
          · exact htd.2 y (by rw [hA2]; exact List.mem_append_right _ hy)
    · have hnr : (trade order e out).result = true ∨
          (trade order e out).order.isInsertOrCancel = true := by
        by_cases hr : (trade order e out).result = true
        · exact Or.inl hr
        · right
          have hr2 : (trade order e out).result = false := by simpa using hr
          have : ¬ order.isInsertOrCancel = false := fun hh => hrest ⟨hr2, hh⟩
          rw [t2]
          simpa [Order.isInsertOrCancel] using this
      rw [placeOrder_no_rest e order out hf hnr]
      exact htd

theorem cancelOrder_derivedFrom (e : MatchingEngine) (id : String) (h : Inv e)
    (P : String → Prop) : DerivedFrom e (e.cancelOrder id) P := by
  cases hf : e.orderToPrice.find id with
  | none =>
    rw [cancelOrder_absent e id hf]
    exact DerivedFrom.self e P
  | some p =>
    obtain ⟨c1, c2⟩ := cancelOrder_resting e id p h hf
    constructor
    · intro y hy
      rw [c1] at hy
      exact Or.inl ⟨y, (List.mem_filter.1 hy).1, Derived.refl y⟩
    · intro y hy
      rw [c2] at hy
      exact Or.inl ⟨y, (List.mem_filter.1 hy).1, Derived.refl y⟩

theorem modifyOrder_derivedFrom (e : MatchingEngine) (c : ColumnsData) (out : List Output)
    (h : Inv e) :
    DerivedFrom e (e.modifyOrder c out).1
      (fun id => id = c.forward.getStringAndForward.1) := by
  unfold modifyOrder
  simp only
  split_ifs with h1 h2 h3 h4
  · exact DerivedFrom.self e _
  · exact DerivedFrom.self e _
  · exact DerivedFrom.self e _
  · exact DerivedFrom.self e _
  · have hw := Order.ofFields_wellFormed c.forward.getStringAndForward.1 _ _ _ (not_le.1 h3)
      (getIntegerAndForward_range _).2 (not_le.1 h4) (getIntegerAndForward_range _).2 h2
    have hp := placeOrder_derivedFrom (e.cancelOrder c.forward.getStringAndForward.1) _ out
      (cancelOrder_inv e _ h) hw
    exact (cancelOrder_derivedFrom e _ h _).compose (hp.mono (fun id hid => hid.1))

theorem tokens_modify (line : String)
    (h1 : (ColumnsData.parseLine line).compare "MODIFY" = true)
    (h2 : (ColumnsData.parseLine line).getColumnsCount = EXPECTED_MODIFY_COLUMNS) :
    ∃ rest, tokens line
      = "MODIFY" :: (ColumnsData.parseLine line).forward.getStringAndForward.1 :: rest := by
  unfold tokens
  have hidx : (ColumnsData.parseLine line).index = 0 := rfl
  generalize ColumnsData.parseLine line = c at h1 h2 hidx ⊢
  obtain ⟨items, index⟩ := c
  simp only at hidx
  subst hidx
  simp only [ColumnsData.getColumnsCount, EXPECTED_MODIFY_COLUMNS] at h2
  match items, h2 with
  | [i0, i1, i2, i3, i4], _ =>
    simp only [ColumnsData.compare, List.get?_cons_zero, decide_eq_true_eq] at h1
    refine ⟨[String.mk i2.token, String.mk i3.token, String.mk i4.token], ?_⟩
    simp [ColumnsData.forward, ColumnsData.getStringAndForward, h1]

/-- What a command does to the resting orders: every order that rests afterwards comes
from an order that rested before on the same side, by a reduction of its quantity,
unless its id did not rest before or the command is a MODIFY of its id. -/
theorem runCommand_derivedFrom (e : MatchingEngine) (line : String) (h : Inv e) :
    DerivedFrom e (e.runCommand line).1
      (fun id => id ∉ e.resting.map (fun x => x.2.orderId) ∨
        ∃ rest, tokens line = "MODIFY" :: id :: rest) := by
  unfold runCommand
  simp only
  split_ifs with h1 h2 h3 h4 h5 h6 h7
  · exact DerivedFrom.self e _
  · exact cancelOrder_derivedFrom e _ h _
  · exact DerivedFrom.self e _
  · refine (modifyOrder_derivedFrom e _ [] h).mono ?_
    intro id hid
    right
    obtain ⟨rest, hr⟩ := tokens_modify line h4 h5
    exact ⟨rest, by rw [hr, hid]⟩
  · exact DerivedFrom.self e _
  · exact DerivedFrom.self e _
  · exact DerivedFrom.self e _
  · refine (placeOrder_derivedFrom e _ [] h
      (Order.ofColumns_wellFormed _ (by simpa using h7))).mono ?_
    intro id hid
    left
    rw [hid.1]
    exact h.id_not_resting hid.2

theorem Inv.eq_of_id {e : MatchingEngine} (h : Inv e) {x y : Nat × Order}
    (hx : x ∈ e.resting) (hy : y ∈ e.resting) (hid : x.2.orderId = y.2.orderId) : x = y :=
  List.inj_on_of_nodup_map h.idsNodup hx hy hid

theorem Inv.side_of_mem {e : MatchingEngine} (h : Inv e) {x : Nat × Order}
    (hx : x ∈ e.resting) :
    (x ∈ flatK e.buyPrices ↔ x.2.tradeOperation = TradeOperation.Buy) := by
  constructor
  · intro hb; exact (h.buyOK x hb).2.2.2.2
  · intro hb
    rcases List.mem_append.1 hx with hx | hx
    · exact hx
    · have := (h.sellOK x hx).2.2.2.2
      rw [hb] at this
      cases this

/-- C19. Resting quantities stay positive and never grow: in every reachable state every
resting order has a positive price and a positive remaining quantity; and for every
command, an order that rests before and after the command under the same id (the command
not being a MODIFY of that id, or the command having left the engine unchanged) is in
the same level of the same side, has the same price, and has a remaining quantity not
above its previous one. -/
theorem C19_quantities_positive_nonincreasing (e : MatchingEngine) (line : String)
    (h : Reachable e) :
    (∀ x ∈ e.resting, 0 < x.2.price ∧ 0 < x.2.quantity) ∧
      ∀ x y, x ∈ e.resting → y ∈ (e.runCommand line).1.resting →
        y.2.orderId = x.2.orderId →
        ((¬ ∃ rest, tokens line = "MODIFY" :: x.2.orderId :: rest) ∨
          (e.runCommand line).1 = e) →
        y.1 = x.1 ∧ y.2.price = x.2.price ∧ y.2.tradeOperation = x.2.tradeOperation ∧
          (y ∈ flatK (e.runCommand line).1.buyPrices ↔ x ∈ flatK e.buyPrices) ∧
          y.2.quantity ≤ x.2.quantity := by
  have hi := h.inv
  have hi2 := runCommand_inv e line hi
  constructor
  · intro x hx
    rcases List.mem_append.1 hx with hx | hx
    · obtain ⟨a, b, c, _, _⟩ := hi.buyOK x hx
      exact ⟨by rw [a]; exact b, c⟩
    · obtain ⟨a, b, c, _, _⟩ := hi.sellOK x hx
      exact ⟨by rw [a]; exact b, c⟩
  · intro x y hx hy hid hcmd
    have hder : Derived y x := by
      rcases hcmd with hcmd | hcmd
      · have hdf := runCommand_derivedFrom e line hi
        have hcase : (∃ w ∈ e.resting, Derived y w) ∨
            (y.2.orderId ∉ e.resting.map (fun x => x.2.orderId) ∨
              ∃ rest, tokens line = "MODIFY" :: y.2.orderId :: rest) := by
          rcases List.mem_append.1 hy with hy | hy
          · exact (hdf.1 y hy).imp
              (fun ⟨w, hw, hd⟩ => ⟨w, List.mem_append_left _ hw, hd⟩) id
          · exact (hdf.2 y hy).imp
              (fun ⟨w, hw, hd⟩ => ⟨w, List.mem_append_right _ hw, hd⟩) id
        rcases hcase with ⟨w, hw, hd⟩ | hnr | hmod
        · have hwid : w.2.orderId = x.2.orderId := by
            rw [← hid, hd.2.1]
          rw [← hi.eq_of_id hw hx hwid]
          exact hd
        · exact absurd (List.mem_map.2 ⟨x, hx, hid.symm⟩) hnr
        · rw [hid] at hmod
          exact absurd hmod hcmd
      · rw [hcmd] at hy
        rw [hi.eq_of_id hy hx hid]
        exact Derived.refl x
    obtain ⟨d1, d2, d3, _⟩ := hder
    have hop : y.2.tradeOperation = x.2.tradeOperation := by rw [d2]
    refine ⟨d1, by rw [d2], hop, ?_, d3⟩
    rw [hi2.side_of_mem hy, hi.side_of_mem hx, hop]

theorem C19_quantities_positive_nonincreasing_witness :
    Reachable exOneAsk ∧
      (exOneAsk.resting.map (fun x => (x.2.orderId, x.2.quantity)) = [("S1", 10)] ∧
        (exOneAsk.runCommand "BUY GFD 100 4 B7").1.resting.map
            (fun x => (x.2.orderId, x.2.quantity)) = [("S1", 6)]) ∧
      ((100, Order.mk "S1" 100 6 OrderType.GFD TradeOperation.Sell true).2.quantity
        ≤ (100, Order.mk "S1" 100 10 OrderType.GFD TradeOperation.Sell true).2.quantity) :=
  ⟨reachable_runLines _, by decide,
    ((C19_quantities_positive_nonincreasing exOneAsk "BUY GFD 100 4 B7"
      (reachable_runLines _)).2
      (100, Order.mk "S1" 100 10 OrderType.GFD TradeOperation.Sell true)
      (100, Order.mk "S1" 100 6 OrderType.GFD TradeOperation.Sell true)
      (by decide) (by decide) (by decide)
      (Or.inl (fun ⟨rest, hr⟩ => by
        have h1 : (tokens "BUY GFD 100 4 B7").head? = some "MODIFY" := by rw [hr]; rfl
        revert h1
        decide))).2.2.2.2⟩

/-! ## The repeated scan is redundant -/

/-- After a `for` loop that did not fill the incoming order, the same loop run again
changes nothing. -/
theorem scanLevels_second_pass (stop : Nat → Bool) (lv : List (Nat × OrdersData))
    (order : Order) (idx : OrderToPrice) (out : List Output)
    (hr : (scanLevels stop order idx out lv).result = false) :
    scanLevels stop (scanLevels stop order idx out lv).order
        (scanLevels stop order idx out lv).orderToPrice (scanLevels stop order idx out lv).out
        (scanLevels stop order idx out lv).levels
      = { result := false, order := (scanLevels stop order idx out lv).order,
          levels := (scanLevels stop order idx out lv).levels,
          orderToPrice := (scanLevels stop order idx out lv).orderToPrice,
          out := (scanLevels stop order idx out lv).out } :=
  scanLevels_noop stop _ _ _ _ (scanLevels_false_empty stop lv order idx out hr)

theorem buyPass_second_pass (order : Order) (e : MatchingEngine) (out : List Output)
    (hr : (buyPass order e out).result = false) :
    buyPass (buyPass order e out).order (buyPass order e out).engine (buyPass order e out).out
      = buyPass order e out := by
  have hprice : (buyPass order e out).order.getPrice = order.getPrice := by
    have := (scanLevels_order (fun price => decide (price > order.getPrice)) e.sellPrices order
      e.orderToPrice out).1
    simp only [buyPass]
    rw [this]
    rfl
  have h2 := scanLevels_second_pass (fun price => decide (price > order.getPrice)) e.sellPrices
    order e.orderToPrice out hr
  have hr2 : (scanLevels (fun price => decide (price > order.getPrice)) order e.orderToPrice out
      e.sellPrices).result = false := hr
  unfold buyPass at hprice ⊢
  simp only [hprice, h2, hr2]

theorem sellPass_second_pass (order : Order) (e : MatchingEngine) (out : List Output)
    (hr : (sellPass order e out).result = false) :
    sellPass (sellPass order e out).order (sellPass order e out).engine
        (sellPass order e out).out
      = sellPass order e out := by
  have hprice : (sellPass order e out).order.getPrice = order.getPrice := by
    have := (scanLevels_order (fun price => decide (price < order.getPrice))
      e.buyPrices.reverse order e.orderToPrice out).1
    simp only [sellPass]
    rw [this]
    rfl
  have h2 := scanLevels_second_pass (fun price => decide (price < order.getPrice))
    e.buyPrices.reverse order e.orderToPrice out hr
  have hr2 : (scanLevels (fun price => decide (price < order.getPrice)) order e.orderToPrice out
      e.buyPrices.reverse).result = false := hr
  unfold sellPass at hprice ⊢
  simp only [hprice, List.reverse_reverse, h2, hr2]

/-- Two passes are always enough for the buy loop. -/
theorem tradeBuyLoop_two (n : Nat) (order : Order) (e : MatchingEngine) (out : List Output)
    (hn : 2 ≤ n) : tradeBuyLoop n order e out = buyPass order e out := by
  obtain ⟨m, rfl⟩ : ∃ m, n = m + 1 + 1 := ⟨n - 2, by omega⟩
  unfold buyPass
  rw [tradeBuyLoop]
  cases hsp : e.sellPrices with
  | nil =>
    obtain ⟨b, s, i⟩ := e
    simp only at hsp
    subst hsp
    simp [scanLevels]
  | cons l rest =>
    simp only [List.isEmpty_cons, Bool.false_eq_true, if_false]
    generalize hs : scanLevels (fun price => decide (price > order.getPrice)) order
      e.orderToPrice out (l :: rest) = s
    cases hr : s.result with
    | true => simp
    | false =>
      simp only [Bool.false_eq_true, if_false]
      by_cases hq : order.getQuantity = s.order.getQuantity
      · simp [hq]
      · have hord := scanLevels_order (fun price => decide (price > order.getPrice))
          (l :: rest) order e.orderToPrice out
        rw [hs] at hord
        have hprice : s.order.getPrice = order.getPrice := by
          rw [hord.1]; rfl
        have hempty := scanLevels_false_empty (fun price => decide (price > order.getPrice))
          (l :: rest) order e.orderToPrice out
        rw [hs] at hempty
        have hnoop := scanLevels_noop (fun price => decide (price > order.getPrice))
          s.levels s.order s.orderToPrice s.out (hempty hr)
        simp only [ne_eq, hq, not_false_eq_true, if_true, tradeBuyLoop, hprice, hnoop]
        split_ifs <;> first | rfl | contradiction

/-- Two passes are always enough for the sell loop. -/
theorem tradeSellLoop_two (n : Nat) (order : Order) (e : MatchingEngine) (out : List Output)
    (hn : 2 ≤ n) : tradeSellLoop n order e out = sellPass order e out := by
  obtain ⟨m, rfl⟩ : ∃ m, n = m + 1 + 1 := ⟨n - 2, by omega⟩
  unfold sellPass
  rw [tradeSellLoop]
  cases hsp : e.buyPrices with
  | nil =>
    obtain ⟨b, s, i⟩ := e
    simp only at hsp
    subst hsp
    simp [scanLevels]
  | cons l rest =>
    simp only [List.isEmpty_cons, Bool.false_eq_true, if_false]
    generalize hs : scanLevels (fun price => decide (price < order.getPrice)) order
      e.orderToPrice out (l :: rest).reverse = s
    cases hr : s.result with
    | true => simp
    | false =>
      simp only [Bool.false_eq_true, if_false]
      by_cases hq : order.getQuantity = s.order.getQuantity
      · simp [hq]
      · have hord := scanLevels_order (fun price => decide (price < order.getPrice))
          (l :: rest).reverse order e.orderToPrice out
        rw [hs] at hord
        have hprice : s.order.getPrice = order.getPrice := by
          rw [hord.1]; rfl
        have hempty := scanLevels_false_empty (fun price => decide (price < order.getPrice))
          (l :: rest).reverse order e.orderToPrice out
        rw [hs] at hempty
        have hnoop := scanLevels_noop (fun price => decide (price < order.getPrice))
          s.levels s.order s.orderToPrice s.out (hempty hr)
        simp only [ne_eq, hq, not_false_eq_true, if_true, tradeSellLoop, hprice,
          List.reverse_reverse, hnoop]
        split_ifs <;> first | rfl | contradiction

/-- C20. The repeated scan is redundant: for every book and every incoming order,
`trade(Order&)` returns what the variant with exactly one scan returns (same return value,
incoming order, book, index and output); when the first pass of either loop has not
filled the order, running the pass again on its result changes nothing and writes
nothing, so the loop condition fails after the second pass; and the loops give the same
result with any allowance of at least two passes. -/
theorem C20_repeated_scan_redundant (order : Order) (e : MatchingEngine) (out : List Output) :
    trade order e out = tradeSingleScan order e out ∧
      ((buyPass order e out).result = false →
        buyPass (buyPass order e out).order (buyPass order e out).engine
          (buyPass order e out).out = buyPass order e out) ∧
      ((sellPass order e out).result = false →
        sellPass (sellPass order e out).order (sellPass order e out).engine
          (sellPass order e out).out = sellPass order e out) ∧
      ∀ n, 2 ≤ n →
        tradeBuyLoop n order e out = tradeBuyLoop 2 order e out ∧
        tradeSellLoop n order e out = tradeSellLoop 2 order e out :=
  ⟨tradeLoop_eq_scan order e out, buyPass_second_pass order e out,
    sellPass_second_pass order e out,
    fun n hn => ⟨(tradeBuyLoop_two n order e out hn).trans
        (tradeBuyLoop_two 2 order e out le_rfl).symm,
      (tradeSellLoop_two n order e out hn).trans
        (tradeSellLoop_two 2 order e out le_rfl).symm⟩⟩

theorem C20_repeated_scan_redundant_witness :
    (buyPass exLargeBuy exOneAsk []).result = false ∧
      (buyPass exLargeBuy exOneAsk []).out = [Output.trade "S1" 100 10 "B2" 100 10] ∧
      (buyPass exLargeBuy exOneAsk []).order.quantity = 5 ∧
      buyPass (buyPass exLargeBuy exOneAsk []).order (buyPass exLargeBuy exOneAsk []).engine
        (buyPass exLargeBuy exOneAsk []).out = buyPass exLargeBuy exOneAsk [] :=
  ⟨by decide, by decide, by decide,
    (C20_repeated_scan_redundant exLargeBuy exOneAsk []).2.1 (by decide)⟩

/-! ## The parsed value of a field and the text of its token -/

/-- Every item of a parsed line starts its C string with its token; the token is not
empty and holds no blank, and what follows it is the end of the line or a blank. -/
theorem parseLineAux_items (l : List Char) :
    ∀ (cur : Option (List Char × List Char)),
      (∀ tok start, cur = some (tok, start) → start = tok ++ l ∧ tok ≠ []) →
      ∀ i ∈ parseLineAux cur l, ∃ rest, i.cstr = i.token ++ rest ∧ i.token ≠ [] ∧
        (rest = [] ∨ ∃ r, rest = ' ' :: r) := by
  induction l with
  | nil =>
    intro cur hcur i hi
    match cur, hcur, hi with
    | none, _, hi => simp [parseLineAux] at hi
    | some (tok, start), hcur, hi =>
      simp only [parseLineAux, List.mem_singleton] at hi
      obtain ⟨h1, h2⟩ := hcur tok start rfl
      subst hi
      exact ⟨[], by simpa using h1, h2, Or.inl rfl⟩
  | cons c cs ih =>
    intro cur hcur i hi
    match cur, hcur, hi with
    | none, _, hi =>
      simp only [parseLineAux] at hi
      split_ifs at hi with hc
      · exact ih none (fun _ _ h => by cases h) i hi
      · refine ih (some ([c], c :: cs)) ?_ i hi
        intro tok start h
        cases h
        exact ⟨rfl, by simp⟩
    | some (tok, start), hcur, hi =>
      obtain ⟨h1, h2⟩ := hcur tok start rfl
      simp only [parseLineAux] at hi
      split_ifs at hi with hc
      · rcases List.mem_cons.1 hi with rfl | hi
        · exact ⟨c :: cs, h1, h2, Or.inr ⟨cs, by rw [hc]⟩⟩
        · exact ih none (fun _ _ h => by cases h) i hi
      · refine ih (some (tok ++ [c], start)) ?_ i hi
        intro tok2 start2 h
        cases h
        exact ⟨by rw [h1]; simp, by simp⟩

theorem digitsValue_append (cs rest : List Char) (hrest : rest = [] ∨ ∃ r, rest = ' ' :: r) :
    ∀ acc, digitsValue acc (cs ++ rest) = digitsValue acc cs := by
  induction cs with
  | nil =>
    intro acc
    rcases hrest with rfl | ⟨r, rfl⟩
    · rfl
    · have : isdigit ' ' = false := by decide
      simp [digitsValue, this]
  | cons c t ih =>
    intro acc
    simp only [List.cons_append, digitsValue]
    split_ifs
    · exact ih _
    · rfl

theorem skipSpaces_append (tok rest : List Char) (h : ∃ c ∈ tok, isspace c = false) :
    skipSpaces (tok ++ rest) = skipSpaces tok ++ rest ∧ skipSpaces tok ≠ [] := by
  induction tok with
  | nil => obtain ⟨c, hc, _⟩ := h; simp at hc
  | cons a t ih =>
    simp only [List.cons_append, skipSpaces]
    by_cases ha : isspace a = true
    · simp only [ha, if_true]
      obtain ⟨c, hc, hcs⟩ := h
      rcases List.mem_cons.1 hc with rfl | hc
      · rw [ha] at hcs; cases hcs
      · exact ih ⟨c, hc, hcs⟩
    · simp [ha]

theorem signedValue_append (u rest : List Char) (hu : u ≠ [])
    (hrest : rest = [] ∨ ∃ r, rest = ' ' :: r) (hskip : skipSpaces (u ++ rest) = u ++ rest)
    (hskip2 : skipSpaces u = u) :
    signedValue (u ++ rest) = signedValue u := by
  unfold signedValue
  rw [hskip, hskip2]
  match u, hu with
  | c :: cs, _ =>
    simp only [List.cons_append]
    by_cases h1 : c = '-'
    · subst h1
      simp only [digitsValue_append cs rest hrest]
    · by_cases h2 : c = '+'
      · subst h2
        simp only [digitsValue_append cs rest hrest]
      · have e1 : ∀ (l : List Char), (match c :: l with
            | '-' :: cs => - (digitsValue 0 cs : Int)
            | '+' :: cs => (digitsValue 0 cs : Int)
            | cs => (digitsValue 0 cs : Int)) = (digitsValue 0 (c :: l) : Int) := by
          intro l
          split
          · rename_i heq; exact absurd (List.cons.inj heq).1 h1
          · rename_i heq; exact absurd (List.cons.inj heq).1 h2
          · rfl
        rw [e1, e1, ← List.cons_append, digitsValue_append (c :: cs) rest hrest]

theorem skipSpaces_idem (l : List Char) : skipSpaces (skipSpaces l) = skipSpaces l := by
  induction l with
  | nil => rfl
  | cons a t ih =>
    simp only [skipSpaces]
    split_ifs with h
    · exact ih
    · simp [skipSpaces, h]

theorem signedValue_skip (l : List Char) : signedValue (skipSpaces l) = signedValue l := by
  unfold signedValue
  rw [skipSpaces_idem]

/-- For every field of a parsed line whose token holds a character that is not white
space, the value `atoi` reads at the first character of the token in the line is the
value of the text of the token. -/
theorem atoi_cstr_eq_token (line : String) (i : Item)
    (hi : i ∈ (ColumnsData.parseLine line).items) (h : ∃ c ∈ i.token, isspace c = false) :
    atoi i.cstr = atoi i.token := by
  obtain ⟨rest, hc, _, hrest⟩ := parseLineAux_items line.data none (fun _ _ hh => by cases hh) i hi
  obtain ⟨s1, s2⟩ := skipSpaces_append i.token rest h
  have hsig : signedValue i.cstr = signedValue i.token := by
    rw [hc, ← signedValue_skip (i.token ++ rest), ← signedValue_skip i.token, s1]
    refine signedValue_append _ rest s2 hrest ?_ (skipSpaces_idem _)
    rw [← s1, skipSpaces_idem]
  unfold atoi
  rw [hsig]

/-! ## Numeric fields whose token is white space only -/

/-- The part of C11 the code satisfies: on a reachable book, a five-token MODIFY line
whose id does not rest, or whose side token is neither BUY nor SELL, or whose price or
quantity token holds a character that is not white space and has a value `≤ 0`, leaves
both maps and the index unchanged and writes nothing. -/
theorem modify_rejected_atomic (e : MatchingEngine) (line : String)
    (i0 i1 i2 i3 i4 : Item) (h : Reachable e)
    (hp : (ColumnsData.parseLine line).items = [i0, i1, i2, i3, i4])
    (h0 : i0.token = "MODIFY".data)
    (hrej : String.mk i1.token ∉ e.resting.map (fun x => x.2.orderId) ∨
      (i2.token ≠ "BUY".data ∧ i2.token ≠ "SELL".data) ∨
      ((∃ c ∈ i3.token, isspace c = false) ∧ atoi i3.token ≤ 0) ∨
      ((∃ c ∈ i4.token, isspace c = false) ∧ atoi i4.token ≤ 0)) :
    e.runCommand line = (e, []) := by
  refine modify_rejected_parsed e line i0 i1 i2 i3 i4 h hp h0 ?_
  rcases hrej with h1 | h1 | ⟨hc, hv⟩ | ⟨hc, hv⟩
  · exact Or.inl h1
  · exact Or.inr (Or.inl h1)
  · right; right; left
    rw [atoi_cstr_eq_token line i3 (by rw [hp]; simp) hc]
    exact hv
  · right; right; right
    rw [atoi_cstr_eq_token line i4 (by rw [hp]; simp) hc]
    exact hv

/-- The part of C15 the code satisfies: for a five-token line whose third and fourth
tokens each hold a character that is not white space, the order built from the line is
valid exactly when the first token is BUY or SELL, the second is GFD or IOC, and the
third and the fourth token each have a value above 0. -/
theorem ofColumns_valid_iff_tokens (line : String) (i0 i1 i2 i3 i4 : Item)
    (hp : (ColumnsData.parseLine line).items = [i0, i1, i2, i3, i4])
    (h2 : ∃ c ∈ i2.token, isspace c = false) (h3 : ∃ c ∈ i3.token, isspace c = false) :
    (Order.ofColumns (ColumnsData.parseLine line)).isValidFormat = true ↔
      (i0.token = "BUY".data ∨ i0.token = "SELL".data) ∧
      (i1.token = "GFD".data ∨ i1.token = "IOC".data) ∧
      0 < atoi i2.token ∧ 0 < atoi i3.token := by
  rw [ofColumns_valid_iff line i0 i1 i2 i3 i4 hp,
    atoi_cstr_eq_token line i2 (by rw [hp]; simp) h2,
    atoi_cstr_eq_token line i3 (by rw [hp]; simp) h3]

/-- C11, at the failing input: on the book after `BUY GFD 100 10 B1`, the five-token line
`MODIFY B1 SELL <tab> 5` has a price token with the value 0, and `runCommand` does not
reject it: `atoi` runs past the tab and the blank behind it, price and quantity are both
read as 5, and B1 is cancelled and rests again as a sell order of 5 at 5. -/
theorem C11_modify_blank_price_accepted :
    tokens "MODIFY B1 SELL \t 5" = ["MODIFY", "B1", "SELL", "\t", "5"] ∧
      atoi "\t".data = 0 ∧
      exOneBid.resting.map (fun x => (x.2.orderId, x.2.tradeOperation, x.2.price, x.2.quantity))
        = [("B1", TradeOperation.Buy, 100, 10)] ∧
      (exOneBid.runCommand "MODIFY B1 SELL \t 5").1.resting.map
          (fun x => (x.2.orderId, x.2.tradeOperation, x.2.price, x.2.quantity))
        = [("B1", TradeOperation.Sell, 5, 5)] :=
  ⟨by decide, by decide, by decide, by decide⟩

/-- C15, at the failing input: the third token of the five-token line
`BUY GFD <tab> 5 X7` has the value 0, and the order built from the line is valid, with
price 5 and quantity 5: `atoi` runs past the tab and the blank behind it and reads the
fourth token as the price. `runCommand` rests the order. -/
theorem C15_blank_price_token_valid :
    tokens "BUY GFD \t 5 X7" = ["BUY", "GFD", "\t", "5", "X7"] ∧
      atoi "\t".data = 0 ∧
      (Order.ofColumns (ColumnsData.parseLine "BUY GFD \t 5 X7")).isValidFormat = true ∧
      (Order.ofColumns (ColumnsData.parseLine "BUY GFD \t 5 X7")).price = 5 ∧
      (Order.ofColumns (ColumnsData.parseLine "BUY GFD \t 5 X7")).quantity = 5 ∧
      (MatchingEngine.runCommand {} "BUY GFD \t 5 X7").1.resting.map
          (fun x => (x.2.orderId, x.2.tradeOperation, x.2.price, x.2.quantity))
        = [("X7", TradeOperation.Buy, 5, 5)] :=
  ⟨by decide, by decide, by decide, by decide, by decide, by decide⟩

end engine
